import Mathlib

/-!
CScout: refactoring pass, identifier post-processing and function metrics.

A shallow embedding of parts of `refactor/cscout.cpp` and `src/funmetrics.cpp`.
Types whose declarations live in headers that are not part of the sources at hand
(`Fileid`, `Tokid`, `Eclass`, `Identifier`, `IdProp`, `IFSet`, `Metrics`, `Call`)
are represented by records that carry exactly the accessor results the embedded
functions read.
-/

namespace CScout

/-! ## Data model -/

/-- A `Fileid` is a handle on an interned file; the handle is its integer id. -/
abbrev Fileid := Nat

/-- A `Tokid`: a file and a stream position in it (`Tokid(fid, in.tellg())`). -/
structure Tokid where
  fileid : Fileid
  offs : Int
deriving DecidableEq, Repr

/-- An `Eclass *` is represented by its address. -/
abbrev EcPtr := Nat

/-- The parts of an `Eclass` the embedded code reads: `get_len()`, `is_identifier()`,
`get_attribute(is_readonly)` and the member set. -/
structure Eclass where
  len : Int
  is_identifier : Bool
  is_readonly : Bool := false
  members : List Tokid
deriving DecidableEq, Repr

/-- An `Identifier`: name, replacement name, cross-file flag and replaced flag
(`get_id`, `get_newid`, `get_xfile`, `get_replaced`). -/
structure Identifier where
  id : List Char
  newid : List Char
  xfile : Bool
  replaced : Bool
deriving DecidableEq, Repr

/-- The analysis state the refactoring pass reads: the file registry attributes, the
process-wide Tokid to Eclass map (`Tokid::check_ec`), the equivalence classes behind
the pointers, and `ids`, the `IdProp` map from `Eclass *` to `Identifier` in key order. -/
structure World where
  path : Fileid → String
  readonly : Fileid → Bool
  tokmap : Tokid → Option EcPtr
  ecs : EcPtr → Eclass
  ids : List (EcPtr × Identifier)

/-- The lookup `ids.find(ec)`: the identifier stored for the class, if any. -/
def IdProp.find (ids : List (EcPtr × Identifier)) (ec : EcPtr) : Option Identifier :=
  match ids with
  | [] => none
  | (k, v) :: rest => if k = ec then some v else IdProp.find rest ec

/-! ## Input streams -/

/-- An `ifstream` opened in binary mode: the bytes of the file, the read position and
the fail state (set once a read hits the end of the file). -/
structure IStream where
  data : List Char
  pos : Nat
  fail : Bool
deriving DecidableEq, Repr

/-- The call `in.tellg()`: the read position, or -1 once the stream has failed. -/
def IStream.tellg (s : IStream) : Int :=
  if s.fail then -1 else (s.pos : Int)

/-- The call `in.get()`: the next byte and the advanced stream, or `none` (EOF) with the fail
state set. -/
def IStream.get (s : IStream) : Option Char × IStream :=
  if s.fail then (none, s)
  else
    match s.data[s.pos]? with
    | some c => (some c, { s with pos := s.pos + 1 })
    | none => (none, { s with fail := true })

/-- The loop `for (int j = 1; j < len; j++) (void)in.get();` run as `n` calls of `get`. -/
def IStream.skip : Nat → IStream → IStream
  | 0, s => s
  | n + 1, s => IStream.skip n s.get.2

/-! ## file_replace -/

/-- The test of `file_replace` on the class found at a Tokid: the class is an
identifier, it has an entry in `ids`, and the entry is flagged replaced. Returns the
class and its identifier when the token is to be replaced. -/
def replace_target (w : World) (ti : Tokid) : Option (Eclass × Identifier) :=
  match w.tokmap ti with
  | none => none
  | some ec =>
    if (w.ecs ec).is_identifier then
      match IdProp.find w.ids ec with
      | none => none
      | some idp => if idp.replaced then some (w.ecs ec, idp) else none
    else none

/-- The `for (;;)` loop of `file_replace`: `out` is what has been written to the
`.repl` stream, `replacements` the counter (an `int` in the source; it counts at most
one replacement per input byte and is taken not to overflow). One unit of fuel is one
iteration; `none` means the fuel ran out before the loop reached EOF. -/
def file_replace_loop (w : World) (fid : Fileid) :
    Nat → IStream → List Char → Nat → Option (List Char × Nat)
  | 0, _, _, _ => none
  | fuel + 1, inp, out, replacements =>
    let ti : Tokid := ⟨fid, inp.tellg⟩
    match inp.get with
    | (none, _) => some (out, replacements)
    | (some val, inp1) =>
      match replace_target w ti with
      | some (ec, idp) =>
        let inp2 := IStream.skip (ec.len - 1).toNat inp1
        file_replace_loop w fid fuel inp2 (out ++ idp.newid) (replacements + 1)
      | none =>
        file_replace_loop w fid fuel inp1 (out ++ [val]) replacements

/-- The scanning part of `file_replace` on a file with the given bytes: the bytes
written to the `.repl` file and the number of replacements. Every iteration consumes
at least one byte, so `length + 1` iterations reach EOF. -/
def file_replace_scan (w : World) (fid : Fileid) (content : List Char) :
    Option (List Char × Nat) :=
  file_replace_loop w fid (content.length + 1) ⟨content, 0, false⟩ [] 0

/-- The remaining input of a stream: nothing once it has failed, otherwise the bytes
from the read position on. -/
def IStream.rest (s : IStream) : List Char :=
  if s.fail then [] else s.data.drop s.pos

/-- The rewrite of section 4.10 of the specification, in its words: scan the input left
to right from byte position `pos`; at a position whose class is to be replaced, drop
the next `length` input bytes and write the replacement string; otherwise copy the
byte. The second component counts the substituted token occurrences. The first
argument bounds the number of scan steps. -/
def spec_rewrite_from (w : World) (fid : Fileid) : Nat → Nat → List Char → List Char × Nat
  | 0, _, _ => ([], 0)
  | _ + 1, _, [] => ([], 0)
  | steps + 1, pos, c :: rest =>
    match replace_target w ⟨fid, (pos : Int)⟩ with
    | some (ec, idp) =>
      let r := spec_rewrite_from w fid steps (pos + ec.len.toNat)
        ((c :: rest).drop ec.len.toNat)
      (idp.newid ++ r.1, r.2 + 1)
    | none =>
      let r := spec_rewrite_from w fid steps (pos + 1) rest
      (c :: r.1, r.2)

/-- The specified rewrite of a whole file; a scan of `n` bytes takes at most `n` steps
when every replaced token has at least one byte. -/
def spec_rewrite (w : World) (fid : Fileid) (content : List Char) : List Char × Nat :=
  spec_rewrite_from w fid content.length 0 content

/-- Every class reachable through the Tokid map covers at least one byte (its members
are identifier-like lexemes). -/
def PositiveLengths (w : World) : Prop :=
  ∀ ti p, w.tokmap ti = some p → 0 < (w.ecs p).len

/-- Every identifier is renamed to itself in the file with the given bytes: wherever
the scan test of `file_replace` selects a class at a byte position of the file, the
replacement string is the token the file holds there, `length` bytes long. -/
def RenamedToItself (w : World) (fid : Fileid) (content : List Char) : Prop :=
  ∀ (pos : Nat) ec idp, pos < content.length →
    replace_target w ⟨fid, (pos : Int)⟩ = some (ec, idp) →
      idp.newid = (content.drop pos).take ec.len.toNat

/-! ## File system and the final steps of file_replace -/

/-- The file store: the content of the file at a path, if there is one. -/
abbrev FS := String → Option (List Char)

/-- The results of the environment-dependent steps of one `file_replace` call: whether
`out.open` succeeded, whether the `cscout_checkout` command, `unlink`, `rename` and
the `cscout_checkin` command succeeded. -/
structure Outcomes where
  out_open : Bool
  checkout : Bool
  unlink : Bool
  rename : Bool
  checkin : Bool
deriving DecidableEq, Repr

/-- Closing an output stream opened on `p` after writing `c` to it. -/
def FS.write (fs : FS) (p : String) (c : List Char) : FS :=
  fun q => if q = p then some c else fs q

/-- The call `unlink(p)`: removes the file when the call succeeds, changes nothing when it
fails. -/
def FS.unlink (fs : FS) (ok : Bool) (p : String) : FS :=
  if ok then fun q => if q = p then none else fs q else fs

/-- The call `rename(src, dst)`: moves the file when the call succeeds, changes nothing when it
fails. -/
def FS.rename (fs : FS) (ok : Bool) (src dst : String) : FS :=
  if ok then fun q => if q = dst then fs src else if q = src then none else fs q else fs

/-- The call `system(cmd)` for the `cscout_checkout` and `cscout_checkin` hooks. The hooks are
external programs: only their exit status is part of the model, and `file_replace`
discards it. -/
def FS.system (fs : FS) (_ok : Bool) : FS := fs

/-- The function `file_replace(fid)` over a file store. `some (.error 1)` is `exit(1)` after a failed
open; `none` only arises if the scanning loop ran out of fuel. The result carries the
file store after the call and the returned number of replacements. -/
def file_replace (w : World) (oc : Outcomes) (fs : FS) (fid : Fileid) :
    Option (Except Nat (FS × Nat)) :=
  match fs (w.path fid) with
  | none => some (.error 1)
  | some content =>
    let ofname := w.path fid ++ ".repl"
    if oc.out_open = false then some (.error 1)
    else
      match file_replace_scan w fid content with
      | none => none
      | some (out, replacements) =>
        let fs1 := fs.write ofname out
        if replacements ≠ 0 then
          let fs2 := fs1.system oc.checkout
          let fs3 := fs2.unlink oc.unlink (w.path fid)
          let fs4 := fs3.rename oc.rename ofname (w.path fid)
          let fs5 := fs4.system oc.checkin
          some (.ok (fs5, replacements))
        else some (.ok (fs1, replacements))

/-! ## write_quit_page -/

/-- Insertion into an `IFSet`, a `std::set` of `Fileid`: an ordered sequence without
duplicates. The comparator of the set is declared in a header outside the sources; the
order is taken to be that of the ids. -/
def IFSet.insert (x : Fileid) : List Fileid → List Fileid
  | [] => [x]
  | y :: ys =>
    if x < y then x :: y :: ys
    else if x = y then y :: ys
    else y :: IFSet.insert x ys

/-- Range insertion `s.insert(first, last)`. -/
def IFSet.insertAll (xs : List Fileid) (s : List Fileid) : List Fileid :=
  xs.foldl (fun acc x => IFSet.insert x acc) s

/-- Modelled from the spec: `Eclass::sorted_files()` is defined in `eclass.cpp`, which is
not among the sources; the specification describes its result as every `FileId`
containing at least one member of the class. It is the `IFSet` of the files of the
member Tokids. -/
def Eclass.sorted_files (e : Eclass) : List Fileid :=
  IFSet.insertAll (e.members.map Tokid.fileid) []

/-- The function `local_access`: true iff the peer address is known and is `127.0.0.1`. -/
def local_access (peer : Option String) : Bool :=
  match peer with
  | some p => decide (p = "127.0.0.1")
  | none => false

/-- The first loop of `write_quit_page`: the set `process` of files to rewrite. -/
def files_to_process (w : World) : List Fileid :=
  w.ids.foldl
    (fun process i =>
      if i.2.replaced then IFSet.insertAll (w.ecs i.1).sorted_files process else process)
    []

/-- The second loop of `write_quit_page`: `replacements += file_replace(*i)` over the
files of `process`, threading the file store. -/
def replace_files (w : World) (oc : Fileid → Outcomes) :
    List Fileid → FS → Nat → Option (Except Nat (FS × Nat))
  | [], fs, replacements => some (.ok (fs, replacements))
  | fid :: rest, fs, replacements =>
    match file_replace w (oc fid) fs fid with
    | none => none
    | some (.error code) => some (.error code)
    | some (.ok (fs1, n)) => replace_files w oc rest fs1 (replacements + n)

/-- What a `write_quit_page` request leaves behind: the file store, the `must_exit`
flag, and the two numbers of the page ("A total of %d replacements were made in %d
files"), absent when the request was refused. -/
structure QuitOutcome where
  fs : FS
  must_exit : Bool
  report : Option (Nat × Nat)

/-- The handler `write_quit_page` (non-commercial build) for a request from `peer`. -/
def write_quit_page (peer : Option String) (w : World) (oc : Fileid → Outcomes) (fs : FS)
    (must_exit : Bool) : Option (Except Nat QuitOutcome) :=
  if local_access peer = false then some (.ok ⟨fs, must_exit, none⟩)
  else
    let process := files_to_process w
    match replace_files w oc process fs 0 with
    | none => none
    | some (.error code) => some (.error code)
    | some (.ok (fs1, replacements)) =>
      some (.ok ⟨fs1, true, some (replacements, process.length)⟩)

/-! ## Identifier post-processing in main -/

/-- The loop "Set xfile and metrics for each identifier" of `main`, as far as `ids` is
concerned: `(*i).second.set_xfile(ifiles.size() > 1)` for every entry. -/
def main_set_xfile (w : World) : World :=
  { w with
    ids := w.ids.map fun i =>
      (i.1, { i.2 with xfile := decide (1 < (w.ecs i.1).sorted_files.length) }) }

/-! ## Function metrics (funmetrics.cpp) -/

/-- The metric indices named in `funmetrics.cpp`. The enumerators are declared in
`metrics.h` and `funmetrics.h`; `em_other` stands for every further stored metric. -/
inductive Metric where
  | em_nchar | em_nop | em_nuop | em_nid | em_nuid | em_nnconst | em_nclit
  | em_nif | em_nswitch | em_ncase | em_nfor | em_nwhile | em_ndo | em_ncc2op
  | em_ngnsoc | em_nmparam | em_nfparam | em_nneparam
  | em_fanin | em_fanout | em_ccycl1 | em_ccycl2 | em_ccycl3
  | em_cstruc | em_chal | em_iflow
  | em_other (n : Nat)
deriving DecidableEq, Repr

/-- The part of a `Call` node that `get_metric` reads: `get_num_caller()` and
`get_num_call()`. -/
structure Call where
  num_caller : Nat
  num_call : Nat
deriving DecidableEq, Repr

/-- A function metrics record: the stored counts (`Metrics::get_metric(n)` looks up
`count[n]`) and the function's `Call` node. -/
structure FunMetrics where
  count : Metric → Int
  call : Call

/-- The depth of the calls `get_metric` makes to itself for a metric. -/
def Metric.depth : Metric → Nat
  | .em_iflow => 4
  | .em_ccycl3 => 3
  | .em_ccycl2 => 2
  | .em_ccycl1 => 1
  | .em_cstruc => 1
  | .em_chal => 1
  | _ => 0

/-- The function `FunMetrics::get_metric` in exact arithmetic. The C++ function computes in
`double`; here the values are taken in a field `R` with decidable equality (the
rationals, the reals), into which the integer counts embed, and `log` is the natural
logarithm of `<cmath>`. The sums and differences of the cyclomatic metrics are integers
far below 2^53 in absolute value, on which `double` arithmetic is exact, and the zero
test of `em_chal` is exact as well; the products of `em_cstruc` and `em_iflow` and the
logarithm and quotient of `em_chal` are rounded by the program, which
`FunMetrics.get_metric_fuel` embeds. -/
def FunMetrics.get_metric {R : Type} [Field R] [DecidableEq R] (log : R → R)
    (m : FunMetrics) : Metric → R
  | .em_fanin => (m.call.num_caller : R)
  | .em_fanout => (m.call.num_call : R)
  | .em_ccycl1 =>
    m.get_metric log .em_nif + m.get_metric log .em_nswitch +
      m.get_metric log .em_nfor + m.get_metric log .em_nwhile +
      m.get_metric log .em_ndo + 1
  | .em_ccycl2 => m.get_metric log .em_ccycl1 + m.get_metric log .em_ncc2op
  | .em_ccycl3 =>
    m.get_metric log .em_ccycl2 - m.get_metric log .em_nswitch + m.get_metric log .em_ncase
  | .em_cstruc =>
    (m.get_metric log .em_fanin * m.get_metric log .em_fanout) *
      (m.get_metric log .em_fanin * m.get_metric log .em_fanout)
  | .em_iflow => m.get_metric log .em_cstruc * m.get_metric log .em_ccycl1
  | .em_chal =>
    let logarg := m.get_metric log .em_nuop + m.get_metric log .em_nuid +
      m.get_metric log .em_nnconst + m.get_metric log .em_nclit
    if logarg = 0 then 0
    else
      (m.get_metric log .em_nop + m.get_metric log .em_nid +
        m.get_metric log .em_nnconst + m.get_metric log .em_nclit) *
        (log logarg / log 2)
  | n => (m.count n : R)
termination_by n => n.depth
decreasing_by all_goals simp [Metric.depth]

/-! ## Query::apply (query.h) -/

/-- The comparison constants of `enum e_cmp`, in declaration order from 0. -/
def Query.ec_ignore : Int := 0

/-- The enumerator `ec_eq`. -/
def Query.ec_eq : Int := 1

/-- The enumerator `ec_ne`. -/
def Query.ec_ne : Int := 2

/-- The enumerator `ec_lt`. -/
def Query.ec_lt : Int := 3

/-- The enumerator `ec_gt`. -/
def Query.ec_gt : Int := 4

/-- The function `Query::apply(op, a, b)`: the second `switch`; the debug trace printed
under `DP()` changes no result. -/
def Query.apply (op a b : Int) : Bool :=
  if op = Query.ec_eq then decide (a = b)
  else if op = Query.ec_ne then decide (a ≠ b)
  else if op = Query.ec_lt then decide (a < b)
  else if op = Query.ec_gt then decide (a > b)
  else false

/-! ## Project registry (attr.cpp) -/

/-- The static state of `Attributes` and `Project`: `Attributes::size`,
`Project::projid`, the map `projids` from names to ids (as an association list) and the
vector `projnames`. -/
structure Registry where
  size : Int
  projid : Int
  projids : List (String × Int)
  projnames : List String
deriving DecidableEq, Repr

/-- The lookup `projids.find(name)`. -/
def Project.find (projids : List (String × Int)) (name : String) : Option Int :=
  match projids with
  | [] => none
  | (k, v) :: rest => if k = name then some v else Project.find rest name

/-- The initial values of the statics, for the enumerator `attr_max` of `attr.h`:
`size = attr_max + 1`, `projid = attr_max - 1`, no project ids, and `projnames` holding
`attr_max` empty strings. -/
def Registry.init (attr_max : Nat) : Registry where
  size := (attr_max : Int) + 1
  projid := (attr_max : Int) - 1
  projids := []
  projnames := List.replicate attr_max ""

/-- Modelled from the spec: `Attributes::add_attribute()` is declared in `attr.h`, which is
not among the sources; the specification has it widen the global attribute count, by
the one attribute of the new project. -/
def Attributes.add_attribute (size : Int) : Int := size + 1

/-- The function `Project::set_current_project(name)`; `Attributes::get_num_attributes()`
reads `Attributes::size`. -/
def set_current_project (r : Registry) (name : String) : Registry :=
  match Project.find r.projids name with
  | none =>
    let projid := r.projid + 1
    let projnames := r.projnames ++ [name]
    let projids := r.projids ++ [(name, projid)]
    let size :=
      if r.size < (projnames.length : Int) then Attributes.add_attribute r.size else r.size
    { size := size, projid := projid, projids := projids, projnames := projnames }
  | some p => { r with projid := p }

/-- The registry after a sequence of `set_current_project` calls from the initial
state. -/
def Registry.after (attr_max : Nat) (names : List String) : Registry :=
  names.foldl set_current_project (Registry.init attr_max)

/-- The entry `projnames[i]`, when the index is in range. -/
def Registry.projname (r : Registry) (i : Int) : Option String :=
  if i < 0 then none else r.projnames[i.toNat]?

/-! ## The -p option of main -/

/-- The process ended by `exit`: what was written to `cerr` and the exit code. -/
structure Exited where
  stderr : String
  code : Nat
deriving DecidableEq, Repr

/-- The message `usage` writes to `cerr`. -/
def usage_text (fname : String) : String :=
  "usage: " ++ fname ++ " [-cEruv] [-p port] [-m spec] file\n" ++
  "\t-c\tProcess the file and exit\n" ++
  "\t-E\tPrint preprocessed results on standard output and exit\n" ++
  "\t\t(the workspace file must have also been processed with -E)\n" ++
  "\t-p port\tSpecify TCP port for serving the CScout web pages\n" ++
  "\t\t(the port number must be in the range 1024-32767)\n" ++
  "\t-r\tGenerate an identifier and include file warning report\n" ++
  "\t-v\tDisplay version and copyright information and exit\n" ++
  "\t-m spec\tSpecify identifiers to monitor (unsound)\n"

/-- The function `usage(fname)`: writes the message and calls `exit(1)`. -/
def usage (fname : String) : Exited := ⟨usage_text fname, 1⟩

/-- The `case 'p'` of the option loop of `main`: `.ok portno` when `main` goes on with
the new port, `.error` when it exits through `usage`. `atoi` is the C library
function. -/
def main_option_p (atoi : String → Int) (argv0 : String) (optarg : Option String) :
    Except Exited Int :=
  match optarg with
  | none => .error (usage argv0)
  | some a =>
    let portno := atoi a
    if portno < 1024 ∨ portno > 32767 then .error (usage argv0) else .ok portno

/-! ## Request handlers guarded by local_access -/

/-- Modelled from the spec: `Identifier::set_newid` is declared in a header that is not
among the sources; the specification has the replacement string stored and the
`replaced` flag true once a rewrite has been requested. -/
def Identifier.set_newid (i : Identifier) (s : List Char) : Identifier :=
  { i with newid := s, replaced := true }

/-- Insertion of a new key into `ids`, a `std::map` ordered by its `Eclass *` keys. -/
def IdProp.insert (e : EcPtr) (v : Identifier) :
    List (EcPtr × Identifier) → List (EcPtr × Identifier)
  | [] => [(e, v)]
  | (k, x) :: rest =>
    if e < k then (e, v) :: (k, x) :: rest else (k, x) :: IdProp.insert e v rest

/-- The reference `ids[e]`: the map afterwards; a key that was absent is inserted with
the default-constructed identifier `dflt`. -/
def IdProp.index (dflt : Identifier) (ids : List (EcPtr × Identifier)) (e : EcPtr) :
    List (EcPtr × Identifier) :=
  match IdProp.find ids e with
  | some _ => ids
  | none => IdProp.insert e dflt ids

/-- An update through the reference `ids[e]`: the entry found for the key is replaced
by its image under `f`. -/
def IdProp.modify (f : Identifier → Identifier) (e : EcPtr) :
    List (EcPtr × Identifier) → List (EcPtr × Identifier)
  | [] => []
  | (k, x) :: rest =>
    if k = e then (k, f x) :: rest else (k, x) :: IdProp.modify f e rest

/-- The effect of `identifier_page` (non-commercial build) on `ids`, for a request from
`peer` with the arguments `id` and `sname` (absent when the request does not carry
them). `dflt` is the value of the default constructor `Identifier()`. -/
def identifier_page (dflt : Identifier) (peer : Option String) (id : Option EcPtr)
    (sname : Option (List Char)) (ids : List (EcPtr × Identifier)) :
    List (EcPtr × Identifier) :=
  match id with
  | none => ids
  | some e =>
    let ids1 := IdProp.index dflt ids e
    match sname with
    | none => ids1
    | some subst =>
      if local_access peer = false then ids1
      else IdProp.modify (fun i => i.set_newid subst) e ids1

/-- The effect of `set_project_page` (non-commercial build) on `current_project`, for a
request from `peer` with the argument `projid` (absent when it is missing or is not an
integer). -/
def set_project_page (peer : Option String) (projid : Option Int) (current_project : Int) :
    Int :=
  if local_access peer = false then current_project
  else
    match projid with
    | none => current_project
    | some p => p

/-- The effect of `quit_page` (non-commercial build) on the file store and on
`must_exit`. -/
def quit_page (peer : Option String) (fs : FS) (must_exit : Bool) : FS × Bool :=
  if local_access peer = false then (fs, must_exit) else (fs, true)

/-! ## Call graph listings -/

/-- The call graph as the listing code reads it: a `Call *` is an index, `call[f]` is
the container between `call_begin()` and `call_end()` of `f` and `caller[f]` the one
between `caller_begin()` and `caller_end()`. -/
structure CallGraph where
  call : List (List Nat)
  caller : List (List Nat)
deriving DecidableEq, Repr

/-- The container `(f->*fbegin)() .. (f->*fend)()` of the chosen relation; a `Call`
outside the table has no edges. -/
def edges (rel : List (List Nat)) (f : Nat) : List Nat :=
  (rel[f]?).getD []

/-- The state `list_functions` works on: the `Call`s whose visited flag is set, and the
functions written to the page so far, in order. -/
structure ListState where
  visited : List Nat
  listed : List Nat
deriving DecidableEq, Repr

/-- The `for` loop of `list_functions` on the remaining elements of the container of
`f`; `descend` is the recursive call `list_functions(fo, *i, fbegin, fend, recurse)`. -/
def list_loop (descend : Nat → ListState → Option ListState) (recurse : Bool) (f : Nat) :
    List Nat → ListState → Option ListState
  | [], st => some st
  | i :: rest, st =>
    let st1 :=
      if i ∉ st.visited ∨ i = f then { st with listed := st.listed ++ [i] } else st
    if recurse = true ∧ i ∉ st1.visited then
      match descend i st1 with
      | none => none
      | some st2 => list_loop descend recurse f rest st2
    else list_loop descend recurse f rest st1

/-- The function `list_functions(fo, f, fbegin, fend, recurse)` on the relation `rel`.
The first argument bounds the depth of the recursion; `none` means the bound was
reached. -/
def list_functions (rel : List (List Nat)) (recurse : Bool) :
    Nat → Nat → ListState → Option ListState
  | 0, _, _ => none
  | fuel + 1, f, st =>
    list_loop (list_functions rel recurse fuel) recurse f (edges rel f)
      { st with visited := f :: st.visited }

/-- What `funlist_page` puts on the page after its heading: the text "Illegal value",
or the list of functions. -/
inductive FunList where
  | illegal_value
  | functions (listed : List Nat)
deriving DecidableEq, Repr

/-- The listing of `funlist_page` for the function `f` and the list type `ltype`, the
visited flags being cleared by `Call::clear_visit_flags()` before the walk. Every
recursive call sets the flag of a function whose flag was clear, so a depth of one more
than the number of functions is enough. -/
def funlist_page (cg : CallGraph) (f : Nat) (ltype : Char) : Option FunList :=
  if ltype = 'u' ∨ ltype = 'd' ∨ ltype = 'D' ∨ ltype = 'U' then
    let recurse : Bool := decide (ltype = 'D' ∨ ltype = 'U')
    let rel := if ltype = 'u' ∨ ltype = 'U' then cg.caller else cg.call
    (list_functions rel recurse (rel.length + 1) f ⟨[], []⟩).map fun st =>
      FunList.functions st.listed
  else some FunList.illegal_value

/-- Two functions that call each other: 0 calls 1 and 1 calls 0. -/
def mutual_recursion : CallGraph where
  call := [[1], [0]]
  caller := [[1], [0]]

/-- An edge of the relation: `b` is in the container of `a`. -/
def Edge (rel : List (List Nat)) (a b : Nat) : Prop := b ∈ edges rel a

/-- The number of functions of the table whose visited flag is clear. -/
def unvisited_count (n : Nat) (visited : List Nat) : Nat :=
  (List.range n).countP fun x => decide (x ∉ visited)

/-- What one call `list_functions(fo, i, ...)` with `recurse` true does to the state:
flags are only set; `i` is flagged; every newly flagged function is reachable from `i`
and has all its successors flagged at the end; and the functions written are the newly
flagged ones other than `i`, and `i` itself when it is in its own container. -/
def DescendSpec (rel : List (List Nat)) (i : Nat) (st st1 : ListState) : Prop :=
  (∀ x ∈ st.visited, x ∈ st1.visited) ∧ i ∈ st1.visited ∧
  (∀ x ∈ st1.visited, x ∉ st.visited → Relation.ReflTransGen (Edge rel) i x) ∧
  (∀ x ∈ st1.visited, x ∉ st.visited → ∀ y ∈ edges rel x, y ∈ st1.visited) ∧
  ∃ added, st1.listed = st.listed ++ added ∧
    ∀ x, x ∈ added ↔ (x ∈ st1.visited ∧ x ∉ st.visited ∧ x ≠ i) ∨ (x = i ∧ i ∈ edges rel i)

/-- What the loop of `list_functions` for `f` over `rest` does to the state when
`recurse` is true. -/
def LoopSpec (rel : List (List Nat)) (f : Nat) (rest : List Nat) (st st1 : ListState) :
    Prop :=
  (∀ x ∈ st.visited, x ∈ st1.visited) ∧ (∀ i ∈ rest, i ∈ st1.visited) ∧
  (∀ x ∈ st1.visited, x ∉ st.visited → ∃ i ∈ rest, Relation.ReflTransGen (Edge rel) i x) ∧
  (∀ x ∈ st1.visited, x ∉ st.visited → ∀ y ∈ edges rel x, y ∈ st1.visited) ∧
  ∃ added, st1.listed = st.listed ++ added ∧
    ∀ x, x ∈ added ↔ (x ∈ st1.visited ∧ x ∉ st.visited) ∨ (x = f ∧ f ∈ rest)

/-! ## Example workspace -/

/-- A workspace of two files, `x.c` (file 0) and `y.c` (file 1), and one class for the
identifier `foo` with members at bytes 4 and 10 of `x.c` and byte 0 of `y.c`, flagged
for replacement by `newid`. `ro` is the read-only attribute of `y.c`. -/
def example_world (newid : String) (ro : Bool) : World where
  path := fun f => if f = 0 then "x.c" else if f = 1 then "y.c" else ""
  readonly := fun f => if f = 1 then ro else false
  tokmap := fun t => if t = ⟨0, 4⟩ ∨ t = ⟨0, 10⟩ ∨ t = ⟨1, 0⟩ then some 7 else none
  ecs := fun _ =>
    { len := 3, is_identifier := true, is_readonly := ro,
      members := [⟨0, 4⟩, ⟨0, 10⟩, ⟨1, 0⟩] }
  ids :=
    [(7, { id := "foo".toList, newid := newid.toList, xfile := false, replaced := true })]

/-- The two files of the example workspace. -/
def example_fs : FS := fun p =>
  if p = "x.c" then some "int foo = foo;".toList
  else if p = "y.c" then some "foo();".toList
  else none

/-- Every environment-dependent step succeeds. -/
def all_ok : Outcomes := ⟨true, true, true, true, true⟩

/-- The file at a path after a run, when the run completed. -/
def file_after (r : Option (Except Nat (FS × Nat))) (p : String) :
    Option (Option (List Char)) :=
  match r with
  | some (.ok (fs, _)) => some (fs p)
  | _ => none

/-- The rename step fails after the original has been removed. -/
def rename_fails : Outcomes := { all_ok with rename := false }

/-- The file at a path after a `write_quit_page` request that completed. -/
def quit_file_after (r : Option (Except Nat QuitOutcome)) (p : String) :
    Option (Option (List Char)) :=
  match r with
  | some (.ok o) => some (o.fs p)
  | _ => none

/-- The numbers a completed `write_quit_page` request reports. -/
def quit_report (r : Option (Except Nat QuitOutcome)) : Option (Nat × Nat) :=
  match r with
  | some (.ok o) => o.report
  | _ => none

/-- The number of token occurrences the specified rewrite substitutes in file `f` as it
is stored in `fs` (0 when there is no such file). -/
def substituted_in (w : World) (fs : FS) (f : Fileid) : Nat :=
  match fs (w.path f) with
  | none => 0
  | some content => (spec_rewrite w f content).2

/-- The files to process can be processed: each exists and its `.repl` sibling can be
opened for writing, and the path of a processed file is neither the path nor the
`.repl` sibling of another processed file. -/
def ProcessReady (w : World) (oc : Fileid → Outcomes) (fs : FS) : Prop :=
  (∀ f ∈ files_to_process w, (fs (w.path f)).isSome = true ∧ (oc f).out_open = true) ∧
  (∀ f ∈ files_to_process w, ∀ g ∈ files_to_process w, f ≠ g →
    w.path g ≠ w.path f ∧ w.path g ≠ w.path f ++ ".repl")

/-- The Tokid `t` is a member of the class at `p`, the Tokid map sends it to the class,
and it is a byte position of its file as stored in `fs`. -/
def MemberInFile (w : World) (fs : FS) (p : EcPtr) (t : Tokid) : Prop :=
  t ∈ (w.ecs p).members ∧ w.tokmap t = some p ∧
    ∃ (content : List Char) (pos : Nat),
      fs (w.path t.fileid) = some content ∧ t.offs = (pos : Int) ∧ pos < content.length

/-- The counts of a function with an `if`, a nested `if`, one `for`, one `switch` with
three `case`s and no `&&` or `||`: NIF = 2, NFOR = 1, NSWITCH = 1, NCASE = 3, every other
count 0. -/
def example_metrics : FunMetrics where
  count := fun n =>
    match n with
    | .em_nif => 2
    | .em_nfor => 1
    | .em_nswitch => 1
    | .em_ncase => 3
    | _ => 0
  call := ⟨0, 0⟩

/-- A stand-in for the logarithm over the rationals; the cyclomatic metrics do not
call it. -/
def rat_log : ℚ → ℚ := fun _ => 0

/-- The counts of a function with 3 operators of 1 kind, 2 identifier occurrences of 1
identifier and no constants: N_op = 3, N_id = 2, NUOP = 1, NUID = 1, every other count
0. -/
def example_halstead : FunMetrics where
  count := fun n =>
    match n with
    | .em_nop => 3
    | .em_nid => 2
    | .em_nuop => 1
    | .em_nuid => 1
    | _ => 0
  call := ⟨0, 0⟩

/-- A function 0 that calls function 1, and function 1 that calls itself. -/
def self_recursive_callee : CallGraph where
  call := [[1], [1]]
  caller := [[], [0, 1]]

/-- The default-constructed identifier of the examples: no name, no replacement. -/
def example_default_identifier : Identifier := ⟨[], [], false, false⟩

/-- The example workspace with `y.c` read-only, so that the class of `foo` has the
`is_readonly` attribute, before any replacement has been requested. -/
def example_readonly_world : World :=
  { example_world "" true with ids := [(7, ⟨"foo".toList, [], false, false⟩)] }

/-! ## HTML encoding and display options -/

/-- The entity written for a space. -/
def nbsp : List Char := "&nbsp;".toList

/-- The string `t` after `t += "&nbsp;"` has run `k` times. -/
def nbsp_times : Nat → List Char
  | 0 => []
  | k + 1 => nbsp_times k ++ nbsp

/-- The vector `spaces` as `html(char)` fills it for a tab width: entry `i` holds
`tab_width - i` entities. -/
def build_spaces (tab_width : Nat) : List (List Char) :=
  (List.range tab_width).map fun i => nbsp_times (tab_width - i)

/-- The statics of `html(char)`: the output column and the cached vector `spaces`. The
column is an `int` that only counts up from 0; it is taken not to overflow. -/
structure HtmlState where
  column : Nat
  spaces : List (List Char)
deriving DecidableEq, Repr

/-- The statics before the first call: column 0 and an empty vector. -/
def HtmlState.init : HtmlState := ⟨0, []⟩

/-- The function `html(char c)` for the global `tab_width`: the C string returned and
the statics afterwards. `none` stands for the tab case with a tab width that is not
positive, where `column % tab_width` divides by zero or `spaces.resize` is asked for a
negative size, and for an index outside `spaces`. The default case returns the
one-character string `str`, which is empty when `c` is the NUL character. -/
def html_char (tab_width : Int) (c : Char) (st : HtmlState) :
    Option (List Char × HtmlState) :=
  if c = '&' then some ("&amp;".toList, { st with column := st.column + 1 })
  else if c = '<' then some ("&lt;".toList, { st with column := st.column + 1 })
  else if c = '>' then some ("&gt;".toList, { st with column := st.column + 1 })
  else if c = ' ' then some (nbsp, { st with column := st.column + 1 })
  else if c = '\t' then
    if tab_width ≤ 0 then none
    else
      let spaces :=
        if (st.spaces.length : Int) ≠ tab_width then build_spaces tab_width.toNat
        else st.spaces
      match spaces[st.column % tab_width.toNat]? with
      | some t => some (t, { st with spaces := spaces })
      | none => none
  else if c = '\n' then some ("<br>\n".toList, { st with column := 0 })
  else some (if c = Char.ofNat 0 then [] else [c], { st with column := st.column + 1 })

/-- The function `html(const string &s)`: the concatenation of `html(c)` over the
characters of `s`. -/
def html_string (tab_width : Int) : List Char → HtmlState → Option (List Char × HtmlState)
  | [], st => some ([], st)
  | c :: rest, st =>
    match html_char tab_width c st with
    | none => none
    | some (p, st1) =>
      match html_string tab_width rest st1 with
      | none => none
      | some (r, st2) => some (p ++ r, st2)

/-- The cached vector is empty or was filled for its own size. -/
def HtmlState.wf (st : HtmlState) : Prop :=
  st.spaces = build_spaces st.spaces.length

/-- What `html` writes for one character of the input: the entity of `&`, `<`, `>` or
a space, some number of `&nbsp;` for a tab, `<br>` and a newline for a newline, and
any other character as it is (nothing for NUL). -/
def CharPiece (c : Char) (p : List Char) : Prop :=
  if c = '&' then p = "&amp;".toList
  else if c = '<' then p = "&lt;".toList
  else if c = '>' then p = "&gt;".toList
  else if c = ' ' then p = nbsp
  else if c = '\t' then ∃ k, p = nbsp_times k
  else if c = '\n' then p = "<br>\n".toList
  else p = [c] ∨ p = []

/-- Encoded text: a sequence of characters other than `&`, `<` and `>`, of the entities
`&amp;`, `&lt;`, `&gt;` and `&nbsp;`, and of line breaks `<br>` followed by a newline. -/
inductive Encoded : List Char → Prop where
  | nil : Encoded []
  | plain (c : Char) (rest : List Char) : c ≠ '&' → c ≠ '<' → c ≠ '>' → Encoded rest →
      Encoded (c :: rest)
  | amp (rest : List Char) : Encoded rest → Encoded ("&amp;".toList ++ rest)
  | lt (rest : List Char) : Encoded rest → Encoded ("&lt;".toList ++ rest)
  | gt (rest : List Char) : Encoded rest → Encoded ("&gt;".toList ++ rest)
  | nbsp (rest : List Char) : Encoded rest → Encoded ("&nbsp;".toList ++ rest)
  | br (rest : List Char) : Encoded rest → Encoded ("<br>\n".toList ++ rest)

/-- The global display options set by `set_options_page`; `tab_width` starts at 8. -/
structure Options where
  remove_fp : Bool
  sort_rev : Bool
  show_true : Bool
  show_line_number : Bool
  file_icase : Bool
  tab_width : Int
deriving DecidableEq, Repr

/-- The options at program start: the flags are zero-initialised statics. -/
def Options.init : Options := ⟨false, false, false, false, false, 8⟩

/-- A `soptions.html` request: the value of `set` (absent when the variable is
missing), whether each checkbox variable is present, and the integer `swill_getargs`
parses for `tab_width` (absent when the variable is missing or does not parse). -/
structure OptionsRequest where
  set : Option String
  remove_fp : Bool
  sort_rev : Bool
  show_true : Bool
  show_line_number : Bool
  file_icase : Bool
  tab_width : Option Int
deriving DecidableEq, Repr

/-- The effect of `set_options_page` on the options. `none` stands for a request
without `set`, where `string(swill_getvar("set"))` is built from a null pointer and the
handler does not return. -/
def set_options_page (req : OptionsRequest) (o : Options) : Option Options :=
  match req.set with
  | none => none
  | some s =>
    if s = "Cancel" then some o
    else
      let tab_width :=
        match req.tab_width with
        | none => 8
        | some v => if v ≤ 0 then 8 else v
      some
        { remove_fp := req.remove_fp, sort_rev := req.sort_rev, show_true := req.show_true,
          show_line_number := req.show_line_number, file_icase := req.file_icase,
          tab_width := tab_width }

/-- The options after a sequence of `soptions.html` requests from program start, while
the handler keeps returning. -/
def options_after : List OptionsRequest → Option Options
  | [] => some Options.init
  | req :: earlier =>
    match options_after earlier with
    | none => none
    | some o => set_options_page req o

/-! ## File attributes, the file query and the include warnings -/

/-- The details a file keeps for a file it includes (`IncDetails`):
`is_directly_included()`, `is_required()` and `include_line_numbers()`. -/
structure IncDetails where
  direct : Bool
  required : Bool
  lines : List Int
deriving DecidableEq, Repr

/-- What the embedded code reads of the file behind a `Fileid`: `get_path()`,
`get_readonly()`, `compilation_unit()`, `required()`, `garbage_collected()`,
`get_attribute(i)`, `metrics().get_metric(j)` and `get_includes()`. -/
structure FileRec where
  path : String
  readonly : Bool
  compilation_unit : Bool
  required : Bool
  gc : Bool
  get_attribute : Nat → Bool
  metric : Nat → Int
  includes : List (Fileid × IncDetails)

/-- The file registry: the record of every `Fileid`. -/
abbrev FileTable := Fileid → FileRec

/-- The parameters of an `xfquery.html` request that got past the checks of `match` and
of the regular expression: the `writable` and `ro` flags, the first character of
`match`, the vectors `op` and `n` of the metric criteria, whether a file name
expression was given, and which paths it matches (`regexec` not returning
`REG_NOMATCH`). -/
structure FileQuery where
  writable : Bool
  ro : Bool
  match_type : Char
  op : Nat → Int
  n : Nat → Int
  match_fre : Bool
  fre : String → Bool

/-- The loop of `case 'Y'` from metric `j` on, `k` metrics remaining: true when it
leaves through `add = true; break`. -/
def match_any (q : FileQuery) (metric : Nat → Int) : Nat → Nat → Bool
  | _, 0 => false
  | j, k + 1 =>
    if q.op j ≠ 0 ∧ Query.apply (q.op j) (metric j) (q.n j) = true then true
    else match_any q metric (j + 1) k

/-- The loop of `case 'L'` from metric `j` on, `k` metrics remaining: false when it
leaves through `add = false; break`. -/
def match_all (q : FileQuery) (metric : Nat → Int) : Nat → Nat → Bool
  | _, 0 => true
  | j, k + 1 =>
    if q.op j ≠ 0 ∧ Query.apply (q.op j) (metric j) (q.n j) = false then false
    else match_all q metric (j + 1) k

/-- The value of `add` after the `switch (match_type)` of `xfquery_page` for one file;
`none` when `match_type` is neither `Y` nor `L` and `add` is never assigned. -/
def xfquery_add (metric_max : Nat) (q : FileQuery) (r : FileRec) : Option Bool :=
  if q.match_type = 'Y' then
    let add := match_any q r.metric 0 metric_max
    let add := add || (q.ro && r.readonly)
    let add := add || (q.writable && !r.readonly)
    some add
  else if q.match_type = 'L' then
    let add := match_all q r.metric 0 metric_max
    let add := add && (!q.ro || r.readonly)
    let add := add && (!q.writable || !r.readonly)
    some add
  else none

/-- The loop of `xfquery_page` over `files`: the set `sorted_files` at the end. A file
outside the current project (when one is set) or not matching the file name expression
is passed over. -/
def xfquery_files (metric_max : Nat) (q : FileQuery) (current_project : Nat)
    (tbl : FileTable) : List Fileid → List Fileid → Option (List Fileid)
  | [], sorted_files => some sorted_files
  | i :: rest, sorted_files =>
    if current_project ≠ 0 ∧ (tbl i).get_attribute current_project = false then
      xfquery_files metric_max q current_project tbl rest sorted_files
    else if q.match_fre = true ∧ q.fre (tbl i).path = false then
      xfquery_files metric_max q current_project tbl rest sorted_files
    else
      match xfquery_add metric_max q (tbl i) with
      | none => none
      | some add =>
        xfquery_files metric_max q current_project tbl rest
          (if add = true then IFSet.insert i sorted_files else sorted_files)

/-- The file queries of the index page, `xfquery.html?ro=..&writable=..&match=Y`: no
metric criterion and no file name expression. -/
def index_file_query (ro writable : Bool) : FileQuery where
  writable := writable
  ro := ro
  match_type := 'Y'
  op := fun _ => 0
  n := fun _ => 0
  match_fre := false
  fre := fun _ => true

/-- The class `SiteInfo`: whether the include site contains at least one required
include file, and the `set <Fileid>` of the files included there. -/
structure SiteInfo where
  required : Bool
  files : List Fileid
deriving DecidableEq, Repr

/-- The constructor `SiteInfo(r, f)`. -/
def SiteInfo.init (r : Bool) (f : Fileid) : SiteInfo :=
  ⟨r, IFSet.insert f []⟩

/-- The method `SiteInfo::update`: `required |= r; files.insert(f)`. -/
def SiteInfo.update (s : SiteInfo) (r : Bool) (f : Fileid) : SiteInfo :=
  ⟨s.required || r, IFSet.insert f s.files⟩

/-- The type `Sites`, a `map <int, SiteInfo>`: the entries in the order of their line
numbers. -/
abbrev Sites := List (Int × SiteInfo)

/-- The lookup `include_sites.find(k)`; `none` stands for `include_sites.end()`. -/
def Sites.find (k : Int) : Sites → Option SiteInfo
  | [] => none
  | (k1, s1) :: rest => if k1 = k then some s1 else Sites.find k rest

/-- The insertion `include_sites.insert(Sites::value_type(k, s))`: the entry takes its
place in the order of the keys, and a map that has the key already is left as it is. -/
def Sites.insert (k : Int) (s : SiteInfo) : Sites → Sites
  | [] => [(k, s)]
  | (k1, s1) :: rest =>
    if k < k1 then (k, s) :: (k1, s1) :: rest
    else if k1 = k then (k1, s1) :: rest
    else (k1, s1) :: Sites.insert k s rest

/-- The update `(*si).second.update(r, f)` of the entry found under `k`. -/
def Sites.update (k : Int) (r : Bool) (f : Fileid) : Sites → Sites
  | [] => []
  | (k1, s1) :: rest =>
    if k1 = k then (k1, s1.update r f) :: rest
    else (k1, s1) :: Sites.update k r f rest

/-- The body of the loop of `warning_report` over the line numbers of one included
file: a new site for a line seen for the first time, an update of the site
otherwise. -/
def site_step (k : Int) (r : Bool) (f2 : Fileid) (include_sites : Sites) : Sites :=
  match Sites.find k include_sites with
  | none => Sites.insert k (SiteInfo.init r f2) include_sites
  | some _ => Sites.update k r f2 include_sites

/-- The loop of `warning_report` over `id.include_line_numbers()`. -/
def site_lines (id : IncDetails) (f2 : Fileid) : List Int → Sites → Sites
  | [], include_sites => include_sites
  | k :: ks, include_sites =>
    site_lines id f2 ks (site_step k id.required f2 include_sites)

/-- The loop of `warning_report` over the `FileIncMap` of a file: included files that
are not directly included are passed over. -/
def site_includes : List (Fileid × IncDetails) → Sites → Sites
  | [], include_sites => include_sites
  | (f2, id) :: rest, include_sites =>
    if id.direct = false then site_includes rest include_sites
    else site_includes rest (site_lines id f2 id.lines include_sites)

/-- One line of the report: `path(file):line: unused included file path(included)`. -/
structure Warning where
  file : Fileid
  line : Int
  included : Fileid
deriving DecidableEq, Repr

/-- The text written to `cerr` for a warning. -/
def Warning.text (tbl : FileTable) (w : Warning) : String :=
  (tbl w.file).path ++ ":" ++ toString w.line ++ ": unused included file " ++
    (tbl w.included).path ++ "\n"

/-- The loop of `warning_report` over the include sites of file `i`: the sites that
are not required report every one of their files. -/
def report_sites (i : Fileid) : Sites → List Warning
  | [] => []
  | (line, s) :: rest =>
    (if s.required = false then s.files.map (fun fi => ⟨i, line, fi⟩) else []) ++
      report_sites i rest

/-- The second part of `warning_report`, the unneeded include file warnings, over the
vector `files`: read-only files, files that are not compilation units and the
workspace file `input_file_id` are passed over; for the others the include sites are
cleared, collected and reported. -/
def include_warnings (tbl : FileTable) (input_file_id : Fileid) :
    List Fileid → List Warning
  | [] => []
  | i :: rest =>
    if (tbl i).readonly = true ∨ (tbl i).compilation_unit = false ∨ i = input_file_id then
      include_warnings tbl input_file_id rest
    else
      report_sites i (site_includes (tbl i).includes []) ++
        include_warnings tbl input_file_id rest

/-- The relation between the map `include_sites` and the include directives entered
into it so far, `E k r f` standing for a directive on line `k` that includes file `f`
with `is_required() = r`: the map has one entry for each line of a directive, and the
entry of a line is required iff one of the directives of the line is, and holds the
files of the directives of the line, in order. -/
def SitesOf (E : Int → Bool → Fileid → Prop) (m : Sites) : Prop :=
  (m.map Prod.fst).Nodup ∧
  (∀ k, Sites.find k m = none ↔ ∀ r f, ¬ E k r f) ∧
  (∀ k x, Sites.find k m = some x →
    (x.required = true ↔ ∃ f, E k true f) ∧
    (∀ f, f ∈ x.files ↔ ∃ r, E k r f) ∧
    x.files.Sorted (· < ·))

/-! ## garbage_collect -/

/-- The monitoring query `monitor`: whether it `is_valid()`, and the result of
`monitor.eval` on an equivalence class paired with a default `Identifier`. -/
structure Monitor where
  is_valid : Bool
  eval : EcPtr → Bool

/-- The method `Fileid::set_required`. -/
def FileTable.set_required (tbl : FileTable) (f : Fileid) (b : Bool) : FileTable :=
  fun g => if g = f then { tbl g with required := b } else tbl g

/-- The method `Fileid::set_gc`. -/
def FileTable.set_gc (tbl : FileTable) (f : Fileid) (b : Bool) : FileTable :=
  fun g => if g = f then { tbl g with gc := b } else tbl g

/-- The method `Fileid::set_compilation_unit`. -/
def FileTable.set_compilation_unit (tbl : FileTable) (f : Fileid) (b : Bool) : FileTable :=
  fun g => if g = f then { tbl g with compilation_unit := b } else tbl g

/-- Modelled from the spec: `Fdep::mark_required` is defined in `fdep.cpp`, which is not
among the sources; the specification describes it as marking `required` the files that
hold a definition used by the compilation unit. The files it reaches from the root are
the list `required_files`; each gets `set_required(true)`. -/
def Fdep.mark_required (required_files : List Fileid) (tbl : FileTable) : FileTable :=
  fun g => if g ∈ required_files then { tbl g with required := true } else tbl g

/-- The state `garbage_collect` works on: the file registry, the Tokid map, the locals
`touched_files`, `count` and `sum`, and a record of what the call did: the classes
deleted, the files opened, and the calls `root.includes(f, direct, required)`, each in
order. -/
structure GcState where
  tbl : FileTable
  tokmap : Tokid → Option EcPtr
  touched_files : List Fileid
  count : Nat
  sum : Nat
  deleted : List EcPtr
  opened : List Fileid
  includes_calls : List (Fileid × Bool × Bool)

/-- The loop of `garbage_collect` over the characters of file `fi`, at offset `pos` with
the characters of the list still to read: a class found at the offset that fails
`monitor.eval` is removed from the Tokid map and deleted. The method
`Eclass::remove_from_tokid_map` is defined outside the sources; its effect on the Tokid
map is the argument `remove_from_tokid_map`. -/
def gc_chars (monitor : Monitor)
    (remove_from_tokid_map : EcPtr → (Tokid → Option EcPtr) → (Tokid → Option EcPtr))
    (fi : Fileid) : List Char → Int → GcState → GcState
  | [], _, st => st
  | _ :: rest, pos, st =>
    match st.tokmap ⟨fi, pos⟩ with
    | none => gc_chars monitor remove_from_tokid_map fi rest (pos + 1) st
    | some ec =>
      if monitor.eval ec = false then
        gc_chars monitor remove_from_tokid_map fi rest (pos + 1)
          { st with sum := st.sum + 1, count := st.count + 1,
                    tokmap := remove_from_tokid_map ec st.tokmap,
                    deleted := st.deleted ++ [ec] }
      else
        gc_chars monitor remove_from_tokid_map fi rest (pos + 1)
          { st with sum := st.sum + 1 }

/-- The loop of `garbage_collect` over `files`; `none` when a file cannot be opened and
the program ends with `exit(1)`. -/
def gc_files (monitor : Monitor)
    (remove_from_tokid_map : EcPtr → (Tokid → Option EcPtr) → (Tokid → Option EcPtr))
    (fs : FS) : List Fileid → GcState → Option GcState
  | [], st => some st
  | fi :: rest, st =>
    if (st.tbl fi).gc = true then
      gc_files monitor remove_from_tokid_map fs rest st
    else
      let st1 := { st with tbl := st.tbl.set_required fi false,
                           touched_files := IFSet.insert fi st.touched_files }
      if monitor.is_valid = false then
        gc_files monitor remove_from_tokid_map fs rest
          { st1 with tbl := st1.tbl.set_gc fi true }
      else
        match fs (st1.tbl fi).path with
        | none => none
        | some content =>
          let st2 := gc_chars monitor remove_from_tokid_map fi content 0
            { st1 with opened := st1.opened ++ [fi] }
          gc_files monitor remove_from_tokid_map fs rest
            { st2 with tbl := st2.tbl.set_gc fi true }

/-- The loop of `garbage_collect` over `touched_files`: every touched file other than
the root and the workspace file is entered into the includes of the root, as not
directly included and with its `required()` flag. -/
def gc_includes (root input_file_id : Fileid) : List Fileid → GcState → GcState
  | [], st => st
  | i :: rest, st =>
    if i ≠ root ∧ i ≠ input_file_id then
      gc_includes root input_file_id rest
        { st with includes_calls := st.includes_calls ++ [(i, false, (st.tbl i).required)] }
    else gc_includes root input_file_id rest st

/-- The function `garbage_collect(root)` on the registry `tbl` and the Tokid map
`tokmap`, `files` being the result of `Fileid::files(false)`; `none` when the program
ends with `exit(1)`. The call `Fdep::reset()` has no effect on the state kept here. -/
def garbage_collect (monitor : Monitor)
    (remove_from_tokid_map : EcPtr → (Tokid → Option EcPtr) → (Tokid → Option EcPtr))
    (fs : FS) (required_files : List Fileid) (input_file_id : Fileid)
    (files : List Fileid) (root : Fileid) (tbl : FileTable)
    (tokmap : Tokid → Option EcPtr) : Option GcState :=
  match gc_files monitor remove_from_tokid_map fs files
      ⟨tbl.set_compilation_unit root true, tokmap, [], 0, 0, [], [], []⟩ with
  | none => none
  | some st =>
    let st1 := { st with tbl := Fdep.mark_required required_files st.tbl }
    some (gc_includes root input_file_id st1.touched_files st1)

/-- A registry of three files: `x.c` (file 0) and `y.c` (file 1), not yet garbage
collected, and a file 2 that is, and whose path cannot be opened. -/
def example_file_table : FileTable := fun f =>
  { path := if f = 0 then "x.c" else if f = 1 then "y.c" else "",
    readonly := false, compilation_unit := false, required := true, gc := decide (2 ≤ f),
    get_attribute := fun _ => false, metric := fun _ => 0, includes := [] }

/-- A valid monitor that class 7 fails. -/
def example_monitor : Monitor := ⟨true, fun e => decide (e ≠ 7)⟩

/-- A removal that drops the entries of the Tokid map that lead to the class. -/
def example_remove (e : EcPtr) (tokmap : Tokid → Option EcPtr) : Tokid → Option EcPtr :=
  fun t => if tokmap t = some e then none else tokmap t

/-! ## The type double (IEEE 754 binary64) -/

/-- A value of the C++ type `double`, taken to be IEEE 754 binary64 with every operation
rounded to nearest, ties to even, and no wider intermediate format: a finite value,
which is a rational number, an infinity with its sign, or a NaN. The sign of a zero is
not kept. -/
inductive Double where
  | finite (q : ℚ)
  | inf (negative : Bool)
  | nan
deriving DecidableEq

/-- Rounding of a rational to the nearest integer, a tie going to the even one. -/
def round_half_even (x : ℚ) : ℤ :=
  if x - ⌊x⌋ < 1 / 2 then ⌊x⌋
  else if 1 / 2 < x - ⌊x⌋ then ⌊x⌋ + 1
  else if ⌊x⌋ % 2 = 0 then ⌊x⌋
  else ⌊x⌋ + 1

/-- The exponent of the spacing of the binary64 values at `q`: 53 significant bits from
the leading one of `q`, and the fixed spacing 2^-1074 of the subnormal range. -/
def Double.ulp_exp (q : ℚ) : ℤ :=
  max (Int.log 2 |q| - 52) (-1074)

/-- The binary64 value of an exact result `q`: `q` rounded to the nearest multiple of
the spacing, ties to even, and an infinity when the rounded value reaches 2^1024. -/
def Double.round (q : ℚ) : Double :=
  let r : ℚ := round_half_even (q / 2 ^ Double.ulp_exp q) * 2 ^ Double.ulp_exp q
  if 2 ^ 1024 ≤ |r| then .inf (decide (q < 0)) else .finite r

/-- The conversion of an integer to `double`. -/
def Double.of_int (n : Int) : Double :=
  Double.round n

/-- The sum `x + y` of two `double`s. -/
def Double.add : Double → Double → Double
  | .finite a, .finite b => Double.round (a + b)
  | .finite _, .inf s => .inf s
  | .inf s, .finite _ => .inf s
  | .inf s, .inf t => if s = t then .inf s else .nan
  | _, _ => .nan

/-- The negation `-x` of a `double`. -/
def Double.neg : Double → Double
  | .finite a => .finite (-a)
  | .inf s => .inf (!s)
  | .nan => .nan

/-- The difference `x - y` of two `double`s. -/
def Double.sub (x y : Double) : Double :=
  Double.add x (Double.neg y)

/-- The product `x * y` of two `double`s. -/
def Double.mul : Double → Double → Double
  | .finite a, .finite b => Double.round (a * b)
  | .finite a, .inf s => if a = 0 then .nan else .inf (xor (decide (a < 0)) s)
  | .inf s, .finite b => if b = 0 then .nan else .inf (xor s (decide (b < 0)))
  | .inf s, .inf t => .inf (xor s t)
  | _, _ => .nan

/-- The quotient `x / y` of two `double`s. A zero divisor is taken as positive: the sign
of the infinity that a non-zero value divided by zero gives is that of the dividend. -/
def Double.div : Double → Double → Double
  | .finite a, .finite b =>
    if b = 0 then (if a = 0 then .nan else .inf (decide (a < 0)))
    else Double.round (a / b)
  | .finite _, .inf _ => .finite 0
  | .inf s, .finite b => .inf (xor s (decide (b < 0)))
  | _, _ => .nan

/-- The comparison `x == 0` of a `double`. -/
def Double.is_zero : Double → Bool
  | .finite a => decide (a = 0)
  | _ => false

/-- The function `FunMetrics::get_metric` in the arithmetic of `double`: every stored count
and the two sizes of the `Call` node are converted from `int`, every sum, difference,
product and quotient is rounded, and `log` is the natural logarithm of `<cmath>`, a
function of the C library from `double` to `double`. The macro `sqr(x)` is
`((x) * (x))` and the macro `log2(x)` is `(log(x) / log(2.))`. The first argument bounds
the depth of the calls `get_metric` makes to itself; `none` is returned only when it is
used up. -/
def FunMetrics.get_metric_fuel (log : Double → Double) (m : FunMetrics) :
    Nat → Metric → Option Double
  | 0, _ => none
  | _ + 1, .em_fanin => some (Double.of_int m.call.num_caller)
  | _ + 1, .em_fanout => some (Double.of_int m.call.num_call)
  | fuel + 1, .em_ccycl1 => do
    let nif ← m.get_metric_fuel log fuel .em_nif
    let nswitch ← m.get_metric_fuel log fuel .em_nswitch
    let nfor ← m.get_metric_fuel log fuel .em_nfor
    let nwhile ← m.get_metric_fuel log fuel .em_nwhile
    let ndo ← m.get_metric_fuel log fuel .em_ndo
    some (Double.add (Double.add (Double.add (Double.add (Double.add nif nswitch) nfor)
      nwhile) ndo) (Double.of_int 1))
  | fuel + 1, .em_ccycl2 => do
    let ccycl1 ← m.get_metric_fuel log fuel .em_ccycl1
    let ncc2op ← m.get_metric_fuel log fuel .em_ncc2op
    some (Double.add ccycl1 ncc2op)
  | fuel + 1, .em_ccycl3 => do
    let ccycl2 ← m.get_metric_fuel log fuel .em_ccycl2
    let nswitch ← m.get_metric_fuel log fuel .em_nswitch
    let ncase ← m.get_metric_fuel log fuel .em_ncase
    some (Double.add (Double.sub ccycl2 nswitch) ncase)
  | fuel + 1, .em_cstruc => do
    let fanin ← m.get_metric_fuel log fuel .em_fanin
    let fanout ← m.get_metric_fuel log fuel .em_fanout
    some (Double.mul (Double.mul fanin fanout) (Double.mul fanin fanout))
  | fuel + 1, .em_iflow => do
    let cstruc ← m.get_metric_fuel log fuel .em_cstruc
    let ccycl1 ← m.get_metric_fuel log fuel .em_ccycl1
    some (Double.mul cstruc ccycl1)
  | fuel + 1, .em_chal => do
    let nuop ← m.get_metric_fuel log fuel .em_nuop
    let nuid ← m.get_metric_fuel log fuel .em_nuid
    let nnconst ← m.get_metric_fuel log fuel .em_nnconst
    let nclit ← m.get_metric_fuel log fuel .em_nclit
    let logarg := Double.add (Double.add (Double.add nuop nuid) nnconst) nclit
    if logarg.is_zero = true then some (Double.of_int 0)
    else do
      let nop ← m.get_metric_fuel log fuel .em_nop
      let nid ← m.get_metric_fuel log fuel .em_nid
      some (Double.mul (Double.add (Double.add (Double.add nop nid) nnconst) nclit)
        (Double.div (log logarg) (log (.finite 2))))
  | _ + 1, n => some (Double.of_int (m.count n))

/-- The function `FunMetrics::get_metric` in the arithmetic of `double`, with room for the
deepest chain of calls it makes to itself (`em_iflow`, `em_cstruc`, `em_fanin`). -/
def FunMetrics.get_metric_double (log : Double → Double) (m : FunMetrics) (n : Metric) :
    Option Double :=
  m.get_metric_fuel log (n.depth + 1) n

/-- The stored counts and the two sizes of the `Call` node are values of the C++ type
`int`, of 32 bits. -/
def FunMetrics.int_range (m : FunMetrics) : Prop :=
  (∀ n, -2 ^ 31 ≤ m.count n ∧ m.count n < 2 ^ 31) ∧
    m.call.num_caller < 2 ^ 31 ∧ m.call.num_call < 2 ^ 31

/-- A function called from 94906267 places that calls one function; every count is 0. -/
def example_wide_fanin : FunMetrics where
  count := fun _ => 0
  call := ⟨94906267, 1⟩

/-- The counts of a function with 2 operators of 2 kinds and 1 identifier occurrence:
N_op = 2, N_id = 1, NUOP = 2, NUID = 1, every other count 0; 3 unique operands. -/
def example_three_operands : FunMetrics where
  count := fun n =>
    match n with
    | .em_nop => 2
    | .em_nid => 1
    | .em_nuop => 2
    | .em_nuid => 1
    | _ => 0
  call := ⟨0, 0⟩

/-- A stand-in for the `log` of the C library: the `double`s nearest to the natural
logarithms of 2 and of 3 at those two arguments, 0 at 1, and NaN elsewhere. -/
def example_libm_log : Double → Double
  | .finite q =>
    if q = 1 then .finite 0
    else if q = 2 then .finite (6243314768165359 / 2 ^ 53)
    else if q = 3 then .finite (4947709893870347 / 2 ^ 52)
    else .nan
  | _ => .nan

/-- The counts of `example_metrics` (NIF = 2, NFOR = 1, NSWITCH = 1, NCASE = 3) for a
function with 3 callers and 2 callees. -/
def example_fan : FunMetrics where
  count := example_metrics.count
  call := ⟨3, 2⟩

/-! # Theorems -/

/-! ## Streams -/

theorem IStream.get_of_fail (s : IStream) (h : s.fail = true) : s.get = (none, s) := by
  simp [IStream.get, h]

theorem IStream.get_of_ge (s : IStream) (h : s.fail = false) (hge : s.data.length ≤ s.pos) :
    s.get = (none, { s with fail := true }) := by
  have : s.data[s.pos]? = none := List.getElem?_eq_none hge
  simp [IStream.get, h, this]

theorem IStream.get_of_lt (s : IStream) (h : s.fail = false) (hlt : s.pos < s.data.length) :
    s.get = (some s.data[s.pos], { s with pos := s.pos + 1 }) := by
  have : s.data[s.pos]? = some s.data[s.pos] := List.getElem?_eq_getElem hlt
  simp [IStream.get, h, this]

theorem IStream.get_rest_nil (s : IStream) (h : s.rest = []) :
    s.get.1 = none ∧ s.get.2.rest = [] := by
  cases hf : s.fail with
  | true => simp [s.get_of_fail hf, IStream.rest, hf]
  | false =>
    have hge : s.data.length ≤ s.pos := by simpa [IStream.rest, hf] using h
    simp [s.get_of_ge hf hge, IStream.rest]

theorem IStream.get_rest_cons (s : IStream) (c : Char) (r : List Char) (h : s.rest = c :: r) :
    s.fail = false ∧ s.get.1 = some c ∧ s.get.2.rest = r ∧ s.get.2.fail = false ∧
      s.get.2.pos = s.pos + 1 := by
  cases hf : s.fail with
  | true => simp [IStream.rest, hf] at h
  | false =>
    simp only [IStream.rest, hf] at h
    have hlt : s.pos < s.data.length := by
      by_contra hge
      have : s.data.drop s.pos = [] := by simp; omega
      simp [this] at h
    rw [List.drop_eq_getElem_cons hlt] at h
    injection h with h1 h2
    simp [s.get_of_lt hf hlt, IStream.rest, hf, h1, h2]

theorem IStream.skip_rest (n : Nat) (s : IStream) : (IStream.skip n s).rest = s.rest.drop n := by
  induction n generalizing s with
  | zero => simp [IStream.skip]
  | succ n ih =>
    simp only [IStream.skip]
    rw [ih]
    cases hr : s.rest with
    | nil => simp [(s.get_rest_nil hr).2]
    | cons c r => simp [(s.get_rest_cons c r hr).2.2.1]

theorem IStream.get_fail_false (s : IStream) (h : s.get.2.fail = false) :
    s.fail = false ∧ s.get.2.pos = s.pos + 1 := by
  cases hf : s.fail with
  | true => simp [s.get_of_fail hf, hf] at h
  | false =>
    by_cases hlt : s.pos < s.data.length
    · simp [s.get_of_lt hf hlt]
    · simp [s.get_of_ge hf (not_lt.mp hlt)] at h

theorem IStream.skip_pos (n : Nat) (s : IStream) (h : (IStream.skip n s).fail = false) :
    s.fail = false ∧ (IStream.skip n s).pos = s.pos + n := by
  induction n generalizing s with
  | zero => exact ⟨by simpa [IStream.skip] using h, by simp [IStream.skip]⟩
  | succ n ih =>
    simp only [IStream.skip] at h ⊢
    obtain ⟨h1, h2⟩ := ih _ h
    obtain ⟨h3, h4⟩ := s.get_fail_false h1
    exact ⟨h3, by rw [h2, h4]; omega⟩

theorem IStream.tellg_of_rest_cons (s : IStream) (c : Char) (r : List Char)
    (h : s.rest = c :: r) : s.tellg = (s.pos : Int) := by
  simp [IStream.tellg, (s.get_rest_cons c r h).1]

/-! ## The scanning loop of file_replace -/

theorem spec_rewrite_from_nil (w : World) (fid : Fileid) (k pos : Nat) :
    spec_rewrite_from w fid k pos [] = ([], 0) := by
  cases k <;> rfl

theorem replace_target_some (w : World) (ti : Tokid) (ec : Eclass) (idp : Identifier)
    (h : replace_target w ti = some (ec, idp)) :
    ∃ p, w.tokmap ti = some p ∧ ec = w.ecs p ∧ (w.ecs p).is_identifier = true ∧
      IdProp.find w.ids p = some idp ∧ idp.replaced = true := by
  unfold replace_target at h
  cases hp : w.tokmap ti with
  | none => simp [hp] at h
  | some p =>
    simp only [hp] at h
    by_cases hi : (w.ecs p).is_identifier = true
    · simp only [hi, if_true] at h
      cases hfind : IdProp.find w.ids p with
      | none => simp [hfind] at h
      | some i =>
        simp only [hfind] at h
        by_cases hrep : i.replaced = true
        · simp only [hrep, if_true, Option.some.injEq, Prod.mk.injEq] at h
          exact ⟨p, rfl, h.1.symm, hi, hfind.trans (congrArg some h.2), by rw [← h.2]; exact hrep⟩
        · simp [hrep] at h
    · simp [hi] at h

/-- The loop returns: more fuel than remaining input bytes is enough, whatever the
lengths of the classes. -/
theorem file_replace_loop_isSome (w : World) (fid : Fileid) :
    ∀ (fuel : Nat) (s : IStream) (out : List Char) (n : Nat), s.rest.length < fuel →
      ∃ r, file_replace_loop w fid fuel s out n = some r := by
  intro fuel
  induction fuel with
  | zero => intro s out n h; omega
  | succ fuel ih =>
    intro s out n h
    cases hr : s.rest with
    | nil =>
      have hg := (s.get_rest_nil hr).1
      refine ⟨(out, n), ?_⟩
      unfold file_replace_loop
      rcases hget : s.get with ⟨v, s1⟩
      rw [hget] at hg
      simp only at hg
      subst hg
      rfl
    | cons c r =>
      obtain ⟨_, hg1, hg2, _, _⟩ := s.get_rest_cons c r hr
      rw [hr] at h
      simp only [List.length_cons] at h
      unfold file_replace_loop
      rcases hget : s.get with ⟨v, s1⟩
      rw [hget] at hg1 hg2
      simp only at hg1 hg2
      subst hg1
      simp only
      cases ht : replace_target w ⟨fid, s.tellg⟩ with
      | none =>
        simp only
        exact ih s1 _ _ (by rw [hg2]; omega)
      | some t =>
        obtain ⟨ec, idp⟩ := t
        simp only
        apply ih
        rw [IStream.skip_rest, hg2, List.length_drop]
        omega

/-- With classes of positive length the loop computes the specified rewrite of the
remaining input. -/
theorem file_replace_loop_eq_spec (w : World) (fid : Fileid) (hpos : PositiveLengths w) :
    ∀ (fuel k : Nat) (s : IStream) (out : List Char) (n : Nat),
      s.rest.length < fuel → s.rest.length ≤ k →
      file_replace_loop w fid fuel s out n =
        some (out ++ (spec_rewrite_from w fid k s.pos s.rest).1,
          n + (spec_rewrite_from w fid k s.pos s.rest).2) := by
  intro fuel
  induction fuel with
  | zero => intro k s out n h; omega
  | succ fuel ih =>
    intro k s out n h hk
    cases hr : s.rest with
    | nil =>
      have hg := (s.get_rest_nil hr).1
      unfold file_replace_loop
      rcases hget : s.get with ⟨v, s1⟩
      rw [hget] at hg
      simp only at hg
      subst hg
      simp [spec_rewrite_from_nil]
    | cons c r =>
      obtain ⟨hf, hg1, hg2, hg3, hg4⟩ := s.get_rest_cons c r hr
      have htell := s.tellg_of_rest_cons c r hr
      rw [hr] at h hk
      simp only [List.length_cons] at h hk
      obtain ⟨k, rfl⟩ : ∃ k', k = k' + 1 := ⟨k - 1, by omega⟩
      unfold file_replace_loop
      rcases hget : s.get with ⟨v, s1⟩
      rw [hget] at hg1 hg2 hg3 hg4
      simp only at hg1 hg2 hg3 hg4
      subst hg1
      simp only [htell]
      unfold spec_rewrite_from
      cases ht : replace_target w ⟨fid, (s.pos : Int)⟩ with
      | none =>
        simp only
        rw [ih k s1 _ _ (by rw [hg2]; omega) (by rw [hg2]; omega), hg2, hg4]
        simp
      | some t =>
        obtain ⟨ec, idp⟩ := t
        simp only
        have hlen : 0 < ec.len := by
          obtain ⟨p, hp, hec, _⟩ := replace_target_some w _ ec idp ht
          rw [hec]; exact hpos _ p hp
        have hnat : ec.len.toNat = (ec.len - 1).toNat + 1 := by omega
        have hrest : (IStream.skip (ec.len - 1).toNat s1).rest =
            List.drop ec.len.toNat (c :: r) := by
          rw [IStream.skip_rest, hg2, hnat, List.drop_succ_cons]
        have hle : (IStream.skip (ec.len - 1).toNat s1).rest.length ≤ r.length := by
          rw [IStream.skip_rest, hg2, List.length_drop]; omega
        rw [ih k _ _ _ (by omega) (by omega)]
        have hspec : spec_rewrite_from w fid k (IStream.skip (ec.len - 1).toNat s1).pos
              (IStream.skip (ec.len - 1).toNat s1).rest =
            spec_rewrite_from w fid k (s.pos + ec.len.toNat) (List.drop ec.len.toNat (c :: r)) := by
          cases hf2 : (IStream.skip (ec.len - 1).toNat s1).fail with
          | false =>
            rw [(IStream.skip_pos _ _ hf2).2, hrest, hg4]
            congr 1; omega
          | true =>
            have hnil : (IStream.skip (ec.len - 1).toNat s1).rest = [] := by
              unfold IStream.rest; rw [hf2]; rfl
            rw [← hrest, hnil, spec_rewrite_from_nil, spec_rewrite_from_nil]
        rw [hspec]
        simp only [List.append_assoc, Option.some.injEq, Prod.mk.injEq, true_and]
        omega


/-! ## The rewritten content -/

/-- With classes of positive length the scan returns the specified rewrite and its
count. -/
theorem file_replace_scan_count (w : World) (fid : Fileid) (content : List Char)
    (hpos : PositiveLengths w) :
    file_replace_scan w fid content =
      some ((spec_rewrite w fid content).1, (spec_rewrite w fid content).2) := by
  unfold file_replace_scan spec_rewrite
  have h := file_replace_loop_eq_spec w fid hpos (content.length + 1) content.length
    ⟨content, 0, false⟩ [] 0 (by simp [IStream.rest]) (by simp [IStream.rest])
  rw [h]
  simp [IStream.rest]

/-- C1: for every file content and every Tokid-to-EC map whose classes have positive
length, the bytes `file_replace` writes to the `.repl` file are the input scanned left
to right where, at each position whose class is an identifier class with an entry in
`ids` flagged replaced, the next `length` input bytes are dropped and the replacement
string is written, and every other byte is copied unchanged in order. -/
theorem file_replace_writes_spec_rewrite (w : World) (fid : Fileid) (content : List Char)
    (hpos : PositiveLengths w) :
    (file_replace_scan w fid content).map Prod.fst =
      some (spec_rewrite w fid content).1 := by
  rw [file_replace_scan_count w fid content hpos]
  rfl

theorem example_world_positive (newid : String) (ro : Bool) :
    PositiveLengths (example_world newid ro) := by
  intro ti p _
  show (0 : Int) < 3
  decide

theorem file_replace_writes_spec_rewrite_witness :
    PositiveLengths (example_world "foo2" false) ∧
      (file_replace_scan (example_world "foo2" false) 0 "int foo = foo;".toList).map Prod.fst =
        some (spec_rewrite (example_world "foo2" false) 0 "int foo = foo;".toList).1 :=
  ⟨example_world_positive _ _,
    file_replace_writes_spec_rewrite _ 0 _ (example_world_positive _ _)⟩

theorem spec_rewrite_from_self (w : World) (fid : Fileid) (content : List Char)
    (hpos : PositiveLengths w) (hself : RenamedToItself w fid content) :
    ∀ (k pos : Nat), (content.drop pos).length ≤ k →
      (spec_rewrite_from w fid k pos (content.drop pos)).1 = content.drop pos := by
  intro k
  induction k with
  | zero =>
    intro pos h
    have : content.drop pos = [] := List.length_eq_zero.mp (by omega)
    rw [this]; rfl
  | succ k ih =>
    intro pos h
    cases hd : content.drop pos with
    | nil => rfl
    | cons c r =>
      have hlt : pos < content.length := by
        by_contra hge
        have : content.drop pos = [] := by simp; omega
        rw [this] at hd; cases hd
      rw [hd] at h
      simp only [List.length_cons] at h
      unfold spec_rewrite_from
      cases ht : replace_target w ⟨fid, (pos : Int)⟩ with
      | none =>
        simp only
        have hr : r = content.drop (pos + 1) := by
          have := congrArg (List.drop 1) hd
          simpa [List.drop_drop, Nat.add_comm] using this.symm
        rw [hr, ih (pos + 1) (by rw [← hr]; omega)]
      | some t =>
        obtain ⟨ec, idp⟩ := t
        simp only
        have hlen : 0 < ec.len := by
          obtain ⟨p, hp, hec, _⟩ := replace_target_some w _ ec idp ht
          rw [hec]; exact hpos _ p hp
        have hnew := hself pos ec idp hlt ht
        have hdrop : List.drop ec.len.toNat (c :: r) = content.drop (pos + ec.len.toNat) := by
          rw [← hd, List.drop_drop, Nat.add_comm]
        have hlen2 : (content.drop (pos + ec.len.toNat)).length ≤ k := by
          rw [← hdrop, List.length_drop, List.length_cons]; omega
        rw [hdrop, ih _ hlen2, hnew, hd, ← hdrop, List.take_append_drop]


/-! ## The file store after file_replace -/

theorem repl_path_ne (p : String) : p ++ ".repl" ≠ p := by
  intro h
  have hl := congrArg String.length h
  rw [String.length_append] at hl
  have : (".repl" : String).length = 5 := by decide
  omega

theorem file_replace_scan_isSome (w : World) (fid : Fileid) (content : List Char) :
    ∃ out n, file_replace_scan w fid content = some (out, n) := by
  obtain ⟨r, hr⟩ := file_replace_loop_isSome w fid (content.length + 1)
    ⟨content, 0, false⟩ [] 0 (by simp [IStream.rest])
  exact ⟨r.1, r.2, hr⟩

/-- The file store `file_replace` leaves when both opens succeed. -/
theorem file_replace_eq (w : World) (oc : Outcomes) (fs : FS) (fid : Fileid)
    (content out : List Char) (n : Nat) (hfile : fs (w.path fid) = some content)
    (hopen : oc.out_open = true) (hscan : file_replace_scan w fid content = some (out, n)) :
    file_replace w oc fs fid =
      some (.ok
        (if n ≠ 0 then
          ((fs.write (w.path fid ++ ".repl") out).unlink oc.unlink (w.path fid)).rename
            oc.rename (w.path fid ++ ".repl") (w.path fid)
        else fs.write (w.path fid ++ ".repl") out, n)) := by
  unfold file_replace
  simp only [hfile, hopen, hscan, FS.system]
  by_cases hn : n = 0 <;> simp [hn]

/-- C2: refactor round trip. If every class flagged replaced has a replacement string
equal to the bytes the file holds at the positions where the scan selects it (every
identifier renamed to itself), the content `file_replace` writes is byte-identical to
the original, and so is the file at the original path after the call, whenever a
successful `unlink` is followed by a successful `rename`. -/
theorem file_replace_round_trip (w : World) (fid : Fileid) (content : List Char)
    (hpos : PositiveLengths w) (hself : RenamedToItself w fid content) :
    (file_replace_scan w fid content).map Prod.fst = some content ∧
      ∀ (oc : Outcomes) (fs : FS), fs (w.path fid) = some content → oc.out_open = true →
        (oc.unlink = true → oc.rename = true) →
        file_after (file_replace w oc fs fid) (w.path fid) = some (some content) := by
  have hscan : (file_replace_scan w fid content).map Prod.fst = some content := by
    rw [file_replace_scan_count w fid content hpos]
    unfold spec_rewrite
    have := spec_rewrite_from_self w fid content hpos hself content.length 0 (by simp)
    simpa using this
  refine ⟨hscan, ?_⟩
  intro oc fs hfile hopen hsteps
  obtain ⟨out, n, hout⟩ := file_replace_scan_isSome w fid content
  have hoc : out = content := by simpa [hout] using hscan
  subst hoc
  rw [file_replace_eq w oc fs fid out out n hfile hopen hout]
  have hne := repl_path_ne (w.path fid)
  by_cases hn : n = 0
  · simp [file_after, hn, FS.write, hne.symm, hfile]
  · cases hu : oc.unlink <;> cases hr : oc.rename <;>
      simp_all [file_after, FS.write, FS.unlink, FS.rename, hne.symm]

theorem example_world_renamed_to_itself :
    RenamedToItself (example_world "foo" false) 0 "int foo = foo;".toList := by
  intro pos ec idp hlt ht
  have hlt' : pos < 14 := hlt
  interval_cases pos <;> simp [replace_target, example_world, IdProp.find] at ht
  all_goals
    obtain ⟨rfl, rfl⟩ := ht
    decide

theorem file_replace_round_trip_witness :
    (PositiveLengths (example_world "foo" false) ∧
      RenamedToItself (example_world "foo" false) 0 "int foo = foo;".toList) ∧
    (file_replace_scan (example_world "foo" false) 0 "int foo = foo;".toList).map Prod.fst =
      some "int foo = foo;".toList :=
  ⟨⟨example_world_positive _ _, example_world_renamed_to_itself⟩,
    (file_replace_round_trip (example_world "foo" false) 0 "int foo = foo;".toList
      (example_world_positive _ _) example_world_renamed_to_itself).1⟩


/-! ## The final steps of file_replace -/

/-- C4 (as amended): `file_replace` tests the result of none of its final steps. With
both opens successful the call completes, and when it made a replacement: if the
rename succeeds the path holds the rewritten content; if the removal and the rename
both fail the original is still at its path with its original content; if the removal
succeeds and the rename fails no file is left at the path and the rewritten content
stays in the `.repl` file. The results of the checkout and checkin commands change
none of this. A call that makes no replacement runs none of the steps and leaves the
original in place. -/
theorem file_replace_final_steps (w : World) (oc : Outcomes) (fs : FS) (fid : Fileid)
    (content : List Char) (hfile : fs (w.path fid) = some content)
    (hopen : oc.out_open = true) :
    ∃ out n fs1, file_replace_scan w fid content = some (out, n) ∧
      file_replace w oc fs fid = some (.ok (fs1, n)) ∧
      (n = 0 → fs1 (w.path fid) = some content) ∧
      (n ≠ 0 → oc.rename = true → fs1 (w.path fid) = some out) ∧
      (n ≠ 0 → oc.unlink = false → oc.rename = false → fs1 (w.path fid) = some content) ∧
      (n ≠ 0 → oc.unlink = true → oc.rename = false →
        fs1 (w.path fid) = none ∧ fs1 (w.path fid ++ ".repl") = some out) := by
  obtain ⟨out, n, hout⟩ := file_replace_scan_isSome w fid content
  have hne := repl_path_ne (w.path fid)
  refine ⟨out, n, _, hout, file_replace_eq w oc fs fid content out n hfile hopen hout, ?_⟩
  refine ⟨?_, ?_, ?_, ?_⟩
  · intro hn
    simp [hn, FS.write, hne.symm, hfile]
  · intro hn hr
    cases hu : oc.unlink <;> simp [hn, hr, hu, FS.write, FS.unlink, FS.rename, hne]
  · intro hn hu hr
    simp [hn, hr, hu, FS.write, FS.unlink, FS.rename, hne.symm, hfile]
  · intro hn hu hr
    simp [hn, hr, hu, FS.write, FS.unlink, FS.rename, hne]

theorem file_replace_final_steps_witness :
    (example_fs ((example_world "foo2" false).path 0) = some "int foo = foo;".toList ∧
      rename_fails.out_open = true) ∧
    ∃ out n fs1,
      file_replace_scan (example_world "foo2" false) 0 "int foo = foo;".toList = some (out, n) ∧
      file_replace (example_world "foo2" false) rename_fails example_fs 0 = some (.ok (fs1, n)) ∧
      (n = 0 → fs1 ((example_world "foo2" false).path 0) = some "int foo = foo;".toList) ∧
      (n ≠ 0 → rename_fails.rename = true →
        fs1 ((example_world "foo2" false).path 0) = some out) ∧
      (n ≠ 0 → rename_fails.unlink = false → rename_fails.rename = false →
        fs1 ((example_world "foo2" false).path 0) = some "int foo = foo;".toList) ∧
      (n ≠ 0 → rename_fails.unlink = true → rename_fails.rename = false →
        fs1 ((example_world "foo2" false).path 0) = none ∧
          fs1 ((example_world "foo2" false).path 0 ++ ".repl") = some out) :=
  ⟨⟨by decide, by decide⟩,
    file_replace_final_steps (example_world "foo2" false) rename_fails example_fs 0
      "int foo = foo;".toList (by decide) (by decide)⟩

/-- C4 (counterexample): in the example workspace, when the removal of `x.c` succeeds
and the rename of `x.c.repl` fails, the call completes with 2 replacements and no file
is left at `x.c`, which held `int foo = foo;` before the call. -/
theorem file_replace_rename_failure_loses_original :
    example_fs "x.c" = some "int foo = foo;".toList ∧
      rename_fails.unlink = true ∧ rename_fails.rename = false ∧
      file_after (file_replace (example_world "foo2" false) rename_fails example_fs 0) "x.c" =
        some none ∧
      file_after (file_replace (example_world "foo2" false) rename_fails example_fs 0)
        "x.c.repl" = some (some "int foo2 = foo2;".toList) := by
  decide


/-! ## The set of files to process -/

theorem IFSet.mem_insert (a x : Fileid) (s : List Fileid) :
    a ∈ IFSet.insert x s ↔ a = x ∨ a ∈ s := by
  induction s with
  | nil => simp [IFSet.insert]
  | cons y ys ih =>
    unfold IFSet.insert
    by_cases h1 : x < y
    · simp [h1]
    · by_cases h2 : x = y
      · subst h2; simp
      · simp only [h1, h2, if_false, List.mem_cons, ih]
        tauto

theorem IFSet.insert_sorted (x : Fileid) (s : List Fileid) (hs : s.Sorted (· < ·)) :
    (IFSet.insert x s).Sorted (· < ·) := by
  induction s with
  | nil => simp [IFSet.insert]
  | cons y ys ih =>
    unfold IFSet.insert
    by_cases h1 : x < y
    · simp only [h1, if_true]
      refine List.sorted_cons.mpr ⟨?_, hs⟩
      intro b hb
      rcases List.mem_cons.mp hb with rfl | hb
      · exact h1
      · exact lt_trans h1 (List.rel_of_sorted_cons hs b hb)
    · by_cases h2 : x = y
      · subst h2
        simpa using hs
      · simp only [h1, h2, if_false]
        refine List.sorted_cons.mpr ⟨?_, ih hs.of_cons⟩
        intro b hb
        rcases (IFSet.mem_insert b x ys).mp hb with rfl | hb
        · exact Nat.lt_of_le_of_ne (Nat.le_of_not_lt h1) (Ne.symm h2)
        · exact List.rel_of_sorted_cons hs b hb

theorem IFSet.mem_insertAll (a : Fileid) (xs s : List Fileid) :
    a ∈ IFSet.insertAll xs s ↔ a ∈ xs ∨ a ∈ s := by
  unfold IFSet.insertAll
  induction xs generalizing s with
  | nil => simp
  | cons x xs ih =>
    simp only [List.foldl_cons, ih, IFSet.mem_insert, List.mem_cons]
    tauto

theorem IFSet.insertAll_sorted (xs s : List Fileid) (hs : s.Sorted (· < ·)) :
    (IFSet.insertAll xs s).Sorted (· < ·) := by
  unfold IFSet.insertAll
  induction xs generalizing s with
  | nil => simpa using hs
  | cons x xs ih =>
    simp only [List.foldl_cons]
    exact ih _ (IFSet.insert_sorted x s hs)

theorem Eclass.mem_sorted_files (e : Eclass) (f : Fileid) :
    f ∈ e.sorted_files ↔ ∃ t ∈ e.members, t.fileid = f := by
  simp [Eclass.sorted_files, IFSet.mem_insertAll]

theorem Eclass.sorted_files_sorted (e : Eclass) : e.sorted_files.Sorted (· < ·) :=
  IFSet.insertAll_sorted _ _ List.sorted_nil

theorem mem_process_fold (w : World) (f : Fileid) (ids : List (EcPtr × Identifier))
    (acc : List Fileid) :
    f ∈ ids.foldl
        (fun process i =>
          if i.2.replaced then IFSet.insertAll (w.ecs i.1).sorted_files process else process)
        acc ↔
      f ∈ acc ∨ ∃ i ∈ ids, i.2.replaced = true ∧ ∃ t ∈ (w.ecs i.1).members, t.fileid = f := by
  induction ids generalizing acc with
  | nil => simp
  | cons i rest ih =>
    simp only [List.foldl_cons, ih, List.mem_cons, exists_eq_or_imp]
    by_cases hr : i.2.replaced = true
    · simp only [hr, if_true, IFSet.mem_insertAll, Eclass.mem_sorted_files, true_and]
      constructor
      · rintro ((h | h) | h)
        · exact Or.inr (Or.inl h)
        · exact Or.inl h
        · exact Or.inr (Or.inr h)
      · rintro (h | h | h)
        · exact Or.inl (Or.inr h)
        · exact Or.inl (Or.inl h)
        · exact Or.inr h
    · simp [hr]

theorem mem_files_to_process (w : World) (f : Fileid) :
    f ∈ files_to_process w ↔
      ∃ i ∈ w.ids, i.2.replaced = true ∧ ∃ t ∈ (w.ecs i.1).members, t.fileid = f := by
  unfold files_to_process
  rw [mem_process_fold]
  simp

theorem process_fold_sorted (w : World) (ids : List (EcPtr × Identifier)) (acc : List Fileid)
    (hacc : acc.Sorted (· < ·)) :
    (ids.foldl
      (fun process i =>
        if i.2.replaced then IFSet.insertAll (w.ecs i.1).sorted_files process else process)
      acc).Sorted (· < ·) := by
  induction ids generalizing acc with
  | nil => simpa using hacc
  | cons i rest ih =>
    simp only [List.foldl_cons]
    apply ih
    by_cases hr : i.2.replaced = true
    · simp only [hr, if_true]; exact IFSet.insertAll_sorted _ _ hacc
    · simp only [hr, if_false]; exact hacc

theorem files_to_process_nodup (w : World) : (files_to_process w).Nodup :=
  (process_fold_sorted w w.ids [] List.sorted_nil).nodup


/-! ## Frame of the rewrite -/

/-- A completed `file_replace` call changes the store only at the path of the file and
at its `.repl` sibling. -/
theorem file_replace_frame (w : World) (oc : Outcomes) (fs fs1 : FS) (fid : Fileid) (n : Nat)
    (h : file_replace w oc fs fid = some (.ok (fs1, n))) (q : String)
    (hq : q ≠ w.path fid) (hq2 : q ≠ w.path fid ++ ".repl") : fs1 q = fs q := by
  cases hfile : fs (w.path fid) with
  | none => simp [file_replace, hfile] at h
  | some content =>
    cases hopen : oc.out_open with
    | false => simp [file_replace, hfile, hopen] at h
    | true =>
      obtain ⟨out, m, hout⟩ := file_replace_scan_isSome w fid content
      rw [file_replace_eq w oc fs fid content out m hfile hopen hout] at h
      simp only [Option.some.injEq, Except.ok.injEq, Prod.mk.injEq] at h
      rw [← h.1]
      by_cases hm : m = 0
      · simp [hm, FS.write, hq2]
      · cases hu : oc.unlink <;> cases hr : oc.rename <;>
          simp [hm, FS.write, FS.unlink, FS.rename, hq, hq2]

theorem replace_files_frame (w : World) (oc : Fileid → Outcomes) (q : String) :
    ∀ (l : List Fileid) (fs fs1 : FS) (n m : Nat),
      replace_files w oc l fs n = some (.ok (fs1, m)) →
      (∀ g ∈ l, q ≠ w.path g ∧ q ≠ w.path g ++ ".repl") → fs1 q = fs q := by
  intro l
  induction l with
  | nil =>
    intro fs fs1 n m h _
    simp only [replace_files, Option.some.injEq, Except.ok.injEq, Prod.mk.injEq] at h
    rw [← h.1]
  | cons g rest ih =>
    intro fs fs1 n m h hq
    unfold replace_files at h
    cases hg : file_replace w (oc g) fs g with
    | none => simp [hg] at h
    | some r =>
      cases r with
      | error code => simp [hg] at h
      | ok p =>
        obtain ⟨fs2, k⟩ := p
        simp only [hg] at h
        have h1 := ih fs2 fs1 _ m h (fun g' hg' => hq g' (List.mem_cons_of_mem _ hg'))
        have h2 := file_replace_frame w (oc g) fs fs2 g k hg q
          (hq g (List.mem_cons_self _ _)).1 (hq g (List.mem_cons_self _ _)).2
        rw [h1, h2]

/-- The set `process` of `write_quit_page` holds exactly the files with a member of a
class flagged replaced, and the read-only attribute takes no part in the selection; a
file whose path is neither that of a file of `process` nor that of the `.repl` sibling
of one is left unchanged by the request. -/
theorem write_quit_page_processes_member_files (w : World) :
    (∀ f, f ∈ files_to_process w ↔
      ∃ i ∈ w.ids, i.2.replaced = true ∧ ∃ t ∈ (w.ecs i.1).members, t.fileid = f) ∧
    (∀ ro : Fileid → Bool, files_to_process { w with readonly := ro } = files_to_process w) ∧
    (∀ (peer : Option String) (oc : Fileid → Outcomes) (fs : FS) (me : Bool) (o : QuitOutcome)
      (q : String), write_quit_page peer w oc fs me = some (.ok o) →
      (∀ g ∈ files_to_process w, q ≠ w.path g ∧ q ≠ w.path g ++ ".repl") → o.fs q = fs q) := by
  refine ⟨mem_files_to_process w, fun _ => rfl, ?_⟩
  intro peer oc fs me o q h hq
  unfold write_quit_page at h
  cases hl : local_access peer with
  | false =>
    simp only [hl, if_true, Option.some.injEq, Except.ok.injEq] at h
    rw [← h]
  | true =>
    simp only [hl, Bool.true_eq_false, if_false] at h
    cases hr : replace_files w oc (files_to_process w) fs 0 with
    | none => simp [hr] at h
    | some r =>
      cases r with
      | error code => simp [hr] at h
      | ok p =>
        obtain ⟨fs1, k⟩ := p
        simp only [hr, Option.some.injEq, Except.ok.injEq] at h
        rw [← h]
        exact replace_files_frame w oc q _ fs fs1 0 k hr hq

/-- C3 (code at the failing input): in the example workspace `y.c` (file 1) is read-only
and the class of `foo` has a member in it. A local request `id.html?id=7&sname=foo2`
records the replacement, and the local `write_quit_page` request that follows has `y.c`
in its set of files to process and rewrites it: the file held `foo();` and holds
`foo2();` afterwards. -/
theorem write_quit_page_rewrites_readonly_file :
    example_readonly_world.readonly 1 = true ∧
      example_readonly_world.path 1 = "y.c" ∧
      (⟨1, 0⟩ : Tokid) ∈ (example_readonly_world.ecs 7).members ∧
      example_fs "y.c" = some "foo();".toList ∧
      identifier_page example_default_identifier (some "127.0.0.1") (some 7)
          (some "foo2".toList) example_readonly_world.ids =
        [(7, ⟨"foo".toList, "foo2".toList, false, true⟩)] ∧
      1 ∈ files_to_process
          { example_readonly_world with
            ids := identifier_page example_default_identifier (some "127.0.0.1") (some 7)
              (some "foo2".toList) example_readonly_world.ids } ∧
      quit_file_after
          (write_quit_page (some "127.0.0.1")
            { example_readonly_world with
              ids := identifier_page example_default_identifier (some "127.0.0.1") (some 7)
                (some "foo2".toList) example_readonly_world.ids }
            (fun _ => all_ok) example_fs false) "y.c" =
        some (some "foo2();".toList) := by
  decide


/-! ## Replacement counts -/

theorem replace_files_total (w : World) (hpos : PositiveLengths w) (oc : Fileid → Outcomes)
    (fs0 : FS) :
    ∀ (l : List Fileid) (fs : FS) (n : Nat), l.Nodup →
      (∀ f ∈ l, fs (w.path f) = fs0 (w.path f)) →
      (∀ f ∈ l, (fs0 (w.path f)).isSome = true ∧ (oc f).out_open = true) →
      (∀ f ∈ l, ∀ g ∈ l, f ≠ g → w.path g ≠ w.path f ∧ w.path g ≠ w.path f ++ ".repl") →
      ∃ fs1, replace_files w oc l fs n =
        some (.ok (fs1, n + (l.map (substituted_in w fs0)).sum)) := by
  intro l
  induction l with
  | nil =>
    intro fs n _ _ _ _
    exact ⟨fs, by simp [replace_files]⟩
  | cons g rest ih =>
    intro fs n hnd hagree hready hpaths
    have hg := hready g (List.mem_cons_self _ _)
    obtain ⟨content, hcontent⟩ := Option.isSome_iff_exists.mp hg.1
    have hfile : fs (w.path g) = some content := by
      rw [hagree g (List.mem_cons_self _ _), hcontent]
    have hscan := file_replace_scan_count w g content hpos
    have hrep := file_replace_eq w (oc g) fs g content _ _ hfile hg.2 hscan
    have hsub : substituted_in w fs0 g = (spec_rewrite w g content).2 := by
      simp [substituted_in, hcontent]
    obtain ⟨hgrest, hnd'⟩ := List.nodup_cons.mp hnd
    have hframe : ∀ f ∈ rest, (if (spec_rewrite w g content).2 ≠ 0 then
          ((fs.write (w.path g ++ ".repl") (spec_rewrite w g content).1).unlink (oc g).unlink
            (w.path g)).rename (oc g).rename (w.path g ++ ".repl") (w.path g)
        else fs.write (w.path g ++ ".repl") (spec_rewrite w g content).1) (w.path f) =
          fs0 (w.path f) := by
      intro f hf
      have hne : g ≠ f := fun h => hgrest (h ▸ hf)
      have hp := hpaths g (List.mem_cons_self _ _) f (List.mem_cons_of_mem _ hf) hne
      rw [file_replace_frame w (oc g) fs _ g _ hrep (w.path f) hp.1 hp.2]
      exact hagree f (List.mem_cons_of_mem _ hf)
    obtain ⟨fs1, h1⟩ := ih _ (n + (spec_rewrite w g content).2) hnd' hframe
      (fun f hf => hready f (List.mem_cons_of_mem _ hf))
      (fun f hf g' hg' => hpaths f (List.mem_cons_of_mem _ hf) g' (List.mem_cons_of_mem _ hg'))
    refine ⟨fs1, ?_⟩
    unfold replace_files
    simp only [hrep, h1, List.map_cons, List.sum_cons, hsub, Nat.add_assoc]

theorem spec_rewrite_from_count_pos (w : World) (fid : Fileid) :
    ∀ (rest : List Char) (k pos : Nat), rest.length ≤ k →
      (∃ p : Nat, pos ≤ p ∧ p < pos + rest.length ∧
        (replace_target w ⟨fid, (p : Int)⟩).isSome = true) →
      1 ≤ (spec_rewrite_from w fid k pos rest).2 := by
  intro rest
  induction rest with
  | nil =>
    intro k pos _ h
    obtain ⟨p, h1, h2, _⟩ := h
    simp at h2
    omega
  | cons c r ih =>
    intro k pos hk h
    obtain ⟨p, h1, h2, h3⟩ := h
    simp only [List.length_cons] at hk h2
    obtain ⟨k, rfl⟩ : ∃ k', k = k' + 1 := ⟨k - 1, by omega⟩
    unfold spec_rewrite_from
    cases ht : replace_target w ⟨fid, (pos : Int)⟩ with
    | some t =>
      obtain ⟨ec, idp⟩ := t
      simp
    | none =>
      simp only
      have hne : p ≠ pos := by
        intro hp
        rw [hp, ht] at h3
        simp at h3
      exact ih k (pos + 1) (by omega) ⟨p, by omega, by omega, h3⟩

theorem IdProp.find_mem (ids : List (EcPtr × Identifier)) (p : EcPtr) (idp : Identifier)
    (h : IdProp.find ids p = some idp) : (p, idp) ∈ ids := by
  induction ids with
  | nil => simp [IdProp.find] at h
  | cons i rest ih =>
    obtain ⟨k, v⟩ := i
    unfold IdProp.find at h
    by_cases hk : k = p
    · simp only [hk, if_true, Option.some.injEq] at h
      subst hk; subst h
      exact List.mem_cons_self _ _
    · simp only [hk, if_false] at h
      exact List.mem_cons_of_mem _ (ih h)

theorem replace_target_of (w : World) (t : Tokid) (p : EcPtr) (idp : Identifier)
    (hmap : w.tokmap t = some p) (hid : (w.ecs p).is_identifier = true)
    (hfind : IdProp.find w.ids p = some idp) (hrep : idp.replaced = true) :
    replace_target w t = some (w.ecs p, idp) := by
  simp [replace_target, hmap, hid, hfind, hrep]

theorem mem_le_sum_map (g : Fileid → Nat) (l : List Fileid) (a : Fileid) (ha : a ∈ l) :
    g a ≤ (l.map g).sum := by
  induction l with
  | nil => cases ha
  | cons x xs ih =>
    simp only [List.map_cons, List.sum_cons]
    rcases List.mem_cons.mp ha with rfl | h
    · omega
    · have := ih h; omega

theorem two_le_sum_map (g : Fileid → Nat) (l : List Fileid) (a b : Fileid) (ha : a ∈ l)
    (hb : b ∈ l) (hab : a ≠ b) (h1 : 1 ≤ g a) (h2 : 1 ≤ g b) : 2 ≤ (l.map g).sum := by
  induction l with
  | nil => cases ha
  | cons x xs ih =>
    simp only [List.map_cons, List.sum_cons]
    rcases List.mem_cons.mp ha with rfl | ha'
    · rcases List.mem_cons.mp hb with rfl | hb'
      · exact absurd rfl hab
      · have := mem_le_sum_map g xs b hb'; omega
    · rcases List.mem_cons.mp hb with rfl | hb'
      · have := mem_le_sum_map g xs a ha'; omega
      · have := ih ha' hb'; omega

theorem substituted_in_pos (w : World) (fs : FS) (p : EcPtr) (idp : Identifier) (t : Tokid)
    (hfind : IdProp.find w.ids p = some idp) (hrep : idp.replaced = true)
    (hid : (w.ecs p).is_identifier = true) (hm : MemberInFile w fs p t) :
    t.fileid ∈ files_to_process w ∧ 1 ≤ substituted_in w fs t.fileid := by
  obtain ⟨hmem, hmap, content, pos, hfile, hoffs, hlt⟩ := hm
  constructor
  · exact (mem_files_to_process w _).mpr
      ⟨(p, idp), IdProp.find_mem _ _ _ hfind, hrep, t, hmem, rfl⟩
  · have ht := replace_target_of w t p idp hmap hid hfind hrep
    have ht' : replace_target w ⟨t.fileid, (pos : Int)⟩ = some (w.ecs p, idp) := by
      rw [← hoffs]; exact ht
    simp only [substituted_in, hfile, spec_rewrite]
    exact spec_rewrite_from_count_pos w t.fileid content content.length 0 (le_refl _)
      ⟨pos, by omega, by omega, by simp [ht']⟩


theorem write_quit_page_report (w : World) (hpos : PositiveLengths w) (oc : Fileid → Outcomes)
    (fs : FS) (me : Bool) (hready : ProcessReady w oc fs) :
    quit_report (write_quit_page (some "127.0.0.1") w oc fs me) =
      some (((files_to_process w).map (substituted_in w fs)).sum,
        (files_to_process w).length) := by
  obtain ⟨fs1, h1⟩ := replace_files_total w hpos oc fs (files_to_process w) fs 0
    (files_to_process_nodup w) (fun _ _ => rfl) hready.1 hready.2
  have hl : local_access (some "127.0.0.1") = true := by decide
  unfold write_quit_page
  simp only [hl, Bool.true_eq_false, if_false, h1, quit_report, Nat.zero_add]

/-- C5: with classes of positive length, `file_replace` returns exactly the number of
token occurrences substituted in the file; the total a local `write_quit_page` request
reports is the sum of these numbers over the processed files (each of which exists, can
be rewritten next to itself, and is not the `.repl` sibling of another); and for a
replaced class with a member in each of two different files the total is at least 2. -/
theorem replacement_counts (w : World) (hpos : PositiveLengths w) :
    (∀ (fid : Fileid) (content : List Char),
      (file_replace_scan w fid content).map Prod.snd =
        some (spec_rewrite w fid content).2) ∧
    (∀ (oc : Fileid → Outcomes) (fs : FS) (me : Bool), ProcessReady w oc fs →
      quit_report (write_quit_page (some "127.0.0.1") w oc fs me) =
        some (((files_to_process w).map (substituted_in w fs)).sum,
          (files_to_process w).length)) ∧
    (∀ (fs : FS) (p : EcPtr) (idp : Identifier) (t1 t2 : Tokid),
      IdProp.find w.ids p = some idp → idp.replaced = true →
      (w.ecs p).is_identifier = true →
      MemberInFile w fs p t1 → MemberInFile w fs p t2 → t1.fileid ≠ t2.fileid →
      2 ≤ ((files_to_process w).map (substituted_in w fs)).sum) := by
  refine ⟨?_, ?_, ?_⟩
  · intro fid content
    rw [file_replace_scan_count w fid content hpos]
    rfl
  · intro oc fs me hready
    exact write_quit_page_report w hpos oc fs me hready
  · intro fs p idp t1 t2 hfind hrep hid hm1 hm2 hne
    obtain ⟨ha, h1⟩ := substituted_in_pos w fs p idp t1 hfind hrep hid hm1
    obtain ⟨hb, h2⟩ := substituted_in_pos w fs p idp t2 hfind hrep hid hm2
    exact two_le_sum_map _ _ _ _ ha hb hne h1 h2

theorem example_process_ready :
    ProcessReady (example_world "foo2" false) (fun _ => all_ok) example_fs := by
  unfold ProcessReady
  decide

theorem replacement_counts_witness :
    PositiveLengths (example_world "foo2" false) ∧
      ProcessReady (example_world "foo2" false) (fun _ => all_ok) example_fs ∧
      (file_replace_scan (example_world "foo2" false) 0 "int foo = foo;".toList).map Prod.snd =
        some 2 ∧
      quit_report
          (write_quit_page (some "127.0.0.1") (example_world "foo2" false) (fun _ => all_ok)
            example_fs false) =
        some (3, 2) :=
  ⟨example_world_positive _ _, example_process_ready,
    (replacement_counts (example_world "foo2" false) (example_world_positive _ _)).1 0
      "int foo = foo;".toList,
    (replacement_counts (example_world "foo2" false) (example_world_positive _ _)).2.1
      (fun _ => all_ok) example_fs false example_process_ready⟩

/-! ## The cross-file flag -/

theorem Eclass.sorted_files_length (e : Eclass) :
    e.sorted_files.length = (e.members.map Tokid.fileid).toFinset.card := by
  rw [← List.toFinset_card_of_nodup e.sorted_files_sorted.nodup]
  congr 1
  ext f
  simp [Eclass.mem_sorted_files]

/-- C6: after the identifier post-processing loop of `main`, `ids` has the same classes
as before, and for every class in `ids` the cross-file flag of its identifier is true
if and only if the set of files containing a member Tokid of the class has more than
one element. -/
theorem main_sets_cross_file_flag (w : World) :
    (main_set_xfile w).ids.map Prod.fst = w.ids.map Prod.fst ∧
      (main_set_xfile w).ecs = w.ecs ∧
      ∀ i ∈ (main_set_xfile w).ids,
        (i.2.xfile = true ↔
          1 < ((w.ecs i.1).members.map Tokid.fileid).toFinset.card) := by
  refine ⟨?_, rfl, ?_⟩
  · simp [main_set_xfile, List.map_map, Function.comp_def]
  · intro i hi
    simp only [main_set_xfile, List.mem_map] at hi
    obtain ⟨j, _, rfl⟩ := hi
    simp [Eclass.sorted_files_length]


/-! ## Cyclomatic complexity -/

/-- C7: for every function metrics record, `get_metric(em_ccycl1)` equals
NIF + NSWITCH + NFOR + NWHILE + NDO + 1, each term being the stored count. -/
theorem get_metric_ccycl1 {R : Type} [Field R] [DecidableEq R] (log : R → R)
    (m : FunMetrics) :
    m.get_metric log .em_ccycl1 =
      (m.count .em_nif : R) + (m.count .em_nswitch : R) + (m.count .em_nfor : R) +
        (m.count .em_nwhile : R) + (m.count .em_ndo : R) + 1 := by
  simp [FunMetrics.get_metric]

/-- C8: for every function metrics record, `get_metric(em_ccycl2)` equals
`get_metric(em_ccycl1)` plus the stored branching-operator count NCC2OP. -/
theorem get_metric_ccycl2 {R : Type} [Field R] [DecidableEq R] (log : R → R)
    (m : FunMetrics) :
    m.get_metric log .em_ccycl2 =
      m.get_metric log .em_ccycl1 + (m.count .em_ncc2op : R) := by
  simp [FunMetrics.get_metric]

/-- C9: for every function metrics record, `get_metric(em_ccycl3)` equals
`get_metric(em_ccycl2)` minus the stored NSWITCH plus the stored NCASE. -/
theorem get_metric_ccycl3 {R : Type} [Field R] [DecidableEq R] (log : R → R)
    (m : FunMetrics) :
    m.get_metric log .em_ccycl3 =
      m.get_metric log .em_ccycl2 - (m.count .em_nswitch : R) + (m.count .em_ncase : R) := by
  simp [FunMetrics.get_metric]

/-- C10 (as amended): for a function whose counts are NIF = 2, NFOR = 1, NSWITCH = 1,
NCASE = 3 and NWHILE = NDO = NCC2OP = 0, `get_metric` gives CCYCL1 = 5, CCYCL2 = 5 and
CCYCL3 = 7. -/
theorem cyclomatic_scenario {R : Type} [Field R] [DecidableEq R] (log : R → R)
    (m : FunMetrics) (hif : m.count .em_nif = 2) (hfor : m.count .em_nfor = 1)
    (hswitch : m.count .em_nswitch = 1) (hcase : m.count .em_ncase = 3)
    (hwhile : m.count .em_nwhile = 0) (hdo : m.count .em_ndo = 0)
    (hop : m.count .em_ncc2op = 0) :
    m.get_metric log .em_ccycl1 = 5 ∧ m.get_metric log .em_ccycl2 = 5 ∧
      m.get_metric log .em_ccycl3 = 7 := by
  refine ⟨?_, ?_, ?_⟩ <;>
    simp [FunMetrics.get_metric, hif, hfor, hswitch, hcase, hwhile, hdo, hop] <;>
    norm_num

theorem cyclomatic_scenario_witness :
    example_metrics.get_metric rat_log .em_ccycl1 = 5 ∧
      example_metrics.get_metric rat_log .em_ccycl2 = 5 ∧
      example_metrics.get_metric rat_log .em_ccycl3 = 7 :=
  cyclomatic_scenario rat_log example_metrics rfl rfl rfl rfl rfl rfl rfl

/-- C10 (counterexample): on the counts of the scenario `get_metric(em_ccycl1)` is 5,
not 4: the three values are not 4, 4 and 6. -/
theorem cyclomatic_scenario_not_4_4_6 :
    ¬ (example_metrics.get_metric rat_log .em_ccycl1 = 4 ∧
        example_metrics.get_metric rat_log .em_ccycl2 = 4 ∧
        example_metrics.get_metric rat_log .em_ccycl3 = 6) := by
  intro h
  have h1 : example_metrics.get_metric rat_log .em_ccycl1 = 5 := by
    simp [FunMetrics.get_metric, example_metrics]
    norm_num
  rw [h1] at h
  norm_num at h


/-! ## Query::apply -/

/-- C13: for all integers `a` and `b`, `Query::apply(ec_eq, a, b)` is true iff `a = b`,
`Query::apply(ec_ne, a, b)` iff `a ≠ b`, `Query::apply(ec_lt, a, b)` iff `a < b`, and
`Query::apply(ec_gt, a, b)` iff `a > b`. -/
theorem query_apply_comparisons (a b : Int) :
    (Query.apply Query.ec_eq a b = true ↔ a = b) ∧
      (Query.apply Query.ec_ne a b = true ↔ a ≠ b) ∧
      (Query.apply Query.ec_lt a b = true ↔ a < b) ∧
      (Query.apply Query.ec_gt a b = true ↔ a > b) := by
  simp [Query.apply, Query.ec_eq, Query.ec_ne, Query.ec_lt, Query.ec_gt]

/-! ## The project registry -/

theorem Project.find_append (l : List (String × Int)) (name k : String) (v : Int) :
    Project.find (l ++ [(k, v)]) name =
      match Project.find l name with
      | some p => some p
      | none => if k = name then some v else none := by
  induction l with
  | nil => simp [Project.find]
  | cons x rest ih =>
    obtain ⟨k1, v1⟩ := x
    simp only [List.cons_append, Project.find]
    by_cases h : k1 = name
    · simp [h]
    · simp [h, ih]

/-- The bounds kept by every `set_current_project` call: the current id lies between
`attr_max - 1` and the end of `projnames`, `projnames` is not longer than the attribute
count, and every recorded id lies between `attr_max` and the end of `projnames`. -/
theorem registry_bounds (attr_max : Nat) (names : List String) :
    (attr_max : Int) - 1 ≤ (Registry.after attr_max names).projid ∧
      (Registry.after attr_max names).projid <
        ((Registry.after attr_max names).projnames.length : Int) ∧
      ((Registry.after attr_max names).projnames.length : Int) ≤
        (Registry.after attr_max names).size ∧
      ∀ n p, Project.find (Registry.after attr_max names).projids n = some p →
        (attr_max : Int) ≤ p ∧
          p < ((Registry.after attr_max names).projnames.length : Int) := by
  unfold Registry.after
  induction names using List.reverseRecOn with
  | nil =>
    simp [Registry.init, Project.find]
  | append_singleton names name ih =>
    rw [List.foldl_append]
    simp only [List.foldl_cons, List.foldl_nil]
    generalize List.foldl set_current_project (Registry.init attr_max) names = r at ih ⊢
    obtain ⟨h1, h2, h3, h4⟩ := ih
    unfold set_current_project
    cases hf : Project.find r.projids name with
    | some p =>
      simp only
      obtain ⟨hp1, hp2⟩ := h4 name p hf
      exact ⟨by omega, hp2, h3, h4⟩
    | none =>
      simp only [List.length_append, List.length_singleton, Nat.cast_add, Nat.cast_one,
        Attributes.add_attribute]
      refine ⟨by omega, by omega, ?_, ?_⟩
      · split <;> omega
      · intro n p hn
        rw [Project.find_append] at hn
        cases hfn : Project.find r.projids n with
        | some q =>
          simp only [hfn, Option.some.injEq] at hn
          subst hn
          obtain ⟨hq1, hq2⟩ := h4 n q hfn
          exact ⟨hq1, by omega⟩
        | none =>
          simp only [hfn] at hn
          by_cases hk : name = n
          · simp only [hk, if_true, Option.some.injEq] at hn
            omega
          · simp [hk] at hn

/-- C14: starting from the initial registry, the first project name passed to
`Project::set_current_project` receives the id `attr_max`, and every id ever assigned
to a project name is at least `attr_max`. -/
theorem project_ids_start_at_attr_max (attr_max : Nat) :
    (∀ name : String,
      Project.find (Registry.after attr_max [name]).projids name = some (attr_max : Int)) ∧
    (∀ (names : List String) (n : String) (p : Int),
      Project.find (Registry.after attr_max names).projids n = some p →
        (attr_max : Int) ≤ p) := by
  constructor
  · intro name
    simp [Registry.after, set_current_project, Registry.init, Project.find]
  · intro names n p h
    exact ((registry_bounds attr_max names).2.2.2 n p h).1

/-- C15: for every registry state and every name already registered,
`Project::set_current_project(name)` sets the current project id to the id recorded for
that name and allocates nothing: the name-to-id map, the id-to-name vector and the
attribute count are unchanged. -/
theorem set_current_project_registered (r : Registry) (name : String) (p : Int)
    (h : Project.find r.projids name = some p) :
    (set_current_project r name).projid = p ∧
      (set_current_project r name).projids = r.projids ∧
      (set_current_project r name).projnames = r.projnames ∧
      (set_current_project r name).size = r.size := by
  simp [set_current_project, h]

theorem set_current_project_registered_witness :
    Project.find (Registry.after 12 ["a", "b"]).projids "a" = some 12 ∧
      (set_current_project (Registry.after 12 ["a", "b"]) "a").projid = 12 ∧
      (set_current_project (Registry.after 12 ["a", "b"]) "a").projids =
        (Registry.after 12 ["a", "b"]).projids ∧
      (set_current_project (Registry.after 12 ["a", "b"]) "a").projnames =
        (Registry.after 12 ["a", "b"]).projnames ∧
      (set_current_project (Registry.after 12 ["a", "b"]) "a").size =
        (Registry.after 12 ["a", "b"]).size :=
  ⟨by decide, set_current_project_registered _ "a" 12 (by decide)⟩

/-- C16 (code at the failing input): after the calls `a`, `b`, `a`, `c` from the initial
registry the name `c` is recorded with the id `attr_max + 1`, which is the id of `b`,
and `projnames` holds `b`, not `c`, at that index. -/
theorem project_id_reused_after_reselect (attr_max : Nat) :
    Project.find (Registry.after attr_max ["a", "b", "a", "c"]).projids "c" =
        some ((attr_max : Int) + 1) ∧
      Project.find (Registry.after attr_max ["a", "b", "a", "c"]).projids "b" =
        some ((attr_max : Int) + 1) ∧
      (Registry.after attr_max ["a", "b", "a", "c"]).projname ((attr_max : Int) + 1) =
        some "b" := by
  refine ⟨?_, ?_, ?_⟩
  · simp [Registry.after, set_current_project, Registry.init, Project.find]
  · simp [Registry.after, set_current_project, Registry.init, Project.find]
  · have h : ((attr_max : Int) + 1).toNat = attr_max + 1 := by omega
    have h0 : ¬ ((attr_max : Int) + 1 < 0) := by omega
    simp only [Registry.projname, h0, if_false, h]
    simp [Registry.after, set_current_project, Registry.init, Project.find,
      List.getElem?_append_right]
    rw [List.getElem_append_right (by simp)]
    simp

/-- C17: after every sequence of `Project::set_current_project` calls the global
attribute count is strictly greater than the current project id and than every id
assigned to a project. -/
theorem attribute_count_exceeds_project_ids (attr_max : Nat) (names : List String) :
    (Registry.after attr_max names).projid < (Registry.after attr_max names).size ∧
      ∀ (n : String) (p : Int),
        Project.find (Registry.after attr_max names).projids n = some p →
          p < (Registry.after attr_max names).size := by
  obtain ⟨_, h2, h3, h4⟩ := registry_bounds attr_max names
  refine ⟨by omega, ?_⟩
  intro n p h
  have := (h4 n p h).2
  omega

/-! ## The -p option -/

/-- C18: for every `-p` argument, `main` accepts the port and continues if its integer
value lies in [1024, 32767], and for every value below 1024 or above 32767 it prints the
usage message and exits with code 1; it continues in no other case. -/
theorem main_option_p_range (atoi : String → Int) (argv0 a : String) :
    (1024 ≤ atoi a ∧ atoi a ≤ 32767 → main_option_p atoi argv0 (some a) = .ok (atoi a)) ∧
      (atoi a < 1024 ∨ 32767 < atoi a →
        main_option_p atoi argv0 (some a) = .error ⟨usage_text argv0, 1⟩) ∧
      (∀ portno, main_option_p atoi argv0 (some a) = .ok portno →
        portno = atoi a ∧ 1024 ≤ portno ∧ portno ≤ 32767) := by
  refine ⟨?_, ?_, ?_⟩
  · intro h
    have : ¬ (atoi a < 1024 ∨ atoi a > 32767) := by omega
    simp [main_option_p, this]
  · intro h
    have : atoi a < 1024 ∨ atoi a > 32767 := by omega
    simp [main_option_p, this, usage]
  · intro portno h
    unfold main_option_p at h
    by_cases hr : atoi a < 1024 ∨ atoi a > 32767
    · simp [hr] at h
    · simp only [hr, if_false, Except.ok.injEq] at h
      omega


/-! ## Requests from remote hosts -/

theorem local_access_remote (peer : Option String) (h : peer ≠ some "127.0.0.1") :
    local_access peer = false := by
  cases peer with
  | none => rfl
  | some p =>
    have hp : p ≠ "127.0.0.1" := fun hp => h (by rw [hp])
    simp [local_access, hp]

theorem IdProp.find_insert (e p : EcPtr) (v : Identifier) (ids : List (EcPtr × Identifier))
    (hp : p ≠ e) : IdProp.find (IdProp.insert e v ids) p = IdProp.find ids p := by
  induction ids with
  | nil => simp [IdProp.insert, IdProp.find, Ne.symm hp]
  | cons x rest ih =>
    obtain ⟨k, y⟩ := x
    unfold IdProp.insert
    by_cases hk : e < k
    · simp [hk, IdProp.find, Ne.symm hp]
    · simp only [hk, if_false]
      unfold IdProp.find
      by_cases hkp : k = p
      · simp [hkp]
      · simp [hkp, ih]

theorem IdProp.find_insert_self (e : EcPtr) (v : Identifier)
    (ids : List (EcPtr × Identifier)) (h : IdProp.find ids e = none) :
    IdProp.find (IdProp.insert e v ids) e = some v := by
  induction ids with
  | nil => simp [IdProp.insert, IdProp.find]
  | cons x rest ih =>
    obtain ⟨k, y⟩ := x
    unfold IdProp.find at h
    by_cases hk : k = e
    · simp [hk] at h
    · simp only [hk, if_false] at h
      unfold IdProp.insert
      by_cases hlt : e < k
      · simp [hlt, IdProp.find]
      · simp [hlt, IdProp.find, hk, ih h]

/-- C19 (counterexample): a request from 10.0.0.7 for `id.html` with `sname=bar` and the
address of a class that has no entry in `ids` changes `ids`: the reference `ids[e]`,
taken before `local_access` is asked, adds a default-constructed entry for the class. -/
theorem remote_identifier_request_adds_entry :
    (some "10.0.0.7" : Option String) ≠ some "127.0.0.1" ∧
      IdProp.find (example_world "" false).ids 9 = none ∧
      identifier_page example_default_identifier (some "10.0.0.7") (some 9)
          (some "bar".toList) (example_world "" false).ids ≠
        (example_world "" false).ids ∧
      IdProp.find
          (identifier_page example_default_identifier (some "10.0.0.7") (some 9)
            (some "bar".toList) (example_world "" false).ids) 9 =
        some example_default_identifier := by
  decide

/-- C19 (as amended): for every request whose peer address is not 127.0.0.1
(non-commercial build), `identifier_page` with `sname` sets no replacement string: it
leaves `ids` as the same request without `sname` does, every identifier keeps its entry
unchanged, and the one entry that can be new is the default-constructed one that
`ids[e]` makes for the class of the request when it had none; `set_project_page` leaves
`current_project` unchanged, and `write_quit_page` and `quit_page` rewrite no file and
leave `must_exit` unchanged. -/
theorem remote_requests_set_no_replacement (peer : Option String)
    (h : peer ≠ some "127.0.0.1") :
    (∀ (dflt : Identifier) (id : Option EcPtr) (sname : List Char)
        (ids : List (EcPtr × Identifier)),
      identifier_page dflt peer id (some sname) ids = identifier_page dflt peer id none ids ∧
      ∀ p : EcPtr,
        (∀ i, IdProp.find ids p = some i →
          IdProp.find (identifier_page dflt peer id (some sname) ids) p = some i) ∧
        (IdProp.find ids p = none →
          IdProp.find (identifier_page dflt peer id (some sname) ids) p =
            if id = some p then some dflt else none)) ∧
    (∀ (projid : Option Int) (current_project : Int),
      set_project_page peer projid current_project = current_project) ∧
    (∀ (w : World) (oc : Fileid → Outcomes) (fs : FS) (must_exit : Bool),
      write_quit_page peer w oc fs must_exit = some (.ok ⟨fs, must_exit, none⟩)) ∧
    (∀ (fs : FS) (must_exit : Bool), quit_page peer fs must_exit = (fs, must_exit)) := by
  have hl := local_access_remote peer h
  refine ⟨?_, ?_, ?_, ?_⟩
  · intro dflt id sname ids
    cases id with
    | none =>
      refine ⟨rfl, fun p => ⟨fun i hi => by simpa [identifier_page] using hi, fun hn => ?_⟩⟩
      simpa [identifier_page] using hn
    | some e =>
      refine ⟨by simp only [identifier_page, hl, if_true], fun p => ?_⟩
      simp only [identifier_page, hl, if_true]
      unfold IdProp.index
      cases he : IdProp.find ids e with
      | some j =>
        refine ⟨fun i hi => hi, fun hn => ?_⟩
        have hpe : e ≠ p := fun hpe => by rw [hpe, hn] at he; cases he
        simp only [hn, Option.some.injEq, hpe, if_false]
      | none =>
        simp only
        by_cases hpe : p = e
        · subst hpe
          simp [he, IdProp.find_insert_self p dflt ids he]
        · rw [IdProp.find_insert e p dflt ids hpe]
          refine ⟨fun i hi => hi, fun hn => ?_⟩
          have hep : ¬ e = p := fun h => hpe h.symm
          simp only [hn, Option.some.injEq, hep, if_false]
  · intro projid current_project
    simp [set_project_page, hl]
  · intro w oc fs must_exit
    simp [write_quit_page, hl]
  · intro fs must_exit
    simp [quit_page, hl]

theorem remote_requests_set_no_replacement_witness :
    (some "10.0.0.7" : Option String) ≠ some "127.0.0.1" ∧
      identifier_page example_default_identifier (some "10.0.0.7") (some 9)
          (some "bar".toList) (example_world "" false).ids =
        identifier_page example_default_identifier (some "10.0.0.7") (some 9) none
          (example_world "" false).ids ∧
      IdProp.find
          (identifier_page example_default_identifier (some "10.0.0.7") (some 7)
            (some "bar".toList) (example_world "" false).ids) 7 =
        IdProp.find (example_world "" false).ids 7 ∧
      set_project_page (some "10.0.0.7") (some 13) 0 = 0 ∧
      quit_file_after
          (write_quit_page (some "10.0.0.7") (example_world "foo2" false) (fun _ => all_ok)
            example_fs false) "x.c" =
        some (example_fs "x.c") ∧
      (quit_page (some "10.0.0.7") example_fs false).2 = false :=
  ⟨by decide,
    ((remote_requests_set_no_replacement (some "10.0.0.7") (by decide)).1
      example_default_identifier (some 9) "bar".toList (example_world "" false).ids).1,
    by decide,
    (remote_requests_set_no_replacement (some "10.0.0.7") (by decide)).2.1 (some 13) 0,
    by decide, by decide⟩


/-! ## Structure complexity, information flow and Halstead volume in double arithmetic -/

theorem round_half_even_intCast (k : ℤ) : round_half_even (k : ℚ) = k := by
  simp [round_half_even]

theorem round_half_even_near (x : ℚ) : |(round_half_even x : ℚ) - x| ≤ 1 / 2 := by
  have h1 : (⌊x⌋ : ℚ) ≤ x := Int.floor_le x
  have h2 : x < (⌊x⌋ : ℚ) + 1 := Int.lt_floor_add_one x
  unfold round_half_even
  by_cases ha : x - ⌊x⌋ < 1 / 2
  · rw [if_pos ha, abs_le]
    constructor <;> linarith
  · rw [if_neg ha]
    by_cases hb : 1 / 2 < x - ⌊x⌋
    · rw [if_pos hb, abs_le]
      push_cast
      constructor <;> linarith
    · rw [if_neg hb]
      have heq : x - ⌊x⌋ = 1 / 2 := le_antisymm (not_lt.mp hb) (not_lt.mp ha)
      by_cases hc : ⌊x⌋ % 2 = 0
      · rw [if_pos hc, abs_le]
        constructor <;> linarith
      · rw [if_neg hc, abs_le]
        push_cast
        constructor <;> linarith

theorem Double.ulp_exp_eq (q : ℚ) (L : ℤ) (h1 : (2 : ℚ) ^ L ≤ |q|) (h2 : |q| < (2 : ℚ) ^ (L + 1))
    (hL : -1022 ≤ L) : Double.ulp_exp q = L - 52 := by
  have hpos : 0 < |q| := lt_of_lt_of_le (by positivity) h1
  have hlog : Int.log 2 |q| = L := by
    apply le_antisymm
    · have := (Int.lt_zpow_iff_log_lt (by norm_num : 1 < 2) hpos).mp
        (by simpa using h2 : |q| < ((2 : ℕ) : ℚ) ^ (L + 1))
      omega
    · exact (Int.zpow_le_iff_le_log (by norm_num : 1 < 2) hpos).mp (by simpa using h1)
  unfold Double.ulp_exp
  rw [hlog]
  omega

theorem Double.round_zero : Double.round 0 = .finite 0 := by
  have h : round_half_even (0 : ℚ) = 0 := by
    have := round_half_even_intCast 0
    simpa using this
  simp [Double.round, h]

theorem Double.round_normal (q : ℚ) (L : ℤ) (h1 : (2 : ℚ) ^ L ≤ |q|)
    (h2 : |q| < (2 : ℚ) ^ (L + 1)) (hL : -1022 ≤ L) (hL2 : L ≤ 1022) :
    ∃ r : ℚ, Double.round q = .finite r ∧
      r = round_half_even (q / 2 ^ (L - 52)) * 2 ^ (L - 52) ∧
      |r - q| ≤ (2 : ℚ) ^ (L - 53) := by
  have he := Double.ulp_exp_eq q L h1 h2 hL
  have hu : (0 : ℚ) < 2 ^ (L - 52) := by positivity
  have hnear := round_half_even_near (q / 2 ^ (L - 52))
  have herr : |(round_half_even (q / 2 ^ (L - 52)) : ℚ) * 2 ^ (L - 52) - q| ≤
      (2 : ℚ) ^ (L - 53) := by
    have this : ∀ (u k : ℚ), u ≠ 0 → k * u - q = (k - q / u) * u := by
      intro u k hu0
      field_simp
    rw [this _ _ (ne_of_gt hu)]
    rw [abs_mul, abs_of_pos hu]
    have h53 : (2 : ℚ) ^ (L - 53) = 1 / 2 * 2 ^ (L - 52) := by
      have : L - 52 = (L - 53) + 1 := by ring
      rw [this, zpow_add_one₀ (by norm_num)]
      ring
    rw [h53]
    exact mul_le_mul_of_nonneg_right hnear hu.le
  refine ⟨round_half_even (q / 2 ^ (L - 52)) * 2 ^ (L - 52), ?_, rfl, herr⟩
  unfold Double.round
  simp only [he]
  have hsmall : ¬ (2 : ℚ) ^ 1024 ≤ |(round_half_even (q / 2 ^ (L - 52)) : ℚ) * 2 ^ (L - 52)| := by
    rw [not_le]
    have hab : |(round_half_even (q / 2 ^ (L - 52)) : ℚ) * 2 ^ (L - 52)| ≤
        |q| + (2 : ℚ) ^ (L - 53) := by
      have := abs_sub_abs_le_abs_sub
        ((round_half_even (q / 2 ^ (L - 52)) : ℚ) * 2 ^ (L - 52)) q
      linarith
    have hp1 : (2 : ℚ) ^ (L - 53) ≤ 2 ^ (L + 1) :=
      zpow_le_zpow_right₀ (by norm_num) (by omega)
    have hp2 : (2 : ℚ) ^ (L + 1) + 2 ^ (L + 1) ≤ 2 ^ (1024 : ℕ) := by
      have h3 : (2 : ℚ) ^ (L + 1) ≤ 2 ^ (1023 : ℤ) :=
        zpow_le_zpow_right₀ (by norm_num) (by omega)
      have h4 : (2 : ℚ) ^ (1023 : ℤ) + 2 ^ (1023 : ℤ) = 2 ^ (1024 : ℕ) := by
        norm_num
      linarith
    linarith
  rw [if_neg hsmall]

theorem Double.round_int (n : ℤ) (h : |n| < 2 ^ 53) : Double.round (n : ℚ) = .finite n := by
  by_cases hn : n = 0
  · subst hn
    simpa using Double.round_zero
  · have hpos : (0 : ℚ) < |(n : ℚ)| := abs_pos.mpr (Int.cast_ne_zero.mpr hn)
    have hone : (1 : ℚ) ≤ |(n : ℚ)| := by
      have : (1 : ℤ) ≤ |n| := Int.one_le_abs hn
      exact_mod_cast this
    have hlt : |(n : ℚ)| < (2 : ℚ) ^ (53 : ℤ) := by
      have h53 : (2 : ℚ) ^ (53 : ℤ) = ((2 ^ 53 : ℤ) : ℚ) := by norm_num
      have : ((|n| : ℤ) : ℚ) < ((2 ^ 53 : ℤ) : ℚ) := Int.cast_lt.mpr h
      rw [Int.cast_abs] at this
      rw [h53]
      exact this
    have h1 : (2 : ℚ) ^ Int.log 2 |(n : ℚ)| ≤ |(n : ℚ)| := by
      simpa using Int.zpow_log_le_self (by norm_num : 1 < 2) hpos
    have h2 : |(n : ℚ)| < (2 : ℚ) ^ (Int.log 2 |(n : ℚ)| + 1) := by
      simpa using Int.lt_zpow_succ_log_self (by norm_num : 1 < 2) |(n : ℚ)|
    have hL0 : 0 ≤ Int.log 2 |(n : ℚ)| :=
      (Int.zpow_le_iff_le_log (by norm_num : 1 < 2) hpos).mp (by simpa using hone)
    have hL1 : Int.log 2 |(n : ℚ)| < 53 :=
      (Int.lt_zpow_iff_log_lt (by norm_num : 1 < 2) hpos).mp (by simpa using hlt)
    obtain ⟨r, hr, hval, _⟩ := Double.round_normal (n : ℚ) _ h1 h2 (by omega) (by omega)
    obtain ⟨d, hd⟩ : ∃ d : ℕ, Int.log 2 |(n : ℚ)| - 52 = -(d : ℤ) :=
      ⟨(52 - Int.log 2 |(n : ℚ)|).toNat, by omega⟩
    rw [hd] at hval
    have hdiv : (n : ℚ) / 2 ^ (-(d : ℤ)) = ((n * 2 ^ d : ℤ) : ℚ) := by
      rw [zpow_neg, zpow_natCast]
      push_cast
      field_simp
    rw [hdiv, round_half_even_intCast] at hval
    have hfin : r = (n : ℚ) := by
      rw [hval, zpow_neg, zpow_natCast]
      push_cast
      field_simp
    rw [hr, hfin]

theorem Double.round_rel (q : ℚ) (hlo : (2 : ℚ) ^ (-1022 : ℤ) ≤ |q|)
    (hhi : |q| < (2 : ℚ) ^ (1023 : ℤ)) :
    ∃ r t : ℚ, Double.round q = .finite r ∧ r = q * t ∧ |t - 1| ≤ (2 : ℚ) ^ (-53 : ℤ) := by
  have hpos : (0 : ℚ) < |q| := lt_of_lt_of_le (by positivity) hlo
  have hq0 : q ≠ 0 := abs_pos.mp hpos
  have h1 : (2 : ℚ) ^ Int.log 2 |q| ≤ |q| := by
    simpa using Int.zpow_log_le_self (by norm_num : 1 < 2) hpos
  have h2 : |q| < (2 : ℚ) ^ (Int.log 2 |q| + 1) := by
    simpa using Int.lt_zpow_succ_log_self (by norm_num : 1 < 2) |q|
  have hL0 : -1022 ≤ Int.log 2 |q| :=
    (Int.zpow_le_iff_le_log (by norm_num : 1 < 2) hpos).mp (by simpa using hlo)
  have hL1 : Int.log 2 |q| < 1023 :=
    (Int.lt_zpow_iff_log_lt (by norm_num : 1 < 2) hpos).mp (by simpa using hhi)
  obtain ⟨r, hr, _, herr⟩ := Double.round_normal q _ h1 h2 hL0 (by omega)
  refine ⟨r, r / q, hr, by field_simp, ?_⟩
  have hdiv : r / q - 1 = (r - q) / q := by field_simp
  rw [hdiv, abs_div, div_le_iff₀ hpos]
  have h53 : (2 : ℚ) ^ (Int.log 2 |q| - 53) = 2 ^ (-53 : ℤ) * 2 ^ Int.log 2 |q| := by
    rw [← zpow_add₀ (by norm_num : (2 : ℚ) ≠ 0)]
    congr 1
    ring
  calc |r - q| ≤ (2 : ℚ) ^ (Int.log 2 |q| - 53) := herr
    _ = 2 ^ (-53 : ℤ) * 2 ^ Int.log 2 |q| := h53
    _ ≤ 2 ^ (-53 : ℤ) * |q| := mul_le_mul_of_nonneg_left h1 (by positivity)

theorem Double.of_int_exact (n : ℤ) (h : |n| < 2 ^ 53) : Double.of_int n = .finite n :=
  Double.round_int n h

theorem Double.add_int (a b : ℤ) (h : |a + b| < 2 ^ 53) :
    Double.add (.finite a) (.finite b) = .finite ((a + b : ℤ) : ℚ) := by
  simp only [Double.add]
  rw [← Int.cast_add]
  exact Double.round_int _ h

theorem Double.mul_int (a b : ℤ) (h : |a * b| < 2 ^ 53) :
    Double.mul (.finite a) (.finite b) = .finite ((a * b : ℤ) : ℚ) := by
  simp only [Double.mul]
  rw [← Int.cast_mul]
  exact Double.round_int _ h

theorem Double.sum4_int (a b c d : ℤ) (ha : -2 ^ 31 ≤ a ∧ a < 2 ^ 31)
    (hb : -2 ^ 31 ≤ b ∧ b < 2 ^ 31) (hc : -2 ^ 31 ≤ c ∧ c < 2 ^ 31)
    (hd : -2 ^ 31 ≤ d ∧ d < 2 ^ 31) :
    Double.add (Double.add (Double.add (Double.of_int a) (Double.of_int b))
      (Double.of_int c)) (Double.of_int d) = .finite ((a + b + c + d : ℤ) : ℚ) := by
  rw [Double.of_int_exact _ (by rw [abs_lt]; constructor <;> omega),
    Double.of_int_exact _ (by rw [abs_lt]; constructor <;> omega),
    Double.of_int_exact _ (by rw [abs_lt]; constructor <;> omega),
    Double.of_int_exact _ (by rw [abs_lt]; constructor <;> omega),
    Double.add_int _ _ (by rw [abs_lt]; constructor <;> omega),
    Double.add_int _ _ (by rw [abs_lt]; constructor <;> omega),
    Double.add_int _ _ (by rw [abs_lt]; constructor <;> omega)]

theorem FunMetrics.get_metric_double_ccycl1 (log : Double → Double) (m : FunMetrics)
    (hint : m.int_range) :
    m.get_metric_double log .em_ccycl1 =
      some (.finite ((m.count .em_nif + m.count .em_nswitch + m.count .em_nfor +
        m.count .em_nwhile + m.count .em_ndo + 1 : ℤ) : ℚ)) := by
  have h1 := hint.1 .em_nif
  have h2 := hint.1 .em_nswitch
  have h3 := hint.1 .em_nfor
  have h4 := hint.1 .em_nwhile
  have h5 := hint.1 .em_ndo
  have hunfold : m.get_metric_double log .em_ccycl1 =
      some (Double.add (Double.add (Double.add (Double.add (Double.add
        (Double.of_int (m.count .em_nif)) (Double.of_int (m.count .em_nswitch)))
        (Double.of_int (m.count .em_nfor))) (Double.of_int (m.count .em_nwhile)))
        (Double.of_int (m.count .em_ndo))) (Double.of_int 1)) := rfl
  rw [hunfold, Double.sum4_int _ _ _ _ h1 h2 h3 h4,
    Double.of_int_exact _ (by rw [abs_lt]; constructor <;> omega),
    Double.of_int_exact 1 (by norm_num),
    Double.add_int _ _ (by rw [abs_lt]; constructor <;> omega),
    Double.add_int _ _ (by rw [abs_lt]; constructor <;> omega)]

theorem Double.sub_int (a b : ℤ) (h : |a - b| < 2 ^ 53) :
    Double.sub (.finite a) (.finite b) = .finite ((a - b : ℤ) : ℚ) := by
  simp only [Double.sub, Double.neg, Double.add]
  rw [← Int.cast_neg, ← Int.cast_add, ← sub_eq_add_neg]
  exact Double.round_int _ h

/-- On the cyclomatic metrics the arithmetic of `double` is exact for counts that are
values of `int`: `get_metric` in `double` returns the value of `get_metric` taken in the
rationals. -/
theorem FunMetrics.get_metric_double_cyclomatic (log : Double → Double) (m : FunMetrics)
    (hint : m.int_range) :
    m.get_metric_double log .em_ccycl1 = some (.finite (m.get_metric rat_log .em_ccycl1)) ∧
      m.get_metric_double log .em_ccycl2 =
        some (.finite (m.get_metric rat_log .em_ccycl2)) ∧
      m.get_metric_double log .em_ccycl3 =
        some (.finite (m.get_metric rat_log .em_ccycl3)) := by
  have h1 := hint.1 .em_nif
  have h2 := hint.1 .em_nswitch
  have h3 := hint.1 .em_nfor
  have h4 := hint.1 .em_nwhile
  have h5 := hint.1 .em_ndo
  have h6 := hint.1 .em_ncc2op
  have h7 := hint.1 .em_ncase
  have hc1 := FunMetrics.get_metric_double_ccycl1 log m hint
  have hu2 : m.get_metric_double log .em_ccycl2 =
      (m.get_metric_double log .em_ccycl1).bind fun c =>
        some (Double.add c (Double.of_int (m.count .em_ncc2op))) := rfl
  have hc2 : m.get_metric_double log .em_ccycl2 =
      some (.finite ((m.count .em_nif + m.count .em_nswitch + m.count .em_nfor +
        m.count .em_nwhile + m.count .em_ndo + 1 + m.count .em_ncc2op : ℤ) : ℚ)) := by
    rw [hu2, hc1]
    simp only [Option.some_bind]
    rw [Double.of_int_exact _ (by rw [abs_lt]; constructor <;> omega),
      Double.add_int _ _ (by rw [abs_lt]; constructor <;> omega)]
  have hu3 : m.get_metric_double log .em_ccycl3 =
      (m.get_metric_double log .em_ccycl2).bind fun c =>
        some (Double.add (Double.sub c (Double.of_int (m.count .em_nswitch)))
          (Double.of_int (m.count .em_ncase))) := rfl
  have hc3 : m.get_metric_double log .em_ccycl3 =
      some (.finite ((m.count .em_nif + m.count .em_nswitch + m.count .em_nfor +
        m.count .em_nwhile + m.count .em_ndo + 1 + m.count .em_ncc2op -
        m.count .em_nswitch + m.count .em_ncase : ℤ) : ℚ)) := by
    rw [hu3, hc2]
    simp only [Option.some_bind]
    rw [Double.of_int_exact _ (by rw [abs_lt]; constructor <;> omega),
      Double.of_int_exact _ (by rw [abs_lt]; constructor <;> omega),
      Double.sub_int _ _ (by rw [abs_lt]; constructor <;> omega),
      Double.add_int _ _ (by rw [abs_lt]; constructor <;> omega)]
  refine ⟨?_, ?_, ?_⟩
  · rw [hc1]
    simp [FunMetrics.get_metric]
  · rw [hc2]
    simp [FunMetrics.get_metric]
  · rw [hc3]
    simp [FunMetrics.get_metric]

theorem FunMetrics.get_metric_double_cstruc (log : Double → Double) (m : FunMetrics)
    (hint : m.int_range) (h : (m.call.num_caller * m.call.num_call) ^ 2 < 2 ^ 53) :
    m.get_metric_double log .em_cstruc =
      some (.finite (((m.call.num_caller * m.call.num_call) ^ 2 : ℕ) : ℚ)) := by
  have hunfold : m.get_metric_double log .em_cstruc =
      some (Double.mul
        (Double.mul (Double.of_int m.call.num_caller) (Double.of_int m.call.num_call))
        (Double.mul (Double.of_int m.call.num_caller) (Double.of_int m.call.num_call))) := rfl
  have hc := hint.2.1
  have hd := hint.2.2
  have hprod : m.call.num_caller * m.call.num_call < 2 ^ 53 := by
    by_contra hge
    have hge : 2 ^ 53 ≤ m.call.num_caller * m.call.num_call := not_lt.mp hge
    have : (2 ^ 53) ^ 2 ≤ (m.call.num_caller * m.call.num_call) ^ 2 :=
      Nat.pow_le_pow_left hge 2
    have h2 : (2 : ℕ) ^ 53 ≤ (2 ^ 53) ^ 2 := by norm_num
    omega
  have hprodz : |((m.call.num_caller : ℤ) * (m.call.num_call : ℤ))| < 2 ^ 53 := by
    rw [abs_lt]
    constructor
    · have : (0 : ℤ) ≤ (m.call.num_caller : ℤ) * (m.call.num_call : ℤ) := by positivity
      omega
    · exact_mod_cast hprod
  have hsqz : |((m.call.num_caller : ℤ) * (m.call.num_call : ℤ)) *
      ((m.call.num_caller : ℤ) * (m.call.num_call : ℤ))| < 2 ^ 53 := by
    rw [abs_lt]
    constructor
    · have : (0 : ℤ) ≤ ((m.call.num_caller : ℤ) * (m.call.num_call : ℤ)) *
          ((m.call.num_caller : ℤ) * (m.call.num_call : ℤ)) := by positivity
      omega
    · have : ((m.call.num_caller * m.call.num_call) ^ 2 : ℕ) < 2 ^ 53 := h
      rw [pow_two] at this
      exact_mod_cast this
  rw [hunfold,
    Double.of_int_exact _ (by rw [abs_lt]; constructor <;> omega),
    Double.of_int_exact _ (by rw [abs_lt]; constructor <;> omega),
    Double.mul_int _ _ hprodz, Double.mul_int _ _ hsqz]
  congr 2
  push_cast
  ring

theorem round_half_even_eq (x : ℚ) (k : ℤ) (h1 : (k : ℚ) - 1 / 2 < x)
    (h2 : x < (k : ℚ) + 1 / 2) : round_half_even x = k := by
  unfold round_half_even
  by_cases hx : (k : ℚ) ≤ x
  · have hf : ⌊x⌋ = k := Int.floor_eq_iff.mpr ⟨hx, by linarith⟩
    rw [hf, if_pos (by linarith)]
  · have hf : ⌊x⌋ = k - 1 := Int.floor_eq_iff.mpr ⟨by push_cast; linarith, by
      push_cast; linarith⟩
    rw [hf]
    have hx' : x < k := not_le.mp hx
    rw [if_neg (by push_cast; linarith), if_pos (by push_cast; linarith)]
    ring

theorem round_half_even_tie (k : ℤ) (hk : k % 2 = 0) :
    round_half_even ((k : ℚ) + 1 / 2) = k := by
  unfold round_half_even
  have hf : ⌊(k : ℚ) + 1 / 2⌋ = k :=
    Int.floor_eq_iff.mpr ⟨by linarith, by linarith⟩
  rw [hf, if_neg (by norm_num), if_neg (by norm_num), if_pos hk]

/-- C11 (counterexample): for a function with 94906267 callers and one callee, whose
sizes and counts are all values of `int`, `get_metric(em_cstruc)` is 9007199515875288,
the `double` nearest to the square, while (fanin * fanout) squared is
9007199515875289. -/
theorem get_metric_cstruc_rounds_above_2_pow_53 :
    example_wide_fanin.int_range ∧
      example_wide_fanin.get_metric_double example_libm_log .em_cstruc =
        some (.finite 9007199515875288) ∧
      (example_wide_fanin.call.num_caller * example_wide_fanin.call.num_call) ^ 2 =
        9007199515875289 := by
  refine ⟨⟨fun n => by simp [example_wide_fanin], by simp [example_wide_fanin],
    by simp [example_wide_fanin]⟩, ?_, by simp [example_wide_fanin]⟩
  have hunfold : example_wide_fanin.get_metric_double example_libm_log .em_cstruc =
      some (Double.mul
        (Double.mul (Double.of_int (94906267 : ℕ)) (Double.of_int (1 : ℕ)))
        (Double.mul (Double.of_int (94906267 : ℕ)) (Double.of_int (1 : ℕ)))) := rfl
  have hsq : Double.round (9007199515875289 : ℚ) = .finite 9007199515875288 := by
    obtain ⟨r, hr, hval, _⟩ := Double.round_normal (9007199515875289 : ℚ) 53
      (by norm_num) (by norm_num) (by norm_num) (by norm_num)
    have hx : (9007199515875289 : ℚ) / 2 ^ ((53 : ℤ) - 52) =
        ((4503599757937644 : ℤ) : ℚ) + 1 / 2 := by norm_num
    rw [hx, round_half_even_tie _ (by norm_num)] at hval
    rw [hr, hval]
    norm_num
  rw [hunfold,
    Double.of_int_exact _ (by norm_num), Double.of_int_exact _ (by norm_num),
    Double.mul_int _ _ (by norm_num)]
  simp only [Double.mul]
  have hq : (((94906267 : ℕ) : ℤ) * ((1 : ℕ) : ℤ) : ℤ) = 94906267 := by norm_num
  rw [hq]
  have hq2 : (((94906267 : ℤ) : ℚ) * ((94906267 : ℤ) : ℚ)) = 9007199515875289 := by norm_num
  rw [hq2, hsq]

/-- C11 (as amended): for every function whose sizes and counts are values of `int` and
whose (fanin * fanout) squared is below 2^53, `get_metric(em_cstruc)` equals
(fanin * fanout) squared, fanin being the number of callers and fanout the number of
callees of the function's `Call` node; `get_metric(em_iflow)` is the `double` product of
`get_metric(em_cstruc)` and `get_metric(em_ccycl1)`, and equals (fanin * fanout) squared
multiplied by NIF + NSWITCH + NFOR + NWHILE + NDO + 1 when that product is below 2^53
in absolute value. -/
theorem get_metric_double_cstruc_iflow (log : Double → Double) (m : FunMetrics)
    (hint : m.int_range) (h : (m.call.num_caller * m.call.num_call) ^ 2 < 2 ^ 53) :
    m.get_metric_double log .em_cstruc =
        some (.finite (((m.call.num_caller * m.call.num_call) ^ 2 : ℕ) : ℚ)) ∧
      (∃ c y, m.get_metric_double log .em_cstruc = some c ∧
        m.get_metric_double log .em_ccycl1 = some y ∧
        m.get_metric_double log .em_iflow = some (Double.mul c y)) ∧
      (|(((m.call.num_caller * m.call.num_call) ^ 2 : ℕ) : ℤ) *
          (m.count .em_nif + m.count .em_nswitch + m.count .em_nfor +
            m.count .em_nwhile + m.count .em_ndo + 1)| < 2 ^ 53 →
        m.get_metric_double log .em_iflow =
          some (.finite (((((m.call.num_caller * m.call.num_call) ^ 2 : ℕ) : ℤ) *
            (m.count .em_nif + m.count .em_nswitch + m.count .em_nfor +
              m.count .em_nwhile + m.count .em_ndo + 1) : ℤ) : ℚ))) := by
  have hc := FunMetrics.get_metric_double_cstruc log m hint h
  have hy := FunMetrics.get_metric_double_ccycl1 log m hint
  have hi : m.get_metric_double log .em_iflow =
      (m.get_metric_double log .em_cstruc).bind fun c =>
        (m.get_metric_double log .em_ccycl1).bind fun y => some (Double.mul c y) := rfl
  refine ⟨hc, ⟨_, _, hc, hy, by rw [hi, hc, hy]; rfl⟩, ?_⟩
  intro hb
  rw [hi, hc, hy]
  simp only [Option.some_bind]
  have hcast : ((((m.call.num_caller * m.call.num_call) ^ 2 : ℕ) : ℚ)) =
      (((((m.call.num_caller * m.call.num_call) ^ 2 : ℕ) : ℤ)) : ℚ) := by push_cast; rfl
  rw [hcast, Double.mul_int _ _ hb]

theorem get_metric_double_cstruc_iflow_witness :
    example_fan.int_range ∧
      (example_fan.call.num_caller * example_fan.call.num_call) ^ 2 < 2 ^ 53 ∧
      example_fan.get_metric_double example_libm_log .em_cstruc = some (.finite 36) ∧
      example_fan.get_metric_double example_libm_log .em_iflow = some (.finite 180) := by
  have hint : example_fan.int_range :=
    ⟨fun n => by cases n <;> simp [example_fan, example_metrics], by simp [example_fan],
      by simp [example_fan]⟩
  have hb : (example_fan.call.num_caller * example_fan.call.num_call) ^ 2 < 2 ^ 53 := by
    simp [example_fan]
  obtain ⟨h1, _, h3⟩ :=
    get_metric_double_cstruc_iflow example_libm_log example_fan hint hb
  refine ⟨hint, hb, ?_, ?_⟩
  · rw [h1]
    norm_num [example_fan]
  · rw [h3 (by norm_num [example_fan, example_metrics])]
    norm_num [example_fan, example_metrics]

theorem Double.round_rel0 (q : ℚ)
    (h : q = 0 ∨ ((2 : ℚ) ^ (-1022 : ℤ) ≤ |q| ∧ |q| < (2 : ℚ) ^ (1023 : ℤ))) :
    ∃ r t : ℚ, Double.round q = .finite r ∧ r = q * t ∧ |t - 1| ≤ (2 : ℚ) ^ (-53 : ℤ) := by
  rcases h with h | ⟨h1, h2⟩
  · refine ⟨0, 1, by rw [h]; exact Double.round_zero, by rw [h]; ring, ?_⟩
    rw [sub_self, abs_zero]
    positivity
  · exact Double.round_rel q h1 h2

theorem rel_bounds_one (ε η : ℝ) (hε0 : 0 ≤ ε) (hε1 : ε ≤ 1 / 2) (hη0 : 0 ≤ η)
    (hη1 : η ≤ 1 / 2) :
    (1 - ε) / (1 + ε) * (1 - η) ^ 2 ≤ 1 ∧ 1 ≤ (1 + ε) / (1 - ε) * (1 + η) ^ 2 := by
  have h1 : (1 - ε) / (1 + ε) ≤ 1 := by
    rw [div_le_one (by linarith)]
    linarith
  have h1' : 0 ≤ (1 - ε) / (1 + ε) := div_nonneg (by linarith) (by linarith)
  have h2 : (1 - η) ^ 2 ≤ 1 := by nlinarith
  have h2' : 0 ≤ (1 - η) ^ 2 := sq_nonneg _
  have h3 : 1 ≤ (1 + ε) / (1 - ε) := by
    rw [one_le_div (by linarith)]
    linarith
  have h4 : 1 ≤ (1 + η) ^ 2 := by nlinarith
  constructor
  · calc (1 - ε) / (1 + ε) * (1 - η) ^ 2 ≤ 1 * 1 :=
        mul_le_mul h1 h2 h2' (by norm_num)
      _ = 1 := by norm_num
  · calc (1 : ℝ) = 1 * 1 := by norm_num
      _ ≤ (1 + ε) / (1 - ε) * (1 + η) ^ 2 := mul_le_mul h3 h4 (by norm_num) (by linarith)

theorem rel_bounds_mul (ε η s1 s2 t1 t2 : ℝ) (hε0 : 0 ≤ ε) (hε1 : ε ≤ 1 / 2) (hη0 : 0 ≤ η)
    (hη1 : η ≤ 1 / 2) (hs1 : 1 - ε ≤ s1 ∧ s1 ≤ 1 + ε) (hs2 : 1 - ε ≤ s2 ∧ s2 ≤ 1 + ε)
    (ht1 : 1 - η ≤ t1 ∧ t1 ≤ 1 + η) (ht2 : 1 - η ≤ t2 ∧ t2 ≤ 1 + η) :
    (1 - ε) / (1 + ε) * (1 - η) ^ 2 ≤ s1 / s2 * t1 * t2 ∧
      s1 / s2 * t1 * t2 ≤ (1 + ε) / (1 - ε) * (1 + η) ^ 2 := by
  have hs2pos : 0 < s2 := by linarith [hs2.1]
  have hs1pos : 0 < s1 := by linarith [hs1.1]
  have ht1pos : 0 < t1 := by linarith [ht1.1]
  have ht2pos : 0 < t2 := by linarith [ht2.1]
  have hq1 : (1 - ε) / (1 + ε) ≤ s1 / s2 := by
    rw [div_le_div_iff₀ (by linarith) hs2pos]
    nlinarith [hs1.1, hs2.2]
  have hq2 : s1 / s2 ≤ (1 + ε) / (1 - ε) := by
    rw [div_le_div_iff₀ hs2pos (by linarith)]
    nlinarith [hs1.2, hs2.1]
  have hq0 : 0 ≤ (1 - ε) / (1 + ε) := div_nonneg (by linarith) (by linarith)
  have hp1 : (1 - η) ^ 2 ≤ t1 * t2 := by
    rw [pow_two]
    exact mul_le_mul ht1.1 ht2.1 (by linarith) ht1pos.le
  have hp2 : t1 * t2 ≤ (1 + η) ^ 2 := by
    rw [pow_two]
    exact mul_le_mul ht1.2 ht2.2 ht2pos.le (by linarith)
  constructor
  · calc (1 - ε) / (1 + ε) * (1 - η) ^ 2 ≤ s1 / s2 * (t1 * t2) :=
        mul_le_mul hq1 hp1 (sq_nonneg _) (div_nonneg hs1pos.le hs2pos.le)
      _ = s1 / s2 * t1 * t2 := by ring
  · calc s1 / s2 * t1 * t2 = s1 / s2 * (t1 * t2) := by ring
      _ ≤ (1 + ε) / (1 - ε) * (1 + η) ^ 2 :=
        mul_le_mul hq2 hp2 (mul_nonneg ht1pos.le ht2pos.le)
          (div_nonneg (by linarith) (by linarith))

theorem FunMetrics.get_metric_double_chal_eq (log : Double → Double) (m : FunMetrics)
    (hint : m.int_range)
    (hu : m.count .em_nuop + m.count .em_nuid + m.count .em_nnconst + m.count .em_nclit ≠ 0) :
    m.get_metric_double log .em_chal =
      some (Double.mul
        (.finite ((m.count .em_nop + m.count .em_nid + m.count .em_nnconst +
          m.count .em_nclit : ℤ) : ℚ))
        (Double.div
          (log (.finite ((m.count .em_nuop + m.count .em_nuid + m.count .em_nnconst +
            m.count .em_nclit : ℤ) : ℚ)))
          (log (.finite 2)))) := by
  have hunfold : m.get_metric_double log .em_chal =
      if (Double.add (Double.add (Double.add (Double.of_int (m.count .em_nuop))
          (Double.of_int (m.count .em_nuid))) (Double.of_int (m.count .em_nnconst)))
          (Double.of_int (m.count .em_nclit))).is_zero = true then some (Double.of_int 0)
      else
        some (Double.mul
          (Double.add (Double.add (Double.add (Double.of_int (m.count .em_nop))
            (Double.of_int (m.count .em_nid))) (Double.of_int (m.count .em_nnconst)))
            (Double.of_int (m.count .em_nclit)))
          (Double.div
            (log (Double.add (Double.add (Double.add (Double.of_int (m.count .em_nuop))
              (Double.of_int (m.count .em_nuid))) (Double.of_int (m.count .em_nnconst)))
              (Double.of_int (m.count .em_nclit))))
            (log (.finite 2)))) := by
    show (if _ then _ else _) = _
    split <;> rfl
  rw [hunfold,
    Double.sum4_int _ _ _ _ (hint.1 _) (hint.1 _) (hint.1 _) (hint.1 _),
    Double.sum4_int _ _ _ _ (hint.1 _) (hint.1 _) (hint.1 _) (hint.1 _)]
  have hz : (Double.finite ((m.count .em_nuop + m.count .em_nuid + m.count .em_nnconst +
      m.count .em_nclit : ℤ) : ℚ)).is_zero = false := by
    simp only [Double.is_zero, decide_eq_false_iff_not]
    exact_mod_cast hu
  rw [hz]
  rfl

theorem eta_bounds : (0 : ℝ) ≤ (2 : ℝ) ^ (-53 : ℤ) ∧ (2 : ℝ) ^ (-53 : ℤ) ≤ 1 / 2 := by
  refine ⟨by positivity, ?_⟩
  have h : (2 : ℝ) ^ (-53 : ℤ) ≤ 2 ^ (-1 : ℤ) := zpow_le_zpow_right₀ (by norm_num) (by norm_num)
  have h1 : (2 : ℝ) ^ (-1 : ℤ) = 1 / 2 := by norm_num
  rw [h1] at h
  exact h

theorem rat_near_one_cast (t : ℚ) (h : |t - 1| ≤ (2 : ℚ) ^ (-53 : ℤ)) :
    1 - (2 : ℝ) ^ (-53 : ℤ) ≤ (t : ℝ) ∧ (t : ℝ) ≤ 1 + (2 : ℝ) ^ (-53 : ℤ) := by
  rw [abs_le] at h
  have h1 : ((-(2 : ℚ) ^ (-53 : ℤ) : ℚ) : ℝ) ≤ ((t - 1 : ℚ) : ℝ) := Rat.cast_le.mpr h.1
  have h2 : ((t - 1 : ℚ) : ℝ) ≤ (((2 : ℚ) ^ (-53 : ℤ) : ℚ) : ℝ) := Rat.cast_le.mpr h.2
  push_cast at h1 h2
  constructor <;> linarith

theorem Double.round_rel_mid (q : ℚ) (h1 : 1 / 6 ≤ |q|) (h2 : |q| ≤ 2 ^ 70) :
    ∃ r t : ℚ, Double.round q = .finite r ∧ r = q * t ∧ |t - 1| ≤ (2 : ℚ) ^ (-53 : ℤ) := by
  refine Double.round_rel q ?_ ?_
  · have ha : (2 : ℚ) ^ (-1022 : ℤ) ≤ 2 ^ (-3 : ℤ) :=
      zpow_le_zpow_right₀ (by norm_num) (by norm_num)
    have hb : (2 : ℚ) ^ (-3 : ℤ) ≤ 1 / 6 := by norm_num
    exact le_trans (le_trans ha hb) h1
  · have ha : (2 : ℚ) ^ (70 : ℤ) < 2 ^ (1023 : ℤ) :=
      zpow_lt_zpow_right₀ (by norm_num) (by norm_num)
    have hb : (2 : ℚ) ^ (70 : ℕ) = 2 ^ (70 : ℤ) := by norm_cast
    rw [hb] at h2
    exact lt_of_le_of_lt h2 ha

theorem chal_factor (N L L2 lu l2 t1 t2 : ℝ) (hlu : lu ≠ 0) (hl2 : l2 ≠ 0) (hL2 : L2 ≠ 0) :
    N * (L / L2 * t1) * t2 = N * (lu / l2) * (L / lu / (L2 / l2) * t1 * t2) := by
  field_simp
  ring

theorem Double.chal_core (N u : ℤ) (L L2 : ℚ) (ε : ℝ) (hN : |N| < 2 ^ 33) (hu1 : 1 ≤ u)
    (hu2 : u < 2 ^ 33) (hε0 : 0 ≤ ε) (hε1 : ε ≤ 1 / 2)
    (hL : |(L : ℝ) - Real.log (u : ℝ)| ≤ ε * Real.log (u : ℝ))
    (hL2 : |(L2 : ℝ) - Real.log 2| ≤ ε * Real.log 2) :
    ∃ (r : ℚ) (t : ℝ),
      Double.mul (.finite (N : ℚ)) (Double.div (.finite L) (.finite L2)) = .finite r ∧
      (r : ℝ) = (N : ℝ) * Real.logb 2 (u : ℝ) * t ∧
      (1 - ε) / (1 + ε) * (1 - (2 : ℝ) ^ (-53 : ℤ)) ^ 2 ≤ t ∧
      t ≤ (1 + ε) / (1 - ε) * (1 + (2 : ℝ) ^ (-53 : ℤ)) ^ 2 := by
  have hln2 : (0 : ℝ) < Real.log 2 := Real.log_pos (by norm_num)
  have hln2lo : (1 : ℝ) / 2 ≤ Real.log 2 := by
    have := Real.log_two_gt_d9
    linarith
  rw [abs_le] at hL2
  have hε2 : ε * Real.log 2 ≤ 1 / 2 * Real.log 2 :=
    mul_le_mul_of_nonneg_right hε1 hln2.le
  have hL2pos : (0 : ℝ) < (L2 : ℝ) := by linarith [hL2.1]
  have hL2ne : L2 ≠ 0 := by
    intro h
    rw [h] at hL2pos
    simp at hL2pos
  have hdiv : Double.div (.finite L) (.finite L2) = Double.round (L / L2) := by
    simp only [Double.div, hL2ne, if_false]
  have hη := eta_bounds
  by_cases hone : u = 1
  · subst hone
    have hL0 : L = 0 := by
      simp only [Int.cast_one, Real.log_one, mul_zero] at hL
      have : (L : ℝ) = 0 := by
        have := abs_nonneg ((L : ℝ) - 0)
        have h0 : |(L : ℝ) - 0| = 0 := le_antisymm hL this
        simpa using h0
      exact_mod_cast this
    refine ⟨0, 1, ?_, ?_, (rel_bounds_one ε _ hε0 hε1 hη.1 hη.2).1,
      (rel_bounds_one ε _ hε0 hε1 hη.1 hη.2).2⟩
    · rw [hdiv, hL0, zero_div, Double.round_zero]
      simp only [Double.mul, mul_zero]
      exact Double.round_zero
    · simp
  · have hu2' : (2 : ℝ) ≤ (u : ℝ) := by
      have : (2 : ℤ) ≤ u := by omega
      exact_mod_cast this
    have hupos : (0 : ℝ) < (u : ℝ) := by linarith
    have hlnu : Real.log 2 ≤ Real.log (u : ℝ) := Real.log_le_log (by norm_num) hu2'
    have hlnupos : (0 : ℝ) < Real.log (u : ℝ) := by linarith
    have hlnule : Real.log (u : ℝ) ≤ (u : ℝ) := by
      have := Real.log_le_sub_one_of_pos hupos
      linarith
    rw [abs_le] at hL
    have hε3 : ε * Real.log (u : ℝ) ≤ 1 / 2 * Real.log (u : ℝ) :=
      mul_le_mul_of_nonneg_right hε1 hlnupos.le
    have hLpos : (0 : ℝ) < (L : ℝ) := by linarith [hL.1]
    have hubound : (u : ℝ) < 2 ^ 33 := by exact_mod_cast hu2
    have hxlo : (1 : ℝ) / 3 ≤ ((L / L2 : ℚ) : ℝ) := by
      push_cast
      rw [le_div_iff₀ hL2pos]
      linarith [hL.1, hL2.2]
    have hxhi : ((L / L2 : ℚ) : ℝ) ≤ 6 * (u : ℝ) := by
      push_cast
      rw [div_le_iff₀ hL2pos]
      have h1 : (L : ℝ) ≤ 3 / 2 * (u : ℝ) := by linarith [hL.2]
      have h2 : (1 : ℝ) / 4 ≤ (L2 : ℝ) := by linarith [hL2.1]
      nlinarith
    have hxloQ : (1 : ℚ) / 3 ≤ L / L2 := by
      have : (((1 : ℚ) / 3 : ℚ) : ℝ) ≤ ((L / L2 : ℚ) : ℝ) := by
        push_cast
        push_cast at hxlo
        exact hxlo
      exact Rat.cast_le.mp this
    have hxhiQ : L / L2 ≤ 6 * (u : ℚ) := by
      have : ((L / L2 : ℚ) : ℝ) ≤ ((6 * (u : ℚ) : ℚ) : ℝ) := by
        push_cast
        push_cast at hxhi
        exact hxhi
      exact Rat.cast_le.mp this
    have huQ : (u : ℚ) < 2 ^ 33 := by exact_mod_cast hu2
    have huQ1 : (2 : ℚ) ≤ (u : ℚ) := by
      have : (2 : ℤ) ≤ u := by omega
      exact_mod_cast this
    have hxpos : (0 : ℚ) < L / L2 := by linarith
    obtain ⟨d, t1, hd, hdx, ht1⟩ := Double.round_rel_mid (L / L2)
      (by rw [abs_of_pos hxpos]; linarith)
      (by rw [abs_of_pos hxpos]; norm_num; linarith)
    have ht1Q := abs_le.mp ht1
    have hηQ : (2 : ℚ) ^ (-53 : ℤ) ≤ 1 / 2 := by
      have h : (2 : ℚ) ^ (-53 : ℤ) ≤ 2 ^ (-1 : ℤ) :=
        zpow_le_zpow_right₀ (by norm_num) (by norm_num)
      have h1 : (2 : ℚ) ^ (-1 : ℤ) = 1 / 2 := by norm_num
      rw [h1] at h
      exact h
    have key : ∀ η : ℚ, η ≤ 1 / 2 → -η ≤ t1 - 1 → t1 - 1 ≤ η → 1 / 2 ≤ t1 ∧ t1 ≤ 2 := by
      intro η h1 h2 h3
      constructor <;> linarith
    obtain ⟨ht1lo, ht1hi⟩ := key _ hηQ ht1Q.1 ht1Q.2
    have hdlo : (1 : ℚ) / 6 ≤ d := by
      rw [hdx]
      nlinarith
    have hdhi : d ≤ 12 * (u : ℚ) := by
      rw [hdx]
      nlinarith
    have hdpos : (0 : ℚ) < d := by linarith
    have hmul : Double.mul (.finite (N : ℚ)) (.finite d) = Double.round ((N : ℚ) * d) := by
      simp only [Double.mul]
    have hNQ : |(N : ℚ)| < 2 ^ 33 := by
      have : ((|N| : ℤ) : ℚ) < ((2 ^ 33 : ℤ) : ℚ) := Int.cast_lt.mpr hN
      rw [Int.cast_abs] at this
      push_cast at this
      exact this
    have hrange : (N : ℚ) * d = 0 ∨ (1 / 6 ≤ |(N : ℚ) * d| ∧ |(N : ℚ) * d| ≤ 2 ^ 70) := by
      by_cases hN0 : N = 0
      · left
        rw [hN0]
        simp
      · right
        have hN1 : (1 : ℚ) ≤ |(N : ℚ)| := by
          have : (1 : ℤ) ≤ |N| := Int.one_le_abs hN0
          have h2 : ((1 : ℤ) : ℚ) ≤ ((|N| : ℤ) : ℚ) := Int.cast_le.mpr this
          rw [Int.cast_abs] at h2
          simpa using h2
        rw [abs_mul, abs_of_pos hdpos]
        constructor
        · calc (1 : ℚ) / 6 = 1 * (1 / 6) := by norm_num
            _ ≤ |(N : ℚ)| * d := mul_le_mul hN1 hdlo (by norm_num) (abs_nonneg _)
        · have hd2 : d ≤ 12 * 2 ^ 33 := by linarith
          calc |(N : ℚ)| * d ≤ 2 ^ 33 * (12 * 2 ^ 33) :=
              mul_le_mul hNQ.le hd2 hdpos.le (by norm_num)
            _ ≤ 2 ^ 70 := by norm_num
    obtain ⟨r, t2, hr, hrq, ht2⟩ : ∃ r t : ℚ, Double.round ((N : ℚ) * d) = .finite r ∧
        r = (N : ℚ) * d * t ∧ |t - 1| ≤ (2 : ℚ) ^ (-53 : ℤ) := by
      rcases hrange with h0 | ⟨h1, h2⟩
      · exact Double.round_rel0 _ (Or.inl h0)
      · exact Double.round_rel_mid _ h1 h2
    have ht1R := rat_near_one_cast t1 ht1
    have ht2R := rat_near_one_cast t2 ht2
    have hs1 : 1 - ε ≤ (L : ℝ) / Real.log (u : ℝ) ∧ (L : ℝ) / Real.log (u : ℝ) ≤ 1 + ε := by
      constructor
      · rw [le_div_iff₀ hlnupos]
        linarith [hL.1]
      · rw [div_le_iff₀ hlnupos]
        linarith [hL.2]
    have hs2 : 1 - ε ≤ (L2 : ℝ) / Real.log 2 ∧ (L2 : ℝ) / Real.log 2 ≤ 1 + ε := by
      constructor
      · rw [le_div_iff₀ hln2]
        linarith [hL2.1]
      · rw [div_le_iff₀ hln2]
        linarith [hL2.2]
    have hb := rel_bounds_mul ε _ _ _ _ _ hε0 hε1 hη.1 hη.2 hs1 hs2 ht1R ht2R
    refine ⟨r, (L : ℝ) / Real.log (u : ℝ) / ((L2 : ℝ) / Real.log 2) * (t1 : ℝ) * (t2 : ℝ),
      ?_, ?_, hb.1, hb.2⟩
    · rw [hdiv, hd, hmul, hr]
    · rw [hrq, hdx]
      push_cast
      rw [Real.logb]
      exact chal_factor _ _ _ _ _ _ _ (ne_of_gt hlnupos) (ne_of_gt hln2) (ne_of_gt hL2pos)

theorem Double.round_eq (q : ℚ) (L k : ℤ) (h1 : (2 : ℚ) ^ L ≤ |q|)
    (h2 : |q| < (2 : ℚ) ^ (L + 1)) (hL : -1022 ≤ L) (hL2 : L ≤ 1022)
    (hk1 : (k : ℚ) - 1 / 2 < q / 2 ^ (L - 52)) (hk2 : q / 2 ^ (L - 52) < (k : ℚ) + 1 / 2) :
    Double.round q = .finite ((k : ℚ) * 2 ^ (L - 52)) := by
  obtain ⟨r, hr, hval, _⟩ := Double.round_normal q L h1 h2 hL hL2
  rw [round_half_even_eq _ k hk1 hk2] at hval
  rw [hr, hval]

theorem Double.chal_two (N : ℤ) (L2 : ℚ) (hN : |N| < 2 ^ 53) (hL2 : L2 ≠ 0) :
    Double.mul (.finite (N : ℚ)) (Double.div (.finite L2) (.finite L2)) = .finite (N : ℚ) := by
  have hdiv : Double.div (.finite L2) (.finite L2) = Double.round (L2 / L2) := by
    simp only [Double.div, hL2, if_false]
  have hone : Double.round (L2 / L2) = .finite 1 := by
    rw [div_self hL2]
    have := Double.round_int 1 (by norm_num)
    simpa using this
  rw [hdiv, hone]
  simp only [Double.mul, mul_one]
  exact Double.round_int N hN

theorem three_mul_logb_two_three_irrational (r : ℚ) : (r : ℝ) ≠ 3 * Real.logb 2 3 := by
  intro h
  have hlog2 : (0 : ℝ) < Real.log 2 := Real.log_pos (by norm_num)
  have hlog3 : (0 : ℝ) < Real.log 3 := Real.log_pos (by norm_num)
  have h1 : (r : ℝ) * Real.log 2 = 3 * Real.log 3 := by
    rw [h, Real.logb]
    field_simp
  have hden : (0 : ℝ) < (r.den : ℝ) := by exact_mod_cast r.den_pos
  have hr : (r : ℝ) = (r.num : ℝ) / (r.den : ℝ) := by
    rw [Rat.cast_def]
  rw [hr] at h1
  have h2 : (r.num : ℝ) * Real.log 2 = 3 * (r.den : ℝ) * Real.log 3 := by
    field_simp at h1
    linarith
  have hnum : 0 < r.num := by
    by_contra hle
    have hle : r.num ≤ 0 := not_lt.mp hle
    have : (r.num : ℝ) ≤ 0 := by exact_mod_cast hle
    have h3 : (r.num : ℝ) * Real.log 2 ≤ 0 := mul_nonpos_of_nonpos_of_nonneg this hlog2.le
    have h4 : 0 < 3 * (r.den : ℝ) * Real.log 3 := by positivity
    linarith
  obtain ⟨n, hn⟩ : ∃ n : ℕ, r.num = (n : ℤ) := ⟨r.num.toNat, (Int.toNat_of_nonneg hnum.le).symm⟩
  have hn1 : 1 ≤ n := by
    have : (0 : ℤ) < (n : ℤ) := hn ▸ hnum
    omega
  rw [hn] at h2
  have h5 : Real.log ((2 : ℝ) ^ n) = Real.log ((3 : ℝ) ^ (3 * r.den)) := by
    rw [Real.log_pow, Real.log_pow]
    push_cast
    push_cast at h2
    linarith
  have h6 : (2 : ℝ) ^ n = (3 : ℝ) ^ (3 * r.den) :=
    Real.log_injOn_pos (Set.mem_Ioi.mpr (by positivity)) (Set.mem_Ioi.mpr (by positivity)) h5
  have h7 : (2 : ℕ) ^ n = 3 ^ (3 * r.den) := by exact_mod_cast h6
  have h8 : 2 ∣ (3 : ℕ) ^ (3 * r.den) := by
    rw [← h7]
    exact dvd_pow_self 2 (by omega)
  have h9 : 2 ∣ 3 := Nat.Prime.dvd_of_dvd_pow Nat.prime_two h8
  omega

/-- C12 (counterexample): for a function with 3 unique operands and 3 operand and
operator occurrences, whose counts are values of `int`, `get_metric(em_chal)` is a
`double`, and no `double` equals 3 multiplied by the base-2 logarithm of 3, whatever the
`log` of the C library returns; with the `double`s nearest to the logarithms of 3 and
of 2 the result is 5353527395733007 / 2^50, which prints as 4.754887502163469. -/
theorem get_metric_chal_is_not_the_logarithm :
    example_three_operands.int_range ∧
      example_three_operands.count .em_nuop + example_three_operands.count .em_nuid +
        example_three_operands.count .em_nnconst +
        example_three_operands.count .em_nclit = 3 ∧
      example_three_operands.count .em_nop + example_three_operands.count .em_nid +
        example_three_operands.count .em_nnconst +
        example_three_operands.count .em_nclit = 3 ∧
      (¬ ∃ (log : Double → Double) (r : ℚ),
        example_three_operands.get_metric_double log .em_chal = some (.finite r) ∧
        (r : ℝ) = 3 * Real.logb 2 3) ∧
      example_three_operands.get_metric_double example_libm_log .em_chal =
        some (.finite (5353527395733007 / 2 ^ 50)) := by
  have hint : example_three_operands.int_range :=
    ⟨fun n => by cases n <;> simp [example_three_operands], by simp [example_three_operands],
      by simp [example_three_operands]⟩
  refine ⟨hint, by simp [example_three_operands], by simp [example_three_operands], ?_, ?_⟩
  · rintro ⟨log, r, _, hr⟩
    exact three_mul_logb_two_three_irrational r hr
  · rw [FunMetrics.get_metric_double_chal_eq example_libm_log example_three_operands hint
      (by simp [example_three_operands])]
    have hu : ((example_three_operands.count .em_nuop +
        example_three_operands.count .em_nuid + example_three_operands.count .em_nnconst +
        example_three_operands.count .em_nclit : ℤ) : ℚ) = 3 := by
      simp [example_three_operands]
    have hN : ((example_three_operands.count .em_nop +
        example_three_operands.count .em_nid + example_three_operands.count .em_nnconst +
        example_three_operands.count .em_nclit : ℤ) : ℚ) = 3 := by
      simp [example_three_operands]
    rw [hu, hN]
    have hl3 : example_libm_log (.finite 3) = .finite (4947709893870347 / 2 ^ 52) := by
      simp [example_libm_log]
    have hl2 : example_libm_log (.finite 2) = .finite (6243314768165359 / 2 ^ 53) := by
      simp [example_libm_log]
    rw [hl3, hl2]
    have hdiv : Double.div (.finite (4947709893870347 / 2 ^ 52))
        (.finite (6243314768165359 / 2 ^ 53)) = .finite (7138036527644009 / 2 ^ 52) := by
      simp only [Double.div]
      rw [if_neg (by norm_num)]
      have := Double.round_eq
        ((4947709893870347 / 2 ^ 52 : ℚ) / (6243314768165359 / 2 ^ 53)) 0 7138036527644009
        (by rw [abs_of_pos (by norm_num)]; norm_num)
        (by rw [abs_of_pos (by norm_num)]; norm_num)
        (by norm_num) (by norm_num) (by norm_num) (by norm_num)
      rw [this]
      norm_num
    rw [hdiv]
    simp only [Double.mul]
    have := Double.round_eq ((3 : ℚ) * (7138036527644009 / 2 ^ 52)) 2 5353527395733007
      (by rw [abs_of_pos (by norm_num)]; norm_num)
      (by rw [abs_of_pos (by norm_num)]; norm_num)
      (by norm_num) (by norm_num) (by norm_num) (by norm_num)
    rw [this]
    norm_num

/-- C12 (as amended): for every function metrics record whose counts are values of `int`
and whose unique-operand total NUOP + NUID + NNCONST + NCLIT is positive,
`get_metric(em_chal)` is the `double` product of N_op + N_id + N_nconst + N_clit with the
`double` quotient `log(total) / log(2.)`. When the `log` of the C library is within the
relative error `ε` (at most 1/2) of the natural logarithm at the total and at 2, the
result is that sum multiplied by the base-2 logarithm of the total and by a factor
between (1 - ε) / (1 + ε) * (1 - 2^-53)^2 and (1 + ε) / (1 - ε) * (1 + 2^-53)^2; when
the total is 2 the result is the sum itself. -/
theorem get_metric_double_chal_approx (log : Double → Double) (m : FunMetrics) (ε : ℝ)
    (hint : m.int_range)
    (hu : 0 < m.count .em_nuop + m.count .em_nuid + m.count .em_nnconst + m.count .em_nclit)
    (hε0 : 0 ≤ ε) (hε1 : ε ≤ 1 / 2)
    (hlogu : ∃ L : ℚ,
      log (.finite ((m.count .em_nuop + m.count .em_nuid + m.count .em_nnconst +
        m.count .em_nclit : ℤ) : ℚ)) = .finite L ∧
      |(L : ℝ) - Real.log ((m.count .em_nuop + m.count .em_nuid + m.count .em_nnconst +
          m.count .em_nclit : ℤ) : ℝ)| ≤
        ε * Real.log ((m.count .em_nuop + m.count .em_nuid + m.count .em_nnconst +
          m.count .em_nclit : ℤ) : ℝ))
    (hlog2 : ∃ L2 : ℚ, log (.finite 2) = .finite L2 ∧
      |(L2 : ℝ) - Real.log 2| ≤ ε * Real.log 2) :
    m.get_metric_double log .em_chal =
      some (Double.mul
        (.finite ((m.count .em_nop + m.count .em_nid + m.count .em_nnconst +
          m.count .em_nclit : ℤ) : ℚ))
        (Double.div
          (log (.finite ((m.count .em_nuop + m.count .em_nuid + m.count .em_nnconst +
            m.count .em_nclit : ℤ) : ℚ)))
          (log (.finite 2)))) ∧
    (∃ (r : ℚ) (t : ℝ), m.get_metric_double log .em_chal = some (.finite r) ∧
      (r : ℝ) =
        ((m.count .em_nop + m.count .em_nid + m.count .em_nnconst +
          m.count .em_nclit : ℤ) : ℝ) *
        Real.logb 2 ((m.count .em_nuop + m.count .em_nuid + m.count .em_nnconst +
          m.count .em_nclit : ℤ) : ℝ) * t ∧
      (1 - ε) / (1 + ε) * (1 - (2 : ℝ) ^ (-53 : ℤ)) ^ 2 ≤ t ∧
      t ≤ (1 + ε) / (1 - ε) * (1 + (2 : ℝ) ^ (-53 : ℤ)) ^ 2) ∧
    (m.count .em_nuop + m.count .em_nuid + m.count .em_nnconst + m.count .em_nclit = 2 →
      m.get_metric_double log .em_chal =
        some (.finite ((m.count .em_nop + m.count .em_nid + m.count .em_nnconst +
          m.count .em_nclit : ℤ) : ℚ))) := by
  obtain ⟨L, hL, hLacc⟩ := hlogu
  obtain ⟨L2, hL2, hL2acc⟩ := hlog2
  have h1 := hint.1 .em_nuop
  have h2 := hint.1 .em_nuid
  have h3 := hint.1 .em_nnconst
  have h4 := hint.1 .em_nclit
  have h5 := hint.1 .em_nop
  have h6 := hint.1 .em_nid
  have hN : |m.count .em_nop + m.count .em_nid + m.count .em_nnconst + m.count .em_nclit| <
      2 ^ 33 := by
    rw [abs_lt]
    constructor <;> omega
  have heq := FunMetrics.get_metric_double_chal_eq log m hint (ne_of_gt hu)
  refine ⟨heq, ?_, ?_⟩
  · obtain ⟨r, t, hr, hval, hlo, hhi⟩ := Double.chal_core _ _ L L2 ε hN (by omega)
      (by omega) hε0 hε1 hLacc hL2acc
    exact ⟨r, t, by rw [heq, hL, hL2, hr], hval, hlo, hhi⟩
  · intro htwo
    have hL2ne : L2 ≠ 0 := by
      intro h0
      rw [h0] at hL2acc
      have hln2 : (0 : ℝ) < Real.log 2 := Real.log_pos (by norm_num)
      rw [abs_le] at hL2acc
      have := hL2acc.1
      have hmul : ε * Real.log 2 ≤ 1 / 2 * Real.log 2 :=
        mul_le_mul_of_nonneg_right hε1 hln2.le
      simp only [Rat.cast_zero, zero_sub] at this
      linarith
    have hcast : ((m.count .em_nuop + m.count .em_nuid + m.count .em_nnconst +
        m.count .em_nclit : ℤ) : ℚ) = 2 := by
      rw [htwo]
      norm_num
    rw [heq, hcast, hL2]
    rw [Double.chal_two _ L2 (by rw [abs_lt] at hN ⊢; constructor <;> omega) hL2ne]

theorem get_metric_double_chal_approx_witness :
    example_halstead.int_range ∧
      0 < example_halstead.count .em_nuop + example_halstead.count .em_nuid +
        example_halstead.count .em_nnconst + example_halstead.count .em_nclit ∧
      (∃ L2 : ℚ, example_libm_log (.finite 2) = .finite L2 ∧
        |(L2 : ℝ) - Real.log 2| ≤ 1 / 10 ^ 9 * Real.log 2) ∧
      example_halstead.get_metric_double example_libm_log .em_chal = some (.finite 5) := by
  have hint : example_halstead.int_range :=
    ⟨fun n => by cases n <;> simp [example_halstead], by simp [example_halstead],
      by simp [example_halstead]⟩
  have hu : 0 < example_halstead.count .em_nuop + example_halstead.count .em_nuid +
      example_halstead.count .em_nnconst + example_halstead.count .em_nclit := by
    simp [example_halstead]
  have hlog2 : ∃ L2 : ℚ, example_libm_log (.finite 2) = .finite L2 ∧
      |(L2 : ℝ) - Real.log 2| ≤ 1 / 10 ^ 9 * Real.log 2 := by
    refine ⟨6243314768165359 / 2 ^ 53, by simp [example_libm_log], ?_⟩
    have h1 := Real.log_two_gt_d9
    have h2 := Real.log_two_lt_d9
    rw [abs_le]
    push_cast
    constructor <;> norm_num at h1 h2 ⊢ <;> linarith
  have hlogu : ∃ L : ℚ,
      example_libm_log (.finite ((example_halstead.count .em_nuop +
        example_halstead.count .em_nuid + example_halstead.count .em_nnconst +
        example_halstead.count .em_nclit : ℤ) : ℚ)) = .finite L ∧
      |(L : ℝ) - Real.log ((example_halstead.count .em_nuop +
          example_halstead.count .em_nuid + example_halstead.count .em_nnconst +
          example_halstead.count .em_nclit : ℤ) : ℝ)| ≤
        1 / 10 ^ 9 * Real.log ((example_halstead.count .em_nuop +
          example_halstead.count .em_nuid + example_halstead.count .em_nnconst +
          example_halstead.count .em_nclit : ℤ) : ℝ) := by
    obtain ⟨L2, e, hacc⟩ := hlog2
    have hc : example_halstead.count .em_nuop + example_halstead.count .em_nuid +
        example_halstead.count .em_nnconst + example_halstead.count .em_nclit = 2 := by
      simp [example_halstead]
    rw [hc]
    exact ⟨L2, by simpa using e, by simpa using hacc⟩
  have h := (get_metric_double_chal_approx example_libm_log example_halstead (1 / 10 ^ 9)
    hint hu (by norm_num) (by norm_num) hlogu hlog2).2.2 (by simp [example_halstead])
  refine ⟨hint, hu, hlog2, ?_⟩
  rw [h]
  simp [example_halstead]

/-! ## Call graph listings -/

/-- Without recursion the loop sets no flag and writes the elements of the container
that are unvisited or equal to `f`, in order. -/
theorem list_loop_direct (descend : Nat → ListState → Option ListState) (f : Nat) :
    ∀ (rest : List Nat) (st : ListState),
      list_loop descend false f rest st =
        some ⟨st.visited,
          st.listed ++ rest.filter fun i => decide (i ∉ st.visited ∨ i = f)⟩ := by
  intro rest
  induction rest with
  | nil => intro st; simp [list_loop]
  | cons i rest ih =>
    intro st
    unfold list_loop
    by_cases h : i ∉ st.visited ∨ i = f
    · simp [h, ih, List.filter_cons]
    · simp [h, ih, List.filter_cons]

theorem unvisited_count_mono (n : Nat) (V V1 : List Nat) (h : ∀ x ∈ V, x ∈ V1) :
    unvisited_count n V1 ≤ unvisited_count n V := by
  unfold unvisited_count
  apply List.countP_mono_left
  intro x _ hx
  simp only [decide_eq_true_eq] at hx ⊢
  exact fun hxv => hx (h x hxv)

theorem countP_unvisited_cons (V : List Nat) (i : Nat) (hi : i ∉ V) :
    ∀ L : List Nat, i ∈ L →
      (L.countP fun x => decide (x ∉ i :: V)) + 1 ≤ L.countP fun x => decide (x ∉ V) := by
  intro L
  induction L with
  | nil => intro h; cases h
  | cons a L ih =>
    intro h
    by_cases ha : a = i
    · subst ha
      have hmono : (L.countP fun x => decide (x ∉ a :: V)) ≤
          L.countP fun x => decide (x ∉ V) := by
        apply List.countP_mono_left
        intro x _ hx
        simp only [decide_eq_true_eq, List.mem_cons, not_or] at hx ⊢
        exact hx.2
      simp only [List.countP_cons, List.mem_cons, true_or, not_true_eq_false, decide_False,
        hi, not_false_eq_true, decide_True, if_true]
      simp only [List.mem_cons] at hmono
      simpa using hmono
    · have hiL : i ∈ L := by
        rcases List.mem_cons.mp h with h1 | h1
        · exact absurd h1.symm ha
        · exact h1
      have := ih hiL
      by_cases hav : a ∈ V
      · simp only [List.countP_cons, List.mem_cons, ha, hav, or_true, not_true_eq_false,
          decide_False] at this ⊢
        simpa using this
      · simp only [List.countP_cons, List.mem_cons, ha, hav, or_self, not_false_eq_true,
          decide_True, if_true] at this ⊢
        omega

theorem unvisited_count_cons (n : Nat) (V : List Nat) (i : Nat) (hi : i ∉ V) (hn : i < n) :
    unvisited_count n (i :: V) + 1 ≤ unvisited_count n V :=
  countP_unvisited_cons V i hi (List.range n) (List.mem_range.mpr hn)

theorem unvisited_count_nil (n : Nat) : unvisited_count n [] = n := by
  simp [unvisited_count]


/-- The loop with recursion, given that every recursive call on an unvisited element of
the container meets `DescendSpec`. -/
theorem list_loop_spec (rel : List (List Nat))
    (descend : Nat → ListState → Option ListState) (f : Nat) (V0 : List Nat) :
    ∀ (rest : List Nat) (st : ListState),
      (∀ i ∈ rest, ∀ s : ListState, (∀ x ∈ V0, x ∈ s.visited) → i ∉ s.visited →
        ∃ s1, descend i s = some s1 ∧ DescendSpec rel i s s1) →
      (∀ x ∈ V0, x ∈ st.visited) → f ∈ st.visited →
      ∃ st1, list_loop descend true f rest st = some st1 ∧ LoopSpec rel f rest st st1 := by
  intro rest
  induction rest with
  | nil =>
    intro st _ _ _
    refine ⟨st, by simp [list_loop], fun x hx => hx, ?_, ?_, ?_, [], by simp, ?_⟩
    · intro i hi; cases hi
    · intro x hx hnx; exact absurd hx hnx
    · intro x hx hnx; exact absurd hx hnx
    · intro x; simp
  | cons i rest ih =>
    intro st hd hV0 hf
    have hd' : ∀ j ∈ rest, ∀ s : ListState, (∀ x ∈ V0, x ∈ s.visited) → j ∉ s.visited →
        ∃ s1, descend j s = some s1 ∧ DescendSpec rel j s s1 :=
      fun j hj => hd j (List.mem_cons_of_mem _ hj)
    unfold list_loop
    by_cases hi : i ∈ st.visited
    · -- already visited: written only when it is `f`; no recursion
      by_cases hif : i = f
      · subst hif
        obtain ⟨st1, h1, a1, a2, a3, a4, added, a5, a6⟩ :=
          ih { st with listed := st.listed ++ [i] } hd' hV0 hf
        refine ⟨st1, by simpa [hi] using h1, a1, ?_, ?_, a4, i :: added, ?_, ?_⟩
        · intro j hj
          rcases List.mem_cons.mp hj with rfl | hj
          · exact a1 _ hi
          · exact a2 j hj
        · intro x hx hnx
          obtain ⟨j, hj, hr⟩ := a3 x hx hnx
          exact ⟨j, List.mem_cons_of_mem _ hj, hr⟩
        · simpa using a5
        · intro x
          simp only [List.mem_cons, a6]
          constructor
          · rintro (h | h | h)
            · exact Or.inr ⟨h, Or.inl trivial⟩
            · exact Or.inl h
            · exact Or.inr ⟨h.1, Or.inr h.2⟩
          · rintro (h | ⟨h1, h2⟩)
            · exact Or.inr (Or.inl h)
            · exact Or.inl h1
      · obtain ⟨st1, h1, a1, a2, a3, a4, added, a5, a6⟩ := ih st hd' hV0 hf
        refine ⟨st1, by simpa [hi, hif] using h1, a1, ?_, ?_, a4, added, a5, ?_⟩
        · intro j hj
          rcases List.mem_cons.mp hj with rfl | hj
          · exact a1 _ hi
          · exact a2 j hj
        · intro x hx hnx
          obtain ⟨j, hj, hr⟩ := a3 x hx hnx
          exact ⟨j, List.mem_cons_of_mem _ hj, hr⟩
        · intro x
          simp only [List.mem_cons, a6]
          constructor
          · rintro (h | ⟨h1, h2⟩)
            · exact Or.inl h
            · exact Or.inr ⟨h1, Or.inr h2⟩
          · rintro (h | ⟨h1, h2 | h2⟩)
            · exact Or.inl h
            · exact absurd h2.symm hif
            · exact Or.inr ⟨h1, h2⟩
    · -- unvisited: written, then visited through the recursive call
      have hif : i ≠ f := fun h => hi (h ▸ hf)
      obtain ⟨s1, hs1, d1, d2, d3, d4, add1, d5, d6⟩ :=
        hd i (List.mem_cons_self _ _) { st with listed := st.listed ++ [i] } hV0 hi
      have hV0' : ∀ x ∈ V0, x ∈ s1.visited := fun x hx => d1 x (hV0 x hx)
      obtain ⟨st1, h1, a1, a2, a3, a4, add2, a5, a6⟩ := ih s1 hd' hV0' (d1 f hf)
      refine ⟨st1, ?_, fun x hx => a1 x (d1 x hx), ?_, ?_, ?_, i :: (add1 ++ add2), ?_, ?_⟩
      · simp only [hi, not_false_eq_true, true_or, if_true, true_and, hs1]
        exact h1
      · intro j hj
        rcases List.mem_cons.mp hj with rfl | hj
        · exact a1 _ d2
        · exact a2 j hj
      · intro x hx hnx
        by_cases hx1 : x ∈ s1.visited
        · exact ⟨i, List.mem_cons_self _ _, d3 x hx1 hnx⟩
        · obtain ⟨j, hj, hr⟩ := a3 x hx hx1
          exact ⟨j, List.mem_cons_of_mem _ hj, hr⟩
      · intro x hx hnx y hy
        by_cases hx1 : x ∈ s1.visited
        · exact a1 y (d4 x hx1 hnx y hy)
        · exact a4 x hx hx1 y hy
      · rw [a5, d5]; simp
      · intro x
        simp only [List.mem_cons, List.mem_append, d6, a6]
        constructor
        · rintro (h | (⟨h1, h2, _⟩ | ⟨h1, _⟩) | (⟨h1, h2⟩ | ⟨h1, h2⟩))
          · exact Or.inl ⟨h ▸ a1 _ d2, h ▸ hi⟩
          · exact Or.inl ⟨a1 _ h1, h2⟩
          · exact Or.inl ⟨h1 ▸ a1 _ d2, h1 ▸ hi⟩
          · exact Or.inl ⟨h1, fun hv => h2 (d1 x hv)⟩
          · exact Or.inr ⟨h1, Or.inr h2⟩
        · rintro (⟨h1, h2⟩ | ⟨h1, h2 | h2⟩)
          · by_cases hxi : x = i
            · exact Or.inl hxi
            · by_cases hx1 : x ∈ s1.visited
              · exact Or.inr (Or.inl (Or.inl ⟨hx1, h2, hxi⟩))
              · exact Or.inr (Or.inr (Or.inl ⟨h1, hx1⟩))
          · exact absurd h2.symm hif
          · exact Or.inr (Or.inr (Or.inr ⟨h1, h2⟩))


theorem edges_out_of_range (rel : List (List Nat)) (f : Nat) (h : rel.length ≤ f) :
    edges rel f = [] := by
  simp [edges, List.getElem?_eq_none h]

/-- A recursive call on an unvisited function returns and meets `DescendSpec` when the
depth bound exceeds the number of unvisited functions of the table. -/
theorem list_functions_spec (rel : List (List Nat)) :
    ∀ (fuel f : Nat) (st : ListState), f ∉ st.visited →
      unvisited_count rel.length st.visited + 1 ≤ fuel →
      ∃ st1, list_functions rel true fuel f st = some st1 ∧ DescendSpec rel f st st1 := by
  intro fuel
  induction fuel with
  | zero => intro f st _ h; omega
  | succ fuel ih =>
    intro f st hf hfuel
    unfold list_functions
    have hd : ∀ i ∈ edges rel f, ∀ s : ListState, (∀ x ∈ f :: st.visited, x ∈ s.visited) →
        i ∉ s.visited →
        ∃ s1, list_functions rel true fuel i s = some s1 ∧ DescendSpec rel i s s1 := by
      intro i hi s hs his
      apply ih i s his
      by_cases hlt : f < rel.length
      · have h1 := unvisited_count_cons rel.length st.visited f hf hlt
        have h2 := unvisited_count_mono rel.length (f :: st.visited) s.visited hs
        omega
      · rw [edges_out_of_range rel f (not_lt.mp hlt)] at hi
        cases hi
    obtain ⟨st1, h1, a1, a2, a3, a4, added, a5, a6⟩ :=
      list_loop_spec rel (list_functions rel true fuel) f (f :: st.visited) (edges rel f)
        { st with visited := f :: st.visited } hd (fun x hx => hx) (List.mem_cons_self _ _)
    refine ⟨st1, h1, fun x hx => a1 x (List.mem_cons_of_mem _ hx),
      a1 f (List.mem_cons_self _ _), ?_, ?_, added, a5, ?_⟩
    · intro x hx hnx
      by_cases hxf : x = f
      · rw [hxf]
      · obtain ⟨i, hi, hr⟩ := a3 x hx (by simp [hxf, hnx])
        exact Relation.ReflTransGen.head hi hr
    · intro x hx hnx y hy
      by_cases hxf : x = f
      · rw [hxf] at hy
        exact a2 y hy
      · exact a4 x hx (by simp [hxf, hnx]) y hy
    · intro x
      rw [a6]
      simp only [List.mem_cons, not_or]
      constructor
      · rintro (⟨h1, h2, h3⟩ | h)
        · exact Or.inl ⟨h1, h3, h2⟩
        · exact Or.inr h
      · rintro (⟨h1, h2, h3⟩ | h)
        · exact Or.inl ⟨h1, h3, h2⟩
        · exact Or.inr h

/-- From cleared flags the walk returns, and it writes the functions other than `f`
that are reachable from `f`, and `f` itself when `f` is in its own container. -/
theorem list_functions_transitive (rel : List (List Nat)) (f : Nat) :
    ∃ st1, list_functions rel true (rel.length + 1) f ⟨[], []⟩ = some st1 ∧
      ∀ x, x ∈ st1.listed ↔
        (x ≠ f ∧ Relation.TransGen (Edge rel) f x) ∨ (x = f ∧ Edge rel f f) := by
  obtain ⟨st1, h1, _, a2, a3, a4, added, a5, a6⟩ :=
    list_functions_spec rel (rel.length + 1) f ⟨[], []⟩ (by simp)
      (by simp [unvisited_count_nil])
  refine ⟨st1, h1, ?_⟩
  have hclosed : ∀ x, Relation.ReflTransGen (Edge rel) f x → x ∈ st1.visited := by
    intro x hx
    induction hx with
    | refl => exact a2
    | tail _ hbc ih => exact a4 _ ih (by simp) _ hbc
  intro x
  simp only [List.nil_append] at a5
  rw [a5, a6]
  simp only [List.not_mem_nil, not_false_eq_true, true_and]
  constructor
  · rintro (⟨h1, h2⟩ | h)
    · have hr := a3 x h1 (by simp)
      rcases Relation.reflTransGen_iff_eq_or_transGen.mp hr with heq | ht
      · exact absurd heq h2
      · exact Or.inl ⟨h2, ht⟩
    · exact Or.inr h
  · rintro (⟨h1, h2⟩ | h)
    · exact Or.inl ⟨hclosed x h2.to_reflTransGen, h1⟩
    · exact Or.inr h

/-- Without recursion the walk from cleared flags writes the container of `f` as it
is. -/
theorem list_functions_direct (rel : List (List Nat)) (fuel f : Nat) :
    list_functions rel false (fuel + 1) f ⟨[], []⟩ = some ⟨[f], edges rel f⟩ := by
  unfold list_functions
  rw [list_loop_direct]
  have : (edges rel f).filter (fun i => decide (i ∉ [f] ∨ i = f)) = edges rel f := by
    apply List.filter_eq_self.mpr
    intro a _
    by_cases h : a = f <;> simp [h]
  simp [this]

/-- C20 (code at the failing input): for the two functions 0 and 1 that call each
other, the list of all called functions of 0 is just 1, although 0 is reachable from 0
by the two call edges 0 to 1 and 1 to 0. -/
theorem funlist_page_omits_indirectly_recursive_root :
    funlist_page mutual_recursion 0 'D' = some (FunList.functions [1]) ∧
      Relation.TransGen (Edge mutual_recursion.call) 0 0 := by
  refine ⟨by decide, ?_⟩
  have h01 : Edge mutual_recursion.call 0 1 := by unfold Edge; decide
  have h10 : Edge mutual_recursion.call 1 0 := by unfold Edge; decide
  exact Relation.TransGen.tail (Relation.TransGen.single h01) h10

/-! ## Termination of the call graph walk and repeated entries -/

theorem list_loop_visited_nodup (descend : Nat → ListState → Option ListState)
    (recurse : Bool) (f : Nat)
    (hd : ∀ i s s1, descend i s = some s1 → i ∉ s.visited → s.visited.Nodup →
      s1.visited.Nodup) :
    ∀ (rest : List Nat) (st st1 : ListState),
      list_loop descend recurse f rest st = some st1 → st.visited.Nodup →
      st1.visited.Nodup := by
  intro rest
  induction rest with
  | nil =>
    intro st st1 h hn
    simp only [list_loop, Option.some.injEq] at h
    rw [← h]; exact hn
  | cons i rest ih =>
    intro st st1 h hn
    unfold list_loop at h
    by_cases hp : i ∉ st.visited ∨ i = f
    · rw [if_pos hp] at h
      by_cases hrec : recurse = true ∧ i ∉ st.visited
      · rw [if_pos hrec] at h
        cases hdesc : descend i { st with listed := st.listed ++ [i] } with
        | none => rw [hdesc] at h; cases h
        | some s2 =>
          rw [hdesc] at h
          exact ih s2 st1 h (hd i _ s2 hdesc hrec.2 hn)
      · rw [if_neg hrec] at h
        exact ih _ st1 h hn
    · rw [if_neg hp] at h
      have hrec : ¬ (recurse = true ∧ i ∉ st.visited) := fun hr => hp (Or.inl hr.2)
      rw [if_neg hrec] at h
      exact ih _ st1 h hn

/-- Every call of `list_functions` puts its function once, on entry, on the list of
visited functions; a call on an unvisited function keeps that list free of repetitions. -/
theorem list_functions_visited_nodup (rel : List (List Nat)) (recurse : Bool) :
    ∀ (fuel f : Nat) (st st1 : ListState),
      list_functions rel recurse fuel f st = some st1 → f ∉ st.visited →
      st.visited.Nodup → st1.visited.Nodup := by
  intro fuel
  induction fuel with
  | zero => intro f st st1 h; simp [list_functions] at h
  | succ fuel ih =>
    intro f st st1 h hf hn
    unfold list_functions at h
    exact list_loop_visited_nodup (list_functions rel recurse fuel) recurse f
      (fun i s s1 hs hi hsn => ih i s s1 hs hi hsn) (edges rel f)
      { st with visited := f :: st.visited } st1 h (List.nodup_cons.mpr ⟨hf, hn⟩)

/-- C22: for every finite call graph, self-calls and longer cycles included, and every
start function, `list_functions` started with all visit flags cleared terminates (a
recursion depth of one more than the number of functions is never exceeded), and it
recurses into each function at most once: the functions entered, each recorded once on
entry by `set_visited`, are all different. -/
theorem list_functions_terminates (rel : List (List Nat)) (f : Nat) (recurse : Bool) :
    ∃ st1, list_functions rel recurse (rel.length + 1) f ⟨[], []⟩ = some st1 ∧
      st1.visited.Nodup := by
  cases recurse with
  | false =>
    exact ⟨⟨[f], edges rel f⟩, list_functions_direct rel rel.length f, by simp⟩
  | true =>
    obtain ⟨st1, h1, _⟩ := list_functions_spec rel (rel.length + 1) f ⟨[], []⟩ (by simp)
      (by simp [unvisited_count_nil])
    exact ⟨st1, h1, list_functions_visited_nodup rel true _ f _ st1 h1 (by simp) (by simp)⟩

/-- C27 (code at the failing input): when function 0 calls function 1 and function 1
calls itself, the list of all functions called by 0 names function 1 twice. -/
theorem funlist_page_lists_self_recursive_callee_twice :
    funlist_page self_recursive_callee 0 'D' = some (FunList.functions [1, 1]) := by
  decide

/-! ## Replacement names for read-only identifiers -/

/-- C28 (code at the failing input): in the example workspace with `y.c` read-only the
class of `foo` has the `is_readonly` attribute and no replacement; a local request
carrying `sname=bar` for it records the replacement: the identifier ends flagged
replaced, with the replacement string `bar`. -/
theorem identifier_page_renames_readonly_identifier :
    (example_readonly_world.ecs 7).is_readonly = true ∧
      IdProp.find example_readonly_world.ids 7 =
        some ⟨"foo".toList, [], false, false⟩ ∧
      IdProp.find
          (identifier_page example_default_identifier (some "127.0.0.1") (some 7)
            (some "bar".toList) example_readonly_world.ids) 7 =
        some ⟨"foo".toList, "bar".toList, false, true⟩ := by
  decide

/-! ## Halstead volume at zero and the lower bound of cyclomatic complexity -/

/-- C30: for every function metrics record in which NUOP + NUID + NNCONST + NCLIT is
zero, `get_metric(em_chal)` is exactly 0 whatever the logarithm does, and for every
record the value the logarithm takes at zero has no part in the result; for every
record with non-negative counts `get_metric(em_ccycl1)` is at least 1. -/
theorem get_metric_chal_zero_and_ccycl1_bound [DecidableEq ℝ] (m : FunMetrics) :
    (m.count .em_nuop + m.count .em_nuid + m.count .em_nnconst + m.count .em_nclit = 0 →
      ∀ log : ℝ → ℝ, m.get_metric log .em_chal = 0) ∧
    (∀ log log1 : ℝ → ℝ, (∀ x, x ≠ 0 → log x = log1 x) →
      m.get_metric log .em_chal = m.get_metric log1 .em_chal) ∧
    (0 ≤ m.count .em_nif → 0 ≤ m.count .em_nswitch → 0 ≤ m.count .em_nfor →
      0 ≤ m.count .em_nwhile → 0 ≤ m.count .em_ndo →
      ∀ log : ℝ → ℝ, 1 ≤ m.get_metric log .em_ccycl1) := by
  refine ⟨?_, ?_, ?_⟩
  · intro h log
    have hr : ((m.count .em_nuop : ℝ) + (m.count .em_nuid : ℝ) + (m.count .em_nnconst : ℝ) +
        (m.count .em_nclit : ℝ)) = 0 := by
      have hc : ((m.count .em_nuop + m.count .em_nuid + m.count .em_nnconst +
          m.count .em_nclit : Int) : ℝ) = 0 := by rw [h]; simp
      simpa [Int.cast_add] using hc
    simp only [FunMetrics.get_metric, hr, if_true]
  · intro log log1 hlog
    simp only [FunMetrics.get_metric]
    by_cases hr : ((m.count .em_nuop : ℝ) + (m.count .em_nuid : ℝ) +
        (m.count .em_nnconst : ℝ) + (m.count .em_nclit : ℝ)) = 0
    · simp only [hr, if_true]
    · simp only [hr, if_false]
      rw [hlog _ hr, hlog 2 (by norm_num)]
  · intro h1 h2 h3 h4 h5 log
    simp only [FunMetrics.get_metric]
    have c1 : (0 : ℝ) ≤ (m.count .em_nif : ℝ) := Int.cast_nonneg.mpr h1
    have c2 : (0 : ℝ) ≤ (m.count .em_nswitch : ℝ) := Int.cast_nonneg.mpr h2
    have c3 : (0 : ℝ) ≤ (m.count .em_nfor : ℝ) := Int.cast_nonneg.mpr h3
    have c4 : (0 : ℝ) ≤ (m.count .em_nwhile : ℝ) := Int.cast_nonneg.mpr h4
    have c5 : (0 : ℝ) ≤ (m.count .em_ndo : ℝ) := Int.cast_nonneg.mpr h5
    linarith

theorem get_metric_chal_zero_and_ccycl1_bound_witness :
    (example_metrics.count .em_nuop + example_metrics.count .em_nuid +
        example_metrics.count .em_nnconst + example_metrics.count .em_nclit = 0 ∧
      example_metrics.get_metric Real.log .em_chal = 0) ∧
    (0 ≤ example_metrics.count .em_nif ∧ 0 ≤ example_metrics.count .em_nswitch ∧
      0 ≤ example_metrics.count .em_nfor ∧ 0 ≤ example_metrics.count .em_nwhile ∧
      0 ≤ example_metrics.count .em_ndo ∧
      1 ≤ example_metrics.get_metric Real.log .em_ccycl1) :=
  ⟨⟨by decide,
      (get_metric_chal_zero_and_ccycl1_bound example_metrics).1 (by decide) Real.log⟩,
    by decide, by decide, by decide, by decide, by decide,
    (get_metric_chal_zero_and_ccycl1_bound example_metrics).2.2 (by decide) (by decide)
      (by decide) (by decide) (by decide) Real.log⟩

/-! ## HTML encoding -/

theorem nbsp_times_succ (k : Nat) : nbsp_times (k + 1) = nbsp ++ nbsp_times k := by
  induction k with
  | zero => simp [nbsp_times]
  | succ k ih =>
    show nbsp_times (k + 1) ++ nbsp = nbsp ++ (nbsp_times k ++ nbsp)
    rw [ih, List.append_assoc]

theorem encoded_nbsp_times (k : Nat) (rest : List Char) (h : Encoded rest) :
    Encoded (nbsp_times k ++ rest) := by
  induction k with
  | zero => simpa [nbsp_times] using h
  | succ k ih =>
    rw [nbsp_times_succ, List.append_assoc]
    exact Encoded.nbsp _ ih

theorem count_nbsp_times (k : Nat) :
    (nbsp_times k).count '<' = 0 ∧ (nbsp_times k).count '>' = 0 := by
  induction k with
  | zero => simp [nbsp_times]
  | succ k ih =>
    have h1 : nbsp.count '<' = 0 := by decide
    have h2 : nbsp.count '>' = 0 := by decide
    simp [nbsp_times, List.count_append, ih.1, ih.2, h1, h2]

theorem build_spaces_length (n : Nat) : (build_spaces n).length = n := by
  simp [build_spaces]

theorem build_spaces_getElem (n i : Nat) (h : i < n) :
    (build_spaces n)[i]? = some (nbsp_times (n - i)) := by
  simp [build_spaces, List.getElem?_map, List.getElem?_range h]

/-- One call of `html(char)` with a positive tab width returns, keeps the cache in
order and writes the piece of the character. -/
theorem html_char_piece (tab_width : Int) (c : Char) (st : HtmlState) (htw : 0 < tab_width)
    (hwf : st.wf) :
    ∃ p st1, html_char tab_width c st = some (p, st1) ∧ st1.wf ∧ CharPiece c p := by
  by_cases h1 : c = '&'
  · subst h1
    exact ⟨"&amp;".toList, { st with column := st.column + 1 }, rfl, hwf, by simp [CharPiece]⟩
  by_cases h2 : c = '<'
  · subst h2
    exact ⟨"&lt;".toList, { st with column := st.column + 1 }, rfl, hwf, by simp [CharPiece]⟩
  by_cases h3 : c = '>'
  · subst h3
    exact ⟨"&gt;".toList, { st with column := st.column + 1 }, rfl, hwf, by simp [CharPiece]⟩
  by_cases h4 : c = ' '
  · subst h4
    exact ⟨nbsp, { st with column := st.column + 1 }, rfl, hwf, by simp [CharPiece]⟩
  by_cases h5 : c = '\t'
  · subst h5
    have hnot : ¬ tab_width ≤ 0 := by omega
    have hpos : 0 < tab_width.toNat := by omega
    have hidx : st.column % tab_width.toNat < tab_width.toNat := Nat.mod_lt _ hpos
    have hpiece : ∀ p : List Char, (∃ k, p = nbsp_times k) → CharPiece '\t' p := by
      intro p hp
      simpa [CharPiece] using hp
    have hcase : html_char tab_width '\t' st =
        (let spaces :=
          if (st.spaces.length : Int) ≠ tab_width then build_spaces tab_width.toNat
          else st.spaces
        match spaces[st.column % tab_width.toNat]? with
        | some t => some (t, { st with spaces := spaces })
        | none => none) := by
      simp [html_char, hnot]
    rw [hcase]
    by_cases hsz : (st.spaces.length : Int) ≠ tab_width
    · simp only [if_pos hsz]
      rw [build_spaces_getElem _ _ hidx]
      exact ⟨_, _, rfl, by simp [HtmlState.wf, build_spaces_length], hpiece _ ⟨_, rfl⟩⟩
    · have hlen : st.spaces.length = tab_width.toNat := by omega
      simp only [if_neg hsz]
      have hs : st.spaces = build_spaces tab_width.toNat := by
        rw [← hlen]; exact hwf
      rw [hs, build_spaces_getElem _ _ hidx]
      exact ⟨_, _, rfl, by simp [HtmlState.wf, build_spaces_length], hpiece _ ⟨_, rfl⟩⟩
  by_cases h6 : c = '\n'
  · subst h6
    exact ⟨"<br>\n".toList, { st with column := 0 }, rfl, hwf, by simp [CharPiece]⟩
  · refine ⟨if c = Char.ofNat 0 then [] else [c], { st with column := st.column + 1 },
      by simp [html_char, h1, h2, h3, h4, h5, h6], hwf, ?_⟩
    simp only [CharPiece, h1, h2, h3, h4, h5, h6, if_false]
    by_cases h0 : c = Char.ofNat 0
    · exact Or.inr (by simp [h0])
    · exact Or.inl (by simp [h0])

theorem char_piece_encoded (c : Char) (p rest : List Char) (h : CharPiece c p)
    (hr : Encoded rest) : Encoded (p ++ rest) := by
  unfold CharPiece at h
  by_cases h1 : c = '&'
  · simp only [h1, if_true] at h; rw [h]; exact Encoded.amp _ hr
  by_cases h2 : c = '<'
  · simp only [h1, h2, if_true, if_false] at h; rw [h]; exact Encoded.lt _ hr
  by_cases h3 : c = '>'
  · simp only [h1, h2, h3, if_true, if_false] at h; rw [h]; exact Encoded.gt _ hr
  by_cases h4 : c = ' '
  · simp only [h1, h2, h3, h4, if_true, if_false] at h; rw [h]; exact Encoded.nbsp _ hr
  by_cases h5 : c = '\t'
  · simp only [h1, h2, h3, h4, h5, if_true, if_false] at h
    obtain ⟨k, hk⟩ := h
    rw [hk]; exact encoded_nbsp_times k rest hr
  by_cases h6 : c = '\n'
  · simp only [h1, h2, h3, h4, h5, h6, if_true, if_false] at h; rw [h]; exact Encoded.br _ hr
  · simp only [h1, h2, h3, h4, h5, h6, if_false] at h
    rcases h with h | h
    · rw [h]; exact Encoded.plain c rest h1 h2 h3 hr
    · rw [h]; exact hr

theorem char_piece_count (c : Char) (p : List Char) (h : CharPiece c p) :
    p.count '<' = [c].count '\n' ∧ p.count '>' = [c].count '\n' := by
  unfold CharPiece at h
  by_cases h1 : c = '&'
  · simp only [h1, if_true] at h; rw [h, h1]; decide
  by_cases h2 : c = '<'
  · simp only [h1, h2, if_true, if_false] at h; rw [h, h2]; decide
  by_cases h3 : c = '>'
  · simp only [h1, h2, h3, if_true, if_false] at h; rw [h, h3]; decide
  by_cases h4 : c = ' '
  · simp only [h1, h2, h3, h4, if_true, if_false] at h; rw [h, h4]; decide
  by_cases h5 : c = '\t'
  · simp only [h1, h2, h3, h4, h5, if_true, if_false] at h
    obtain ⟨k, hk⟩ := h
    rw [hk, h5, (count_nbsp_times k).1, (count_nbsp_times k).2]; decide
  by_cases h6 : c = '\n'
  · simp only [h1, h2, h3, h4, h5, h6, if_true, if_false] at h; rw [h, h6]; decide
  · simp only [h1, h2, h3, h4, h5, h6, if_false] at h
    have hc : [c].count '\n' = 0 := by simp [List.count_singleton, h6]
    rcases h with h | h
    · rw [h, hc]; simp [List.count_singleton, h2, h3]
    · rw [h, hc]; simp

/-- C24: for every string `s`, with a positive tab width and the cached vector in
order, `html(s)` returns a text made, character by character of `s`, of the entities
`&amp;`, `&lt;`, `&gt;` and `&nbsp;` for `&`, `<`, `>` and a space, of `&nbsp;`
entities for a tab, of `<br>` and a newline for a newline, and of the other characters
unchanged; so every `&` in it starts one of the four entities, and it has as many `<`
and as many `>` as `s` has newlines, those of the `<br>`. -/
theorem html_string_encoded (tab_width : Int) (htw : 0 < tab_width) :
    ∀ (s : List Char) (st : HtmlState), st.wf →
      ∃ out st1, html_string tab_width s st = some (out, st1) ∧ st1.wf ∧
        (∃ pieces, out = pieces.flatten ∧ List.Forall₂ CharPiece s pieces) ∧
        Encoded out ∧ out.count '<' = s.count '\n' ∧ out.count '>' = s.count '\n' := by
  intro s
  induction s with
  | nil =>
    intro st hwf
    exact ⟨[], st, rfl, hwf, ⟨[], rfl, List.Forall₂.nil⟩, Encoded.nil, rfl, rfl⟩
  | cons c rest ih =>
    intro st hwf
    obtain ⟨p, st1, hp, hwf1, hpiece⟩ := html_char_piece tab_width c st htw hwf
    obtain ⟨r, st2, hr, hwf2, ⟨pieces, hj, hf⟩, henc, hlt, hgt⟩ := ih st1 hwf1
    refine ⟨p ++ r, st2, by simp only [html_string, hp, hr], hwf2,
      ⟨p :: pieces, by simp [hj], List.Forall₂.cons hpiece hf⟩,
      char_piece_encoded c p r hpiece henc, ?_, ?_⟩
    · rw [List.count_append, (char_piece_count c p hpiece).1, hlt, ← List.count_append]
      rfl
    · rw [List.count_append, (char_piece_count c p hpiece).2, hgt, ← List.count_append]
      rfl

theorem html_string_encoded_witness :
    (0 : Int) < 8 ∧ HtmlState.init.wf ∧
      ∃ out st1, html_string 8 "a <b>\t&\n".toList HtmlState.init = some (out, st1) ∧ st1.wf ∧
        (∃ pieces, out = pieces.flatten ∧ List.Forall₂ CharPiece "a <b>\t&\n".toList pieces) ∧
        Encoded out ∧ out.count '<' = "a <b>\t&\n".toList.count '\n' ∧
        out.count '>' = "a <b>\t&\n".toList.count '\n' :=
  ⟨by decide, rfl, html_string_encoded 8 (by decide) _ HtmlState.init rfl⟩

/-- C25 (code at the failing input): with tab width 8 and from a line start, `a` and a
tab are written as `a` and 7 `&nbsp;`, which brings the displayed column to 8; a second
tab right after adds 7 more `&nbsp;`, because `column` still holds 1, and leaves the
displayed column at 15. -/
theorem html_second_tab_misses_tab_stop :
    html_string 8 "a\t".toList HtmlState.init =
        some ('a' :: nbsp_times 7, ⟨1, build_spaces 8⟩) ∧
      html_string 8 "a\t\t".toList HtmlState.init =
        some ('a' :: nbsp_times 14, ⟨1, build_spaces 8⟩) := by
  decide

/-! ## The tab width option -/

theorem set_options_page_tab_width (req : OptionsRequest) (o o1 : Options)
    (h : set_options_page req o = some o1) (ho : 0 < o.tab_width) : 0 < o1.tab_width := by
  unfold set_options_page at h
  cases hs : req.set with
  | none => simp [hs] at h
  | some s =>
    simp only [hs] at h
    by_cases hc : s = "Cancel"
    · simp only [hc, if_true, Option.some.injEq] at h
      rw [← h]; exact ho
    · simp only [hc, if_false, Option.some.injEq] at h
      rw [← h]
      cases ht : req.tab_width with
      | none => simp
      | some v =>
        simp only
        by_cases hv : v ≤ 0
        · simp [hv]
        · simp only [hv, if_false]; omega

/-- C29: `tab_width` is strictly positive in every reachable state: it starts at 8 and
after every sequence of `set_options_page` requests (a missing, unparsable, zero or
negative `tab_width` included) it is greater than 0, so `html` of a tab returns: it
neither divides by zero nor indexes `spaces` out of range. -/
theorem tab_width_positive (reqs : List OptionsRequest) (o : Options)
    (h : options_after reqs = some o) :
    Options.init.tab_width = 8 ∧ 0 < o.tab_width ∧
      ∀ st : HtmlState, st.wf →
        ∃ p st1, html_char o.tab_width '\t' st = some (p, st1) ∧ st1.wf := by
  have hpos : 0 < o.tab_width := by
    induction reqs generalizing o with
    | nil =>
      simp only [options_after, Option.some.injEq] at h
      rw [← h]; decide
    | cons req earlier ih =>
      unfold options_after at h
      cases he : options_after earlier with
      | none => simp [he] at h
      | some o0 =>
        simp only [he] at h
        exact set_options_page_tab_width req o0 o h (ih o0 he)
  refine ⟨rfl, hpos, ?_⟩
  intro st hwf
  obtain ⟨p, st1, hp, hwf1, _⟩ := html_char_piece o.tab_width '\t' st hpos hwf
  exact ⟨p, st1, hp, hwf1⟩

theorem tab_width_positive_witness :
    options_after
        [⟨some "OK", false, false, false, false, false, some (-3)⟩,
          ⟨some "Apply", true, false, false, true, false, some 4⟩,
          ⟨some "OK", false, false, false, false, false, none⟩] =
        some ⟨false, false, false, false, false, 8⟩ ∧
      (0 : Int) < 8 :=
  ⟨by decide,
    (tab_width_positive
      [⟨some "OK", false, false, false, false, false, some (-3)⟩,
        ⟨some "Apply", true, false, false, true, false, some 4⟩,
        ⟨some "OK", false, false, false, false, false, none⟩]
      ⟨false, false, false, false, false, 8⟩ (by decide)).2.1⟩

/-! ## The file query -/

theorem match_any_iff (q : FileQuery) (metric : Nat → Int) :
    ∀ (k j : Nat), match_any q metric j k = true ↔
      ∃ i, j ≤ i ∧ i < j + k ∧ q.op i ≠ 0 ∧
        Query.apply (q.op i) (metric i) (q.n i) = true := by
  intro k
  induction k with
  | zero => intro j; simp [match_any]; intro i h1 h2; omega
  | succ k ih =>
    intro j
    unfold match_any
    by_cases h : q.op j ≠ 0 ∧ Query.apply (q.op j) (metric j) (q.n j) = true
    · rw [if_pos h]
      exact ⟨fun _ => ⟨j, le_refl _, by omega, h.1, h.2⟩, fun _ => rfl⟩
    · rw [if_neg h, ih]
      constructor
      · rintro ⟨i, h1, h2, h3⟩
        exact ⟨i, by omega, by omega, h3⟩
      · rintro ⟨i, h1, h2, h3, h4⟩
        have hne : i ≠ j := fun hij => h (hij ▸ ⟨h3, h4⟩)
        exact ⟨i, by omega, by omega, h3, h4⟩

theorem match_all_iff (q : FileQuery) (metric : Nat → Int) :
    ∀ (k j : Nat), match_all q metric j k = true ↔
      ∀ i, j ≤ i → i < j + k → q.op i ≠ 0 →
        Query.apply (q.op i) (metric i) (q.n i) = true := by
  intro k
  induction k with
  | zero => intro j; simp [match_all]; intro i h1 h2; omega
  | succ k ih =>
    intro j
    unfold match_all
    by_cases h : q.op j ≠ 0 ∧ Query.apply (q.op j) (metric j) (q.n j) = false
    · rw [if_pos h]
      constructor
      · intro hf; cases hf
      · intro hall
        have := hall j (le_refl _) (by omega) h.1
        rw [h.2] at this; cases this
    · rw [if_neg h, ih]
      constructor
      · intro hall i h1 h2 h3
        by_cases hij : i = j
        · subst hij
          cases ha : Query.apply (q.op i) (metric i) (q.n i) with
          | true => rfl
          | false => exact absurd ⟨h3, ha⟩ h
        · exact hall i (by omega) (by omega) h3
      · intro hall i h1 h2 h3
        exact hall i (by omega) (by omega) h3

theorem xfquery_files_mem (metric_max : Nat) (q : FileQuery) (current_project : Nat)
    (tbl : FileTable) (hq : ∀ r, ∃ b, xfquery_add metric_max q r = some b) :
    ∀ (files sorted_files : List Fileid),
      ∃ l, xfquery_files metric_max q current_project tbl files sorted_files = some l ∧
        ∀ f, f ∈ l ↔ f ∈ sorted_files ∨
          (f ∈ files ∧ (current_project = 0 ∨ (tbl f).get_attribute current_project = true) ∧
            (q.match_fre = true → q.fre (tbl f).path = true) ∧
            xfquery_add metric_max q (tbl f) = some true) := by
  intro files
  induction files with
  | nil => intro s; exact ⟨s, rfl, by simp⟩
  | cons i rest ih =>
    intro s
    unfold xfquery_files
    by_cases hp : current_project ≠ 0 ∧ (tbl i).get_attribute current_project = false
    · rw [if_pos hp]
      obtain ⟨l, hl, hmem⟩ := ih s
      refine ⟨l, hl, fun f => ?_⟩
      rw [hmem f]
      constructor
      · rintro (h | ⟨h1, h2⟩)
        · exact Or.inl h
        · exact Or.inr ⟨List.mem_cons_of_mem _ h1, h2⟩
      · rintro (h | ⟨h1, h2, h3⟩)
        · exact Or.inl h
        · rcases List.mem_cons.mp h1 with rfl | h1
          · rcases h2 with h2 | h2
            · exact absurd h2 hp.1
            · rw [hp.2] at h2; cases h2
          · exact Or.inr ⟨h1, h2, h3⟩
    · rw [if_neg hp]
      by_cases hre : q.match_fre = true ∧ q.fre (tbl i).path = false
      · rw [if_pos hre]
        obtain ⟨l, hl, hmem⟩ := ih s
        refine ⟨l, hl, fun f => ?_⟩
        rw [hmem f]
        constructor
        · rintro (h | ⟨h1, h2⟩)
          · exact Or.inl h
          · exact Or.inr ⟨List.mem_cons_of_mem _ h1, h2⟩
        · rintro (h | ⟨h1, h2, h3, h4⟩)
          · exact Or.inl h
          · rcases List.mem_cons.mp h1 with rfl | h1
            · have := h3 hre.1
              rw [hre.2] at this; cases this
            · exact Or.inr ⟨h1, h2, h3, h4⟩
      · rw [if_neg hre]
        obtain ⟨b, hb⟩ := hq (tbl i)
        rw [hb]
        simp only
        obtain ⟨l, hl, hmem⟩ := ih (if b = true then IFSet.insert i s else s)
        refine ⟨l, hl, fun f => ?_⟩
        rw [hmem f]
        have hpass : current_project = 0 ∨ (tbl i).get_attribute current_project = true := by
          by_cases h0 : current_project = 0
          · exact Or.inl h0
          · cases ha : (tbl i).get_attribute current_project with
            | true => exact Or.inr rfl
            | false => exact absurd ⟨h0, ha⟩ hp
        have hfre : q.match_fre = true → q.fre (tbl i).path = true := by
          intro hm
          cases ha : q.fre (tbl i).path with
          | true => rfl
          | false => exact absurd ⟨hm, ha⟩ hre
        cases b with
        | true =>
          simp only [if_true, IFSet.mem_insert]
          constructor
          · rintro ((h | h) | ⟨h1, h2⟩)
            · exact Or.inr ⟨h ▸ List.mem_cons_self _ _, h ▸ hpass, h ▸ hfre, h ▸ hb⟩
            · exact Or.inl h
            · exact Or.inr ⟨List.mem_cons_of_mem _ h1, h2⟩
          · rintro (h | ⟨h1, h2⟩)
            · exact Or.inl (Or.inr h)
            · rcases List.mem_cons.mp h1 with h1 | h1
              · exact Or.inl (Or.inl h1)
              · exact Or.inr ⟨h1, h2⟩
        | false =>
          simp only [Bool.false_eq_true, if_false]
          constructor
          · rintro (h | ⟨h1, h2⟩)
            · exact Or.inl h
            · exact Or.inr ⟨List.mem_cons_of_mem _ h1, h2⟩
          · rintro (h | ⟨h1, h2, h3, h4⟩)
            · exact Or.inl h
            · rcases List.mem_cons.mp h1 with rfl | h1
              · rw [hb] at h4; cases h4
              · exact Or.inr ⟨h1, h2, h3, h4⟩

theorem xfquery_add_any (metric_max : Nat) (q : FileQuery) (r : FileRec)
    (hq : q.match_type = 'Y') :
    ∃ b, xfquery_add metric_max q r = some b ∧
      (b = true ↔
        (∃ j, j < metric_max ∧ q.op j ≠ Query.ec_ignore ∧
          Query.apply (q.op j) (r.metric j) (q.n j) = true) ∨
        (q.ro = true ∧ r.readonly = true) ∨ (q.writable = true ∧ r.readonly = false)) := by
  have h : xfquery_add metric_max q r = some (match_any q r.metric 0 metric_max ||
      (q.ro && r.readonly) || (q.writable && !r.readonly)) := by
    simp only [xfquery_add, hq, if_true]
  refine ⟨_, h, ?_⟩
  simp only [Bool.or_eq_true, Bool.and_eq_true, Bool.not_eq_true', match_any_iff,
    Query.ec_ignore, Nat.zero_add, Nat.zero_le, true_and, or_assoc]

theorem xfquery_add_all (metric_max : Nat) (q : FileQuery) (r : FileRec)
    (hq : q.match_type = 'L') :
    ∃ b, xfquery_add metric_max q r = some b ∧
      (b = true ↔
        (∀ j, j < metric_max → q.op j ≠ Query.ec_ignore →
          Query.apply (q.op j) (r.metric j) (q.n j) = true) ∧
        (q.ro = true → r.readonly = true) ∧ (q.writable = true → r.readonly = false)) := by
  have hne : q.match_type ≠ 'Y' := by rw [hq]; decide
  have h : xfquery_add metric_max q r = some (match_all q r.metric 0 metric_max &&
      (!q.ro || r.readonly) && (!q.writable || !r.readonly)) := by
    unfold xfquery_add
    rw [if_neg hne, if_pos hq]
  refine ⟨_, h, ?_⟩
  simp only [Bool.and_eq_true, Bool.or_eq_true, Bool.not_eq_true', match_all_iff,
    Query.ec_ignore, Nat.zero_add, Nat.zero_le, true_implies, and_assoc]
  constructor
  · rintro ⟨h1, h2, h3⟩
    refine ⟨h1, ?_, ?_⟩
    · intro hro
      rcases h2 with h2 | h2
      · rw [hro] at h2; cases h2
      · exact h2
    · intro hw
      rcases h3 with h3 | h3
      · rw [hw] at h3; cases h3
      · exact h3
  · rintro ⟨h1, h2, h3⟩
    refine ⟨h1, ?_, ?_⟩
    · cases hro : q.ro with
      | false => exact Or.inl rfl
      | true => exact Or.inr (h2 hro)
    · cases hw : q.writable with
      | false => exact Or.inl rfl
      | true => exact Or.inr (h3 hw)

theorem xfquery_files_any (metric_max current_project : Nat) (tbl : FileTable)
    (files : List Fileid) (q : FileQuery) (hq : q.match_type = 'Y') :
    ∃ l, xfquery_files metric_max q current_project tbl files [] = some l ∧
      ∀ f, f ∈ l ↔ f ∈ files ∧
        (current_project = 0 ∨ (tbl f).get_attribute current_project = true) ∧
        (q.match_fre = true → q.fre (tbl f).path = true) ∧
        ((∃ j, j < metric_max ∧ q.op j ≠ Query.ec_ignore ∧
            Query.apply (q.op j) ((tbl f).metric j) (q.n j) = true) ∨
          (q.ro = true ∧ (tbl f).readonly = true) ∨
          (q.writable = true ∧ (tbl f).readonly = false)) := by
  obtain ⟨l, hl, hmem⟩ := xfquery_files_mem metric_max q current_project tbl
    (fun r => (xfquery_add_any metric_max q r hq).imp fun _ h => h.1) files []
  refine ⟨l, hl, fun f => ?_⟩
  rw [hmem f]
  obtain ⟨b, hb, hiff⟩ := xfquery_add_any metric_max q (tbl f) hq
  rw [hb, ← hiff]
  simp

theorem xfquery_files_all (metric_max current_project : Nat) (tbl : FileTable)
    (files : List Fileid) (q : FileQuery) (hq : q.match_type = 'L') :
    ∃ l, xfquery_files metric_max q current_project tbl files [] = some l ∧
      ∀ f, f ∈ l ↔ f ∈ files ∧
        (current_project = 0 ∨ (tbl f).get_attribute current_project = true) ∧
        (q.match_fre = true → q.fre (tbl f).path = true) ∧
        ((∀ j, j < metric_max → q.op j ≠ Query.ec_ignore →
            Query.apply (q.op j) ((tbl f).metric j) (q.n j) = true) ∧
          (q.ro = true → (tbl f).readonly = true) ∧
          (q.writable = true → (tbl f).readonly = false)) := by
  obtain ⟨l, hl, hmem⟩ := xfquery_files_mem metric_max q current_project tbl
    (fun r => (xfquery_add_all metric_max q r hq).imp fun _ h => h.1) files []
  refine ⟨l, hl, fun f => ?_⟩
  rw [hmem f]
  obtain ⟨b, hb, hiff⟩ := xfquery_add_all metric_max q (tbl f) hq
  rw [hb, ← hiff]
  simp

theorem xfquery_files_index (metric_max current_project : Nat) (tbl : FileTable)
    (files : List Fileid) (ro writable : Bool) :
    ∃ l, xfquery_files metric_max (index_file_query ro writable) current_project tbl
        files [] = some l ∧
      ∀ f, f ∈ l ↔ f ∈ files ∧
        (current_project = 0 ∨ (tbl f).get_attribute current_project = true) ∧
        ((ro = true ∧ (tbl f).readonly = true) ∨
          (writable = true ∧ (tbl f).readonly = false)) := by
  obtain ⟨l, hl, hmem⟩ := xfquery_files_any metric_max current_project tbl files
    (index_file_query ro writable) rfl
  refine ⟨l, hl, fun f => ?_⟩
  rw [hmem f]
  simp [index_file_query, Query.ec_ignore]

/-- C23: the file filter of `xfquery_page` always completes when `match` is `Y` or `L`,
and of the files that pass the project and file name restrictions it selects, with
`Y`, those for which at least one marked criterion holds (a metric whose operator is
not `ec_ignore` satisfies `Query::apply`, or `ro` is set and the file is read-only, or
`writable` is set and the file is not read-only) and, with `L`, those for which every
marked criterion holds. The three file queries of the index page therefore select all
files, exactly the read-only files and exactly the writable files (of the current
project, when one is set). -/
theorem xfquery_page_selects_marked_criteria (metric_max current_project : Nat)
    (tbl : FileTable) (files : List Fileid) :
    (∀ q : FileQuery, q.match_type = 'Y' →
      ∃ l, xfquery_files metric_max q current_project tbl files [] = some l ∧
        ∀ f, f ∈ l ↔ f ∈ files ∧
          (current_project = 0 ∨ (tbl f).get_attribute current_project = true) ∧
          (q.match_fre = true → q.fre (tbl f).path = true) ∧
          ((∃ j, j < metric_max ∧ q.op j ≠ Query.ec_ignore ∧
              Query.apply (q.op j) ((tbl f).metric j) (q.n j) = true) ∨
            (q.ro = true ∧ (tbl f).readonly = true) ∨
            (q.writable = true ∧ (tbl f).readonly = false))) ∧
    (∀ q : FileQuery, q.match_type = 'L' →
      ∃ l, xfquery_files metric_max q current_project tbl files [] = some l ∧
        ∀ f, f ∈ l ↔ f ∈ files ∧
          (current_project = 0 ∨ (tbl f).get_attribute current_project = true) ∧
          (q.match_fre = true → q.fre (tbl f).path = true) ∧
          ((∀ j, j < metric_max → q.op j ≠ Query.ec_ignore →
              Query.apply (q.op j) ((tbl f).metric j) (q.n j) = true) ∧
            (q.ro = true → (tbl f).readonly = true) ∧
            (q.writable = true → (tbl f).readonly = false))) ∧
    (∃ l, xfquery_files metric_max (index_file_query true true) current_project tbl
        files [] = some l ∧
      ∀ f, f ∈ l ↔ f ∈ files ∧
        (current_project = 0 ∨ (tbl f).get_attribute current_project = true)) ∧
    (∃ l, xfquery_files metric_max (index_file_query true false) current_project tbl
        files [] = some l ∧
      ∀ f, f ∈ l ↔ f ∈ files ∧
        (current_project = 0 ∨ (tbl f).get_attribute current_project = true) ∧
        (tbl f).readonly = true) ∧
    (∃ l, xfquery_files metric_max (index_file_query false true) current_project tbl
        files [] = some l ∧
      ∀ f, f ∈ l ↔ f ∈ files ∧
        (current_project = 0 ∨ (tbl f).get_attribute current_project = true) ∧
        (tbl f).readonly = false) := by
  refine ⟨fun q hq => xfquery_files_any metric_max current_project tbl files q hq,
    fun q hq => xfquery_files_all metric_max current_project tbl files q hq, ?_, ?_, ?_⟩
  · obtain ⟨l, hl, hmem⟩ := xfquery_files_index metric_max current_project tbl files
      true true
    refine ⟨l, hl, fun f => ?_⟩
    rw [hmem f]
    cases (tbl f).readonly <;> simp
  · obtain ⟨l, hl, hmem⟩ := xfquery_files_index metric_max current_project tbl files
      true false
    refine ⟨l, hl, fun f => ?_⟩
    rw [hmem f]
    simp
  · obtain ⟨l, hl, hmem⟩ := xfquery_files_index metric_max current_project tbl files
      false true
    refine ⟨l, hl, fun f => ?_⟩
    rw [hmem f]
    simp

/-! ## The include warnings -/

theorem Sites.find_after_insert (k1 : Int) (s : SiteInfo) :
    ∀ (m : Sites), Sites.find k1 m = none →
      ∀ k, Sites.find k (Sites.insert k1 s m) = if k1 = k then some s else Sites.find k m := by
  intro m
  induction m with
  | nil => intro _ k; simp [Sites.insert, Sites.find]
  | cons p rest ih =>
    obtain ⟨k2, s2⟩ := p
    intro hnone k
    unfold Sites.find at hnone
    by_cases h21 : k2 = k1
    · rw [if_pos h21] at hnone; cases hnone
    · rw [if_neg h21] at hnone
      unfold Sites.insert
      by_cases hlt : k1 < k2
      · rw [if_pos hlt]
        conv_lhs => unfold Sites.find
      · rw [if_neg hlt, if_neg h21]
        conv_lhs => unfold Sites.find
        rw [ih hnone k]
        by_cases h2k : k2 = k
        · have : ¬ k1 = k := fun h => h21 (h2k.trans h.symm)
          rw [if_pos h2k, if_neg this]
          conv_rhs => unfold Sites.find
          rw [if_pos h2k]
        · rw [if_neg h2k]
          conv_rhs => unfold Sites.find
          rw [if_neg h2k]

theorem Sites.find_update (k1 : Int) (r : Bool) (f : Fileid) :
    ∀ (m : Sites) (k : Int), Sites.find k (Sites.update k1 r f m) =
      if k1 = k then (Sites.find k m).map (fun x => x.update r f) else Sites.find k m := by
  intro m
  induction m with
  | nil => intro k; simp [Sites.update, Sites.find]
  | cons p rest ih =>
    obtain ⟨k2, s2⟩ := p
    intro k
    unfold Sites.update
    by_cases h21 : k2 = k1
    · rw [if_pos h21]
      unfold Sites.find
      by_cases h2k : k2 = k
      · have : k1 = k := h21.symm.trans h2k
        rw [if_pos h2k, if_pos h2k, if_pos this]; rfl
      · have : ¬ k1 = k := fun h => h2k (h21.trans h)
        rw [if_neg h2k, if_neg h2k, if_neg this]
    · rw [if_neg h21]
      conv_lhs => unfold Sites.find
      conv_rhs => unfold Sites.find
      by_cases h2k : k2 = k
      · have : ¬ k1 = k := fun h => h21 (h2k.trans h.symm)
        rw [if_pos h2k, if_neg this, if_pos h2k]
      · rw [if_neg h2k, ih k, if_neg h2k]

theorem Sites.keys_update (k1 : Int) (r : Bool) (f : Fileid) :
    ∀ (m : Sites), (Sites.update k1 r f m).map Prod.fst = m.map Prod.fst := by
  intro m
  induction m with
  | nil => rfl
  | cons p rest ih =>
    obtain ⟨k2, s2⟩ := p
    unfold Sites.update
    by_cases h21 : k2 = k1
    · rw [if_pos h21]; rfl
    · rw [if_neg h21]; simp only [List.map_cons, ih]

theorem Sites.find_none_iff (k : Int) :
    ∀ (m : Sites), Sites.find k m = none ↔ k ∉ m.map Prod.fst := by
  intro m
  induction m with
  | nil => simp [Sites.find]
  | cons p rest ih =>
    obtain ⟨k2, s2⟩ := p
    unfold Sites.find
    by_cases h2k : k2 = k
    · rw [if_pos h2k]; simp [h2k]
    · rw [if_neg h2k, ih]
      simp only [List.map_cons, List.mem_cons, not_or]
      exact ⟨fun h => ⟨fun e => h2k e.symm, h⟩, fun h => h.2⟩

theorem Sites.mem_iff_find (k : Int) (s : SiteInfo) :
    ∀ (m : Sites), (m.map Prod.fst).Nodup → ((k, s) ∈ m ↔ Sites.find k m = some s) := by
  intro m
  induction m with
  | nil => intro _; simp [Sites.find]
  | cons p rest ih =>
    obtain ⟨k2, s2⟩ := p
    intro hnd
    rw [List.map_cons, List.nodup_cons] at hnd
    unfold Sites.find
    by_cases h2k : k2 = k
    · rw [if_pos h2k]
      subst h2k
      simp only [List.mem_cons, Prod.mk.injEq, true_and, Option.some.injEq]
      constructor
      · rintro (h | h)
        · exact h.symm
        · exact absurd (List.mem_map_of_mem Prod.fst h) hnd.1
      · intro h; exact Or.inl h.symm
    · rw [if_neg h2k, ← ih hnd.2]
      simp only [List.mem_cons, Prod.mk.injEq]
      constructor
      · rintro (⟨h, _⟩ | h)
        · exact absurd h.symm h2k
        · exact h
      · intro h; exact Or.inr h

theorem Sites.keys_insert (k1 : Int) (s : SiteInfo) :
    ∀ (m : Sites), k1 ∉ m.map Prod.fst →
      (∀ k, k ∈ (Sites.insert k1 s m).map Prod.fst ↔ k = k1 ∨ k ∈ m.map Prod.fst) ∧
      ((m.map Prod.fst).Nodup → ((Sites.insert k1 s m).map Prod.fst).Nodup) := by
  intro m
  induction m with
  | nil => intro _; simp [Sites.insert]
  | cons p rest ih =>
    obtain ⟨k2, s2⟩ := p
    intro hnot
    simp only [List.map_cons, List.mem_cons, not_or] at hnot
    obtain ⟨hmem, hnd⟩ := ih hnot.2
    unfold Sites.insert
    by_cases hlt : k1 < k2
    · rw [if_pos hlt]
      refine ⟨fun k => by simp, fun h => ?_⟩
      simp only [List.map_cons, List.nodup_cons, List.mem_cons, not_or] at h ⊢
      exact ⟨⟨hnot.1, hnot.2⟩, h⟩
    · have h21 : ¬ k2 = k1 := fun h => hnot.1 h.symm
      rw [if_neg hlt, if_neg h21]
      refine ⟨fun k => ?_, fun h => ?_⟩
      · simp only [List.map_cons, List.mem_cons, hmem k]
        tauto
      · simp only [List.map_cons, List.nodup_cons] at h ⊢
        refine ⟨fun hin => ?_, hnd h.2⟩
        rcases (hmem k2).mp hin with h' | h'
        · exact h21 h'
        · exact h.1 h'

theorem SitesOf.nil : SitesOf (fun _ _ _ => False) [] := by
  refine ⟨List.nodup_nil, fun k => ?_, fun k x h => ?_⟩
  · simp [Sites.find]
  · simp [Sites.find] at h

theorem SitesOf.step (E : Int → Bool → Fileid → Prop) (m : Sites) (k1 : Int) (r1 : Bool)
    (f1 : Fileid) (h : SitesOf E m) :
    SitesOf (fun k r f => E k r f ∨ (k = k1 ∧ r = r1 ∧ f = f1)) (site_step k1 r1 f1 m) := by
  obtain ⟨hnd, hnone, hsome⟩ := h
  unfold site_step
  cases hf : Sites.find k1 m with
  | none =>
    simp only
    have hnot : k1 ∉ m.map Prod.fst := (Sites.find_none_iff k1 m).mp hf
    have hfind := Sites.find_after_insert k1 (SiteInfo.init r1 f1) m hf
    refine ⟨(Sites.keys_insert k1 _ m hnot).2 hnd, fun k => ?_, fun k x hx => ?_⟩
    · rw [hfind k]
      by_cases hk : k1 = k
      · rw [if_pos hk]
        constructor
        · intro h; cases h
        · intro h; exact absurd (Or.inr ⟨hk.symm, rfl, rfl⟩) (h r1 f1)
      · rw [if_neg hk, hnone k]
        constructor
        · intro h r f hor
          rcases hor with hor | ⟨hor, _⟩
          · exact h r f hor
          · exact hk hor.symm
        · intro h r f hE
          exact h r f (Or.inl hE)
    · rw [hfind k] at hx
      by_cases hk : k1 = k
      · rw [if_pos hk] at hx
        cases hx
        subst hk
        have hE : ∀ r f, ¬ E k1 r f := (hnone k1).mp hf
        refine ⟨?_, fun f => ?_, ?_⟩
        · simp only [SiteInfo.init]
          constructor
          · intro hr; exact ⟨f1, Or.inr ⟨trivial, hr.symm, rfl⟩⟩
          · rintro ⟨f, hor | ⟨_, hr, _⟩⟩
            · exact absurd hor (hE true f)
            · exact hr.symm
        · simp only [SiteInfo.init, IFSet.mem_insert, List.not_mem_nil, or_false]
          constructor
          · intro hff; exact ⟨r1, Or.inr ⟨trivial, rfl, hff⟩⟩
          · rintro ⟨r, hor | ⟨_, _, hff⟩⟩
            · exact absurd hor (hE r f)
            · exact hff
        · exact IFSet.insert_sorted f1 [] List.sorted_nil
      · rw [if_neg hk] at hx
        obtain ⟨h1, h2, h3⟩ := hsome k x hx
        refine ⟨?_, fun f => ?_, h3⟩
        · rw [h1]
          constructor
          · rintro ⟨f, hE⟩; exact ⟨f, Or.inl hE⟩
          · rintro ⟨f, hor | ⟨hor, _⟩⟩
            · exact ⟨f, hor⟩
            · exact absurd hor.symm hk
        · rw [h2 f]
          constructor
          · rintro ⟨r, hE⟩; exact ⟨r, Or.inl hE⟩
          · rintro ⟨r, hor | ⟨hor, _⟩⟩
            · exact ⟨r, hor⟩
            · exact absurd hor.symm hk
  | some x1 =>
    simp only
    have hfind := Sites.find_update k1 r1 f1 m
    refine ⟨by rw [Sites.keys_update]; exact hnd, fun k => ?_, fun k x hx => ?_⟩
    · rw [hfind k]
      by_cases hk : k1 = k
      · rw [if_pos hk]
        subst hk
        rw [hf]
        constructor
        · intro h; cases h
        · intro h; exact absurd (Or.inr ⟨rfl, rfl, rfl⟩) (h r1 f1)
      · rw [if_neg hk, hnone k]
        constructor
        · intro h r f hor
          rcases hor with hor | ⟨hor, _⟩
          · exact h r f hor
          · exact hk hor.symm
        · intro h r f hE
          exact h r f (Or.inl hE)
    · rw [hfind k] at hx
      by_cases hk : k1 = k
      · rw [if_pos hk] at hx
        subst hk
        rw [hf] at hx
        cases hx
        obtain ⟨h1, h2, h3⟩ := hsome k1 x1 hf
        refine ⟨?_, fun f => ?_, ?_⟩
        · simp only [SiteInfo.update, Bool.or_eq_true, h1]
          constructor
          · rintro (⟨f, hE⟩ | hr)
            · exact ⟨f, Or.inl hE⟩
            · exact ⟨f1, Or.inr ⟨trivial, hr.symm, rfl⟩⟩
          · rintro ⟨f, hor | ⟨_, hr, _⟩⟩
            · exact Or.inl ⟨f, hor⟩
            · exact Or.inr hr.symm
        · simp only [SiteInfo.update, IFSet.mem_insert, h2 f]
          constructor
          · rintro (hff | ⟨r, hE⟩)
            · exact ⟨r1, Or.inr ⟨trivial, rfl, hff⟩⟩
            · exact ⟨r, Or.inl hE⟩
          · rintro ⟨r, hor | ⟨_, _, hff⟩⟩
            · exact Or.inr ⟨r, hor⟩
            · exact Or.inl hff
        · exact IFSet.insert_sorted f1 x1.files h3
      · rw [if_neg hk] at hx
        obtain ⟨h1, h2, h3⟩ := hsome k x hx
        refine ⟨?_, fun f => ?_, h3⟩
        · rw [h1]
          constructor
          · rintro ⟨f, hE⟩; exact ⟨f, Or.inl hE⟩
          · rintro ⟨f, hor | ⟨hor, _⟩⟩
            · exact ⟨f, hor⟩
            · exact absurd hor.symm hk
        · rw [h2 f]
          constructor
          · rintro ⟨r, hE⟩; exact ⟨r, Or.inl hE⟩
          · rintro ⟨r, hor | ⟨hor, _⟩⟩
            · exact ⟨r, hor⟩
            · exact absurd hor.symm hk

theorem SitesOf.congr (E E1 : Int → Bool → Fileid → Prop) (m : Sites)
    (hE : ∀ k r f, E k r f ↔ E1 k r f) (h : SitesOf E m) : SitesOf E1 m := by
  have : E = E1 := by
    funext k r f
    exact propext (hE k r f)
  rw [← this]; exact h

theorem SitesOf.lines (id : IncDetails) (f2 : Fileid) :
    ∀ (ks : List Int) (E : Int → Bool → Fileid → Prop) (m : Sites), SitesOf E m →
      SitesOf (fun k r f => E k r f ∨ (k ∈ ks ∧ r = id.required ∧ f = f2))
        (site_lines id f2 ks m) := by
  intro ks
  induction ks with
  | nil =>
    intro E m h
    exact SitesOf.congr E _ m (fun k r f => by simp) h
  | cons k1 ks ih =>
    intro E m h
    unfold site_lines
    refine SitesOf.congr _ _ _ (fun k r f => ?_) (ih _ _ (SitesOf.step E m k1 id.required f2 h))
    simp only [List.mem_cons]
    tauto

theorem SitesOf.includes :
    ∀ (incs : List (Fileid × IncDetails)) (E : Int → Bool → Fileid → Prop) (m : Sites),
      SitesOf E m →
      SitesOf (fun k r f => E k r f ∨
          ∃ id, (f, id) ∈ incs ∧ id.direct = true ∧ k ∈ id.lines ∧ r = id.required)
        (site_includes incs m) := by
  intro incs
  induction incs with
  | nil =>
    intro E m h
    exact SitesOf.congr E _ m (fun k r f => by simp) h
  | cons p rest ih =>
    obtain ⟨f2, id⟩ := p
    intro E m h
    unfold site_includes
    cases hd : id.direct with
    | false =>
      rw [if_pos rfl]
      refine SitesOf.congr _ _ _ (fun k r f => ?_) (ih E m h)
      simp only [List.mem_cons, Prod.mk.injEq]
      constructor
      · rintro (hE | ⟨id1, h1, h2⟩)
        · exact Or.inl hE
        · exact Or.inr ⟨id1, Or.inr h1, h2⟩
      · rintro (hE | ⟨id1, (⟨_, h1⟩ | h1), h2⟩)
        · exact Or.inl hE
        · subst h1; rw [hd] at h2; cases h2.1
        · exact Or.inr ⟨id1, h1, h2⟩
    | true =>
      rw [if_neg (by simp)]
      refine SitesOf.congr _ _ _ (fun k r f => ?_)
        (ih _ _ (SitesOf.lines id f2 id.lines E m h))
      simp only [List.mem_cons, Prod.mk.injEq]
      constructor
      · rintro ((hE | ⟨h1, h2, h3⟩) | ⟨id1, h1, h2⟩)
        · exact Or.inl hE
        · exact Or.inr ⟨id, Or.inl ⟨h3, rfl⟩, hd, h1, h2⟩
        · exact Or.inr ⟨id1, Or.inr h1, h2⟩
      · rintro (hE | ⟨id1, (⟨h0, h1⟩ | h1), h2, h3, h4⟩)
        · exact Or.inl (Or.inl hE)
        · subst h1; exact Or.inl (Or.inr ⟨h3, h4, h0⟩)
        · exact Or.inr ⟨id1, h1, h2, h3, h4⟩

theorem mem_report_sites (i : Fileid) (w : Warning) :
    ∀ (m : Sites), w ∈ report_sites i m ↔
      w.file = i ∧ ∃ x, (w.line, x) ∈ m ∧ x.required = false ∧ w.included ∈ x.files := by
  intro m
  induction m with
  | nil => simp [report_sites]
  | cons p rest ih =>
    obtain ⟨line, s⟩ := p
    unfold report_sites
    rw [List.mem_append, ih]
    constructor
    · rintro (h | ⟨h1, x, h2, h3⟩)
      · cases hr : s.required with
        | true => rw [hr] at h; simp at h
        | false =>
          rw [hr, if_pos rfl, List.mem_map] at h
          obtain ⟨fi, hfi, rfl⟩ := h
          exact ⟨rfl, s, List.mem_cons_self _ _, hr, hfi⟩
      · exact ⟨h1, x, List.mem_cons_of_mem _ h2, h3⟩
    · rintro ⟨h1, x, h2, h3, h4⟩
      rcases List.mem_cons.mp h2 with h2 | h2
      · left
        cases h2
        rw [h3, if_pos rfl, List.mem_map]
        exact ⟨w.included, h4, by cases w; cases h1; rfl⟩
      · exact Or.inr ⟨h1, x, h2, h3, h4⟩

theorem report_sites_nodup (i : Fileid) :
    ∀ (m : Sites), (m.map Prod.fst).Nodup → (∀ p, p ∈ m → p.2.files.Nodup) →
      (report_sites i m).Nodup := by
  intro m
  induction m with
  | nil => intro _ _; exact List.nodup_nil
  | cons p rest ih =>
    obtain ⟨line, s⟩ := p
    intro hnd hfiles
    rw [List.map_cons, List.nodup_cons] at hnd
    unfold report_sites
    rw [List.nodup_append]
    refine ⟨?_, ih hnd.2 (fun p hp => hfiles p (List.mem_cons_of_mem _ hp)), ?_⟩
    · by_cases hr : s.required = false
      · rw [if_pos hr]
        refine List.Nodup.map ?_ (hfiles (line, s) (List.mem_cons_self _ _))
        intro a b hab
        cases hab; rfl
      · rw [if_neg hr]; exact List.nodup_nil
    · intro w h1 h2
      obtain ⟨_, x, hx, _⟩ := (mem_report_sites i w rest).mp h2
      by_cases hr : s.required = false
      · rw [if_pos hr, List.mem_map] at h1
        obtain ⟨fi, _, rfl⟩ := h1
        have hkey := List.mem_map_of_mem Prod.fst hx
        exact hnd.1 hkey
      · rw [if_neg hr] at h1; cases h1

theorem mem_report_site_includes (i : Fileid) (incs : List (Fileid × IncDetails))
    (w : Warning) :
    w ∈ report_sites i (site_includes incs []) ↔
      w.file = i ∧
      (∃ id, (w.included, id) ∈ incs ∧ id.direct = true ∧ w.line ∈ id.lines) ∧
      (∀ f2 id, (f2, id) ∈ incs → id.direct = true → w.line ∈ id.lines →
        id.required = false) := by
  obtain ⟨hnd, hnone, hsome⟩ := SitesOf.includes incs _ [] SitesOf.nil
  rw [mem_report_sites]
  constructor
  · rintro ⟨hfile, x, hx, hreq, hinc⟩
    rw [Sites.mem_iff_find _ _ _ hnd] at hx
    obtain ⟨h1, h2, _⟩ := hsome w.line x hx
    refine ⟨hfile, ?_, ?_⟩
    · obtain ⟨r, hE⟩ := (h2 w.included).mp hinc
      rcases hE with hE | ⟨id, hid, hd, hl, _⟩
      · exact hE.elim
      · exact ⟨id, hid, hd, hl⟩
    · intro f2 id hid hd hl
      cases hr : id.required with
      | false => rfl
      | true =>
        have : x.required = true := h1.mpr ⟨f2, Or.inr ⟨id, hid, hd, hl, hr.symm⟩⟩
        rw [hreq] at this; cases this
  · rintro ⟨hfile, ⟨id, hid, hd, hl⟩, hall⟩
    refine ⟨hfile, ?_⟩
    cases hf : Sites.find w.line (site_includes incs []) with
    | none =>
      exact absurd (Or.inr ⟨id, hid, hd, hl, rfl⟩)
        ((hnone w.line).mp hf id.required w.included)
    | some x =>
      obtain ⟨h1, h2, _⟩ := hsome w.line x hf
      refine ⟨x, (Sites.mem_iff_find _ _ _ hnd).mpr hf, ?_,
        (h2 w.included).mpr ⟨id.required, Or.inr ⟨id, hid, hd, hl, rfl⟩⟩⟩
      cases hr : x.required with
      | false => rfl
      | true =>
        obtain ⟨f2, hE⟩ := h1.mp hr
        rcases hE with hE | ⟨id1, hid1, hd1, hl1, hr1⟩
        · exact hE.elim
        · have := hall f2 id1 hid1 hd1 hl1
          rw [this] at hr1; cases hr1

theorem report_site_includes_nodup (i : Fileid) (incs : List (Fileid × IncDetails)) :
    (report_sites i (site_includes incs [])).Nodup := by
  obtain ⟨hnd, _, hsome⟩ := SitesOf.includes incs _ [] SitesOf.nil
  refine report_sites_nodup i _ hnd (fun p hp => ?_)
  obtain ⟨k, x⟩ := p
  exact ((hsome k x ((Sites.mem_iff_find _ _ _ hnd).mp hp)).2.2).nodup

/-- C21: the unneeded include file part of `warning_report` prints the warning
`path(i):line: unused included file path(f)` iff `i` is in `files`, is writable, is a
compilation unit and is not the workspace file, `f` is directly included by `i` at
`line`, and none of the files directly included by `i` at `line` is required; when no
file is listed twice, no warning is printed twice. Read-only files, files that are not
compilation units and the workspace file therefore yield no such warning. -/
theorem warning_report_unused_included_files (tbl : FileTable) (input_file_id : Fileid)
    (files : List Fileid) :
    (∀ w : Warning, w ∈ include_warnings tbl input_file_id files ↔
      w.file ∈ files ∧ (tbl w.file).readonly = false ∧
      (tbl w.file).compilation_unit = true ∧ w.file ≠ input_file_id ∧
      (∃ id, (w.included, id) ∈ (tbl w.file).includes ∧ id.direct = true ∧
        w.line ∈ id.lines) ∧
      (∀ f2 id, (f2, id) ∈ (tbl w.file).includes → id.direct = true →
        w.line ∈ id.lines → id.required = false)) ∧
    (files.Nodup → (include_warnings tbl input_file_id files).Nodup) := by
  have hmem : ∀ (fs : List Fileid) (w : Warning),
      w ∈ include_warnings tbl input_file_id fs ↔
        w.file ∈ fs ∧ (tbl w.file).readonly = false ∧
        (tbl w.file).compilation_unit = true ∧ w.file ≠ input_file_id ∧
        (∃ id, (w.included, id) ∈ (tbl w.file).includes ∧ id.direct = true ∧
          w.line ∈ id.lines) ∧
        (∀ f2 id, (f2, id) ∈ (tbl w.file).includes → id.direct = true →
          w.line ∈ id.lines → id.required = false) := by
    intro fs
    induction fs with
    | nil => intro w; simp [include_warnings]
    | cons i rest ih =>
      intro w
      unfold include_warnings
      by_cases hskip : (tbl i).readonly = true ∨ (tbl i).compilation_unit = false ∨
          i = input_file_id
      · rw [if_pos hskip, ih w]
        constructor
        · rintro ⟨h1, h2⟩
          exact ⟨List.mem_cons_of_mem _ h1, h2⟩
        · rintro ⟨h1, h2, h3, h4, h5⟩
          rcases List.mem_cons.mp h1 with h1 | h1
          · rw [h1] at h2 h3 h4
            rcases hskip with hs | hs | hs
            · rw [hs] at h2; cases h2
            · rw [hs] at h3; cases h3
            · exact absurd hs h4
          · exact ⟨h1, h2, h3, h4, h5⟩
      · rw [if_neg hskip, List.mem_append, ih w, mem_report_site_includes]
        have hro : (tbl i).readonly = false := by
          cases h : (tbl i).readonly with
          | false => rfl
          | true => exact absurd (Or.inl h) hskip
        have hcu : (tbl i).compilation_unit = true := by
          cases h : (tbl i).compilation_unit with
          | true => rfl
          | false => exact absurd (Or.inr (Or.inl h)) hskip
        have hin : i ≠ input_file_id := fun h => hskip (Or.inr (Or.inr h))
        constructor
        · rintro (⟨h1, h2⟩ | ⟨h1, h2⟩)
          · rw [h1]
            exact ⟨List.mem_cons_self _ _, hro, hcu, hin, h2⟩
          · exact ⟨List.mem_cons_of_mem _ h1, h2⟩
        · rintro ⟨h1, h2, h3, h4, h5⟩
          rcases List.mem_cons.mp h1 with h1 | h1
          · rw [h1] at h5
            exact Or.inl ⟨h1, h5⟩
          · exact Or.inr ⟨h1, h2, h3, h4, h5⟩
  refine ⟨hmem files, ?_⟩
  intro hnd
  induction files with
  | nil => exact List.nodup_nil
  | cons i rest ih =>
    rw [List.nodup_cons] at hnd
    unfold include_warnings
    by_cases hskip : (tbl i).readonly = true ∨ (tbl i).compilation_unit = false ∨
        i = input_file_id
    · rw [if_pos hskip]; exact ih hnd.2
    · rw [if_neg hskip, List.nodup_append]
      refine ⟨report_site_includes_nodup i _, ih hnd.2, ?_⟩
      intro w h1 h2
      have hf1 := ((mem_report_site_includes i _ w).mp h1).1
      have hf2 := ((hmem rest w).mp h2).1
      rw [hf1] at hf2
      exact hnd.1 hf2

/-! ## garbage_collect -/

theorem gc_chars_frame (monitor : Monitor)
    (remove_from_tokid_map : EcPtr → (Tokid → Option EcPtr) → (Tokid → Option EcPtr))
    (fi : Fileid) :
    ∀ (content : List Char) (pos : Int) (st : GcState),
      (gc_chars monitor remove_from_tokid_map fi content pos st).tbl = st.tbl ∧
      (gc_chars monitor remove_from_tokid_map fi content pos st).touched_files =
        st.touched_files ∧
      (gc_chars monitor remove_from_tokid_map fi content pos st).opened = st.opened ∧
      (gc_chars monitor remove_from_tokid_map fi content pos st).includes_calls =
        st.includes_calls ∧
      (∀ e, e ∈ (gc_chars monitor remove_from_tokid_map fi content pos st).deleted →
        e ∈ st.deleted ∨ monitor.eval e = false) := by
  intro content
  induction content with
  | nil => intro pos st; exact ⟨rfl, rfl, rfl, rfl, fun e h => Or.inl h⟩
  | cons c rest ih =>
    intro pos st
    unfold gc_chars
    cases hm : st.tokmap ⟨fi, pos⟩ with
    | none => exact ih (pos + 1) st
    | some ec =>
      simp only
      by_cases he : monitor.eval ec = false
      · rw [if_pos he]
        obtain ⟨h1, h2, h3, h4, h5⟩ := ih (pos + 1)
          { st with sum := st.sum + 1, count := st.count + 1,
                    tokmap := remove_from_tokid_map ec st.tokmap,
                    deleted := st.deleted ++ [ec] }
        refine ⟨h1, h2, h3, h4, fun e h => ?_⟩
        rcases h5 e h with h | h
        · rcases List.mem_append.mp h with h | h
          · exact Or.inl h
          · rw [List.mem_singleton.mp h]; exact Or.inr he
        · exact Or.inr h
      · rw [if_neg he]
        exact ih (pos + 1) { st with sum := st.sum + 1 }

theorem FileTable.set_required_path (tbl : FileTable) (f g : Fileid) (b : Bool) :
    (tbl.set_required f b g).path = (tbl g).path ∧
    (tbl.set_required f b g).gc = (tbl g).gc ∧
    (tbl.set_required f b g).required = (if g = f then b else (tbl g).required) := by
  unfold FileTable.set_required
  by_cases h : g = f
  · simp only [if_pos h, and_self]
  · simp only [if_neg h, and_self]

theorem FileTable.set_gc_path (tbl : FileTable) (f g : Fileid) (b : Bool) :
    (tbl.set_gc f b g).path = (tbl g).path ∧
    (tbl.set_gc f b g).required = (tbl g).required ∧
    (tbl.set_gc f b g).gc = (if g = f then b else (tbl g).gc) := by
  unfold FileTable.set_gc
  by_cases h : g = f
  · simp only [if_pos h, and_self]
  · simp only [if_neg h, and_self]

theorem gc_files_step (tbl : FileTable) (fi : Fileid) (_ : (tbl fi).gc = false)
    (f : Fileid) :
    (((tbl.set_required fi false).set_gc fi true) f).path = (tbl f).path ∧
    (((tbl.set_required fi false).set_gc fi true) f).gc =
      ((tbl f).gc || decide (f = fi)) ∧
    (((tbl.set_required fi false).set_gc fi true) f).required =
      (if f = fi then false else (tbl f).required) := by
  obtain ⟨h1, h2, h3⟩ := FileTable.set_gc_path (tbl.set_required fi false) fi f true
  obtain ⟨h4, h5, h6⟩ := FileTable.set_required_path tbl fi f false
  refine ⟨h1.trans h4, ?_, h2.trans h6⟩
  rw [h3, h5]
  by_cases h : f = fi
  · rw [if_pos h]; simp [h]
  · rw [if_neg h]; simp [h]

theorem gc_files_spec (monitor : Monitor)
    (remove_from_tokid_map : EcPtr → (Tokid → Option EcPtr) → (Tokid → Option EcPtr))
    (fs : FS) :
    ∀ (files : List Fileid) (st : GcState),
      (monitor.is_valid = true → ∀ f, f ∈ files → (st.tbl f).gc = false →
        fs (st.tbl f).path ≠ none) →
      ∃ st1, gc_files monitor remove_from_tokid_map fs files st = some st1 ∧
        (∀ f, (st1.tbl f).path = (st.tbl f).path) ∧
        (∀ f, (st1.tbl f).gc = ((st.tbl f).gc || decide (f ∈ files))) ∧
        (∀ f, (st1.tbl f).required =
          if (st.tbl f).gc = false ∧ f ∈ files then false else (st.tbl f).required) ∧
        (∀ f, f ∈ st1.touched_files ↔
          f ∈ st.touched_files ∨ (f ∈ files ∧ (st.tbl f).gc = false)) ∧
        (∀ e, e ∈ st1.deleted →
          e ∈ st.deleted ∨ (monitor.is_valid = true ∧ monitor.eval e = false)) ∧
        (∀ f, f ∈ st1.opened →
          f ∈ st.opened ∨ (f ∈ files ∧ (st.tbl f).gc = false ∧ monitor.is_valid = true)) ∧
        (monitor.is_valid = false →
          st1.deleted = st.deleted ∧ st1.opened = st.opened ∧ st1.tokmap = st.tokmap) ∧
        st1.includes_calls = st.includes_calls := by
  intro files
  induction files with
  | nil =>
    intro st _
    refine ⟨st, rfl, fun f => rfl, fun f => by simp, fun f => by simp, fun f => by simp,
      fun e h => Or.inl h, fun f h => Or.inl h, fun _ => ⟨rfl, rfl, rfl⟩, rfl⟩
  | cons fi rest ih =>
    intro st hopen
    unfold gc_files
    by_cases hgc : (st.tbl fi).gc = true
    · rw [if_pos hgc]
      obtain ⟨st1, hrun, hpath, hgcs, hreq, htouch, hdel, hop, hinv, hcalls⟩ :=
        ih st (fun hv f hf hg => hopen hv f (List.mem_cons_of_mem _ hf) hg)
      refine ⟨st1, hrun, hpath, fun f => ?_, fun f => ?_, fun f => ?_, hdel, fun f h => ?_,
        hinv, hcalls⟩
      · rw [hgcs f]
        by_cases h : f = fi
        · subst h; simp [hgc]
        · simp [h]
      · rw [hreq f]
        by_cases h : f = fi
        · subst h; simp [hgc]
        · simp [h]
      · rw [htouch f]
        by_cases h : f = fi
        · subst h; simp [hgc]
        · simp [h]
      · rcases hop f h with h | ⟨h1, h2⟩
        · exact Or.inl h
        · exact Or.inr ⟨List.mem_cons_of_mem _ h1, h2⟩
    · rw [if_neg hgc]
      have hgcf : (st.tbl fi).gc = false := by
        cases h : (st.tbl fi).gc with
        | false => rfl
        | true => exact absurd h hgc
      simp only
      by_cases hv : monitor.is_valid = false
      · rw [if_pos hv]
        have hv1 : ¬ monitor.is_valid = true := by rw [hv]; simp
        obtain ⟨st1, hrun, hpath, hgcs, hreq, htouch, hdel, hop, hinv, hcalls⟩ :=
          ih { tbl := (st.tbl.set_required fi false).set_gc fi true, tokmap := st.tokmap,
               touched_files := IFSet.insert fi st.touched_files, count := st.count,
               sum := st.sum, deleted := st.deleted, opened := st.opened,
               includes_calls := st.includes_calls }
            (fun h => absurd h hv1)
        refine ⟨st1, hrun, fun f => ?_, fun f => ?_, fun f => ?_, fun f => ?_, hdel,
          fun f h => ?_, hinv, hcalls⟩
        · rw [hpath f]; exact (gc_files_step st.tbl fi hgcf f).1
        · rw [hgcs f, (gc_files_step st.tbl fi hgcf f).2.1]
          simp [Bool.or_assoc]
        · rw [hreq f, (gc_files_step st.tbl fi hgcf f).2.2, (gc_files_step st.tbl fi hgcf f).2.1]
          by_cases h : f = fi
          · subst h; simp [hgcf]
          · simp [h]
        · rw [htouch f, IFSet.mem_insert, (gc_files_step st.tbl fi hgcf f).2.1]
          by_cases h : f = fi
          · subst h; simp [hgcf]
          · simp [h]
        · rcases hop f h with h | ⟨_, _, h3⟩
          · exact Or.inl h
          · exact absurd h3 hv1
      · rw [if_neg hv]
        have hv1 : monitor.is_valid = true := by
          cases h : monitor.is_valid with
          | true => rfl
          | false => exact absurd h hv
        rw [(FileTable.set_required_path st.tbl fi fi false).1]
        cases hfs : fs (st.tbl fi).path with
        | none => exact absurd hfs (hopen hv1 fi (List.mem_cons_self _ _) hgcf)
        | some content =>
          simp only
          obtain ⟨c1, c2, c3, c4, c5⟩ := gc_chars_frame monitor remove_from_tokid_map fi
            content 0
            { tbl := st.tbl.set_required fi false, tokmap := st.tokmap,
              touched_files := IFSet.insert fi st.touched_files, count := st.count,
              sum := st.sum, deleted := st.deleted, opened := st.opened ++ [fi],
              includes_calls := st.includes_calls }
          simp only at c1 c2 c3 c4 c5
          obtain ⟨st1, hrun, hpath, hgcs, hreq, htouch, hdel, hop, hinv, hcalls⟩ :=
            ih { gc_chars monitor remove_from_tokid_map fi content 0
                  { tbl := st.tbl.set_required fi false, tokmap := st.tokmap,
                    touched_files := IFSet.insert fi st.touched_files, count := st.count,
                    sum := st.sum, deleted := st.deleted, opened := st.opened ++ [fi],
                    includes_calls := st.includes_calls } with
                 tbl := (gc_chars monitor remove_from_tokid_map fi content 0
                  { tbl := st.tbl.set_required fi false, tokmap := st.tokmap,
                    touched_files := IFSet.insert fi st.touched_files, count := st.count,
                    sum := st.sum, deleted := st.deleted, opened := st.opened ++ [fi],
                    includes_calls := st.includes_calls }).tbl.set_gc fi true }
              (by
                intro _ f hf hg
                simp only [c1] at hg ⊢
                rw [(gc_files_step st.tbl fi hgcf f).1]
                rw [(gc_files_step st.tbl fi hgcf f).2.1] at hg
                refine hopen hv1 f (List.mem_cons_of_mem _ hf) ?_
                cases h : (st.tbl f).gc with
                | false => rfl
                | true => rw [h] at hg; simp at hg)
          simp only [c1, c2, c3, c4] at hpath hgcs hreq htouch hdel hop hinv hcalls
          refine ⟨st1, hrun, fun f => ?_, fun f => ?_, fun f => ?_, fun f => ?_,
            fun e h => ?_, fun f h => ?_, fun h => absurd h hv, hcalls⟩
          · rw [hpath f]; exact (gc_files_step st.tbl fi hgcf f).1
          · rw [hgcs f, (gc_files_step st.tbl fi hgcf f).2.1]
            simp [Bool.or_assoc]
          · rw [hreq f, (gc_files_step st.tbl fi hgcf f).2.2,
              (gc_files_step st.tbl fi hgcf f).2.1]
            by_cases h : f = fi
            · subst h; simp [hgcf]
            · simp [h]
          · rw [htouch f, IFSet.mem_insert, (gc_files_step st.tbl fi hgcf f).2.1]
            by_cases h : f = fi
            · subst h; simp [hgcf]
            · simp [h]
          · rcases hdel e h with h | h
            · rcases c5 e h with h | h
              · exact Or.inl h
              · exact Or.inr ⟨hv1, h⟩
            · exact Or.inr h
          · rcases hop f h with h | ⟨h1, h2, h3⟩
            · rcases List.mem_append.mp h with h | h
              · exact Or.inl h
              · rw [List.mem_singleton.mp h]
                exact Or.inr ⟨List.mem_cons_self _ _, hgcf, hv1⟩
            · rw [(gc_files_step st.tbl fi hgcf f).2.1] at h2
              refine Or.inr ⟨List.mem_cons_of_mem _ h1, ?_, h3⟩
              cases h : (st.tbl f).gc with
              | false => rfl
              | true => rw [h] at h2; simp at h2

theorem gc_includes_spec (root input_file_id : Fileid) :
    ∀ (l : List Fileid) (st : GcState),
      (gc_includes root input_file_id l st).tbl = st.tbl ∧
      (gc_includes root input_file_id l st).tokmap = st.tokmap ∧
      (gc_includes root input_file_id l st).deleted = st.deleted ∧
      (gc_includes root input_file_id l st).opened = st.opened ∧
      (∀ f d r, (f, d, r) ∈ (gc_includes root input_file_id l st).includes_calls ↔
        (f, d, r) ∈ st.includes_calls ∨
          (f ∈ l ∧ f ≠ root ∧ f ≠ input_file_id ∧ d = false ∧ r = (st.tbl f).required)) := by
  intro l
  induction l with
  | nil => intro st; exact ⟨rfl, rfl, rfl, rfl, fun f d r => by simp [gc_includes]⟩
  | cons i rest ih =>
    intro st
    unfold gc_includes
    by_cases hi : i ≠ root ∧ i ≠ input_file_id
    · rw [if_pos hi]
      obtain ⟨h1, h2, h3, h4, h5⟩ := ih
        { st with includes_calls := st.includes_calls ++ [(i, false, (st.tbl i).required)] }
      refine ⟨h1, h2, h3, h4, fun f d r => ?_⟩
      rw [h5 f d r]
      simp only [List.mem_append, List.mem_singleton, Prod.mk.injEq, List.mem_cons,
        List.not_mem_nil, or_false]
      have hr := hi.1
      have hinp := hi.2
      by_cases hfi : f = i
      · subst hfi; tauto
      · tauto
    · rw [if_neg hi]
      obtain ⟨h1, h2, h3, h4, h5⟩ := ih st
      refine ⟨h1, h2, h3, h4, fun f d r => ?_⟩
      rw [h5 f d r]
      simp only [List.mem_cons]
      constructor
      · rintro (h | ⟨h6, h7⟩)
        · exact Or.inl h
        · exact Or.inr ⟨Or.inr h6, h7⟩
      · rintro (h | ⟨h6 | h6, h7, h8, h9⟩)
        · exact Or.inl h
        · subst h6; exact absurd ⟨h7, h8⟩ hi
        · exact Or.inr ⟨h6, h7, h8, h9⟩

theorem FileTable.set_compilation_unit_path (tbl : FileTable) (f g : Fileid) (b : Bool) :
    (tbl.set_compilation_unit f b g).path = (tbl g).path ∧
    (tbl.set_compilation_unit f b g).gc = (tbl g).gc ∧
    (tbl.set_compilation_unit f b g).required = (tbl g).required := by
  unfold FileTable.set_compilation_unit
  by_cases h : g = f
  · simp only [if_pos h, and_self]
  · simp only [if_neg h, and_self]

theorem Fdep.mark_required_gc (required_files : List Fileid) (tbl : FileTable)
    (g : Fileid) :
    (Fdep.mark_required required_files tbl g).gc = (tbl g).gc ∧
    ((Fdep.mark_required required_files tbl g).required = true ↔
      g ∈ required_files ∨ (tbl g).required = true) := by
  unfold Fdep.mark_required
  by_cases h : g ∈ required_files
  · rw [if_pos h]; exact ⟨rfl, by simp [h]⟩
  · rw [if_neg h]; exact ⟨rfl, by simp [h]⟩

/-- C26: when every file of `files` that is not yet garbage collected can be opened
(or no valid monitor is set), `garbage_collect(root)` returns, and: every class it
deletes fails the monitoring predicate of a valid monitor; without a valid monitor it
deletes no class, opens no file and leaves the Tokid map as it was; each file of `files`
not previously garbage collected has its required flag reset by the loop and ends
marked garbage collected (its final required flag is the mark of `Fdep::mark_required`
alone); a file already marked keeps its flags through the loop, is not opened and is
not passed to `root.includes`; the calls `root.includes(f, false, f.required())` are
made for exactly the files of `files` not previously garbage collected, other than
the root and the workspace file. -/
theorem garbage_collect_removes_only_unmonitored (monitor : Monitor)
    (remove_from_tokid_map : EcPtr → (Tokid → Option EcPtr) → (Tokid → Option EcPtr))
    (fs : FS) (required_files : List Fileid) (input_file_id : Fileid)
    (files : List Fileid) (root : Fileid) (tbl : FileTable)
    (tokmap : Tokid → Option EcPtr)
    (hopen : monitor.is_valid = true → ∀ f, f ∈ files → (tbl f).gc = false →
      fs (tbl f).path ≠ none) :
    ∃ st1 st,
      gc_files monitor remove_from_tokid_map fs files
        ⟨tbl.set_compilation_unit root true, tokmap, [], 0, 0, [], [], []⟩ = some st1 ∧
      garbage_collect monitor remove_from_tokid_map fs required_files input_file_id
        files root tbl tokmap = some st ∧
      (∀ e, e ∈ st.deleted → monitor.is_valid = true ∧ monitor.eval e = false) ∧
      (monitor.is_valid = false →
        st.deleted = [] ∧ st.opened = [] ∧ st.tokmap = tokmap) ∧
      (∀ f, f ∈ files → (tbl f).gc = false →
        (st1.tbl f).required = false ∧ (st1.tbl f).gc = true ∧ (st.tbl f).gc = true ∧
        ((st.tbl f).required = true ↔ f ∈ required_files)) ∧
      (∀ f, (tbl f).gc = true →
        (st1.tbl f).required = (tbl f).required ∧ (st1.tbl f).gc = true ∧
        (st.tbl f).gc = true ∧ f ∉ st.opened ∧ ∀ d r, (f, d, r) ∉ st.includes_calls) ∧
      (∀ f d r, (f, d, r) ∈ st.includes_calls ↔
        f ∈ files ∧ (tbl f).gc = false ∧ f ≠ root ∧ f ≠ input_file_id ∧ d = false ∧
        r = (st.tbl f).required) := by
  have hsc := FileTable.set_compilation_unit_path tbl root
  obtain ⟨st1, hrun, hpath, hgcs, hreq, htouch, hdel, hop, hinv, hcalls⟩ :=
    gc_files_spec monitor remove_from_tokid_map fs files
      ⟨tbl.set_compilation_unit root true, tokmap, [], 0, 0, [], [], []⟩
      (by
        intro hv f hf hg
        simp only [(hsc f true).1, (hsc f true).2.1] at hg ⊢
        exact hopen hv f hf hg)
  simp only [(hsc _ true).1, (hsc _ true).2.1, (hsc _ true).2.2, List.not_mem_nil,
    false_or] at hpath hgcs hreq htouch hdel hop hinv hcalls
  obtain ⟨i1, i2, i3, i4, i5⟩ := gc_includes_spec root input_file_id st1.touched_files
    { st1 with tbl := Fdep.mark_required required_files st1.tbl }
  simp only at i1 i2 i3 i4 i5
  generalize hst : gc_includes root input_file_id st1.touched_files
    { st1 with tbl := Fdep.mark_required required_files st1.tbl } = st at i1 i2 i3 i4 i5
  have hgc : garbage_collect monitor remove_from_tokid_map fs required_files input_file_id
      files root tbl tokmap = some st := by
    unfold garbage_collect
    rw [hrun]
    exact congrArg some hst
  refine ⟨st1, st, hrun, hgc, ?_, ?_, ?_, ?_, ?_⟩
  · intro e he
    rw [i3] at he
    exact hdel e he
  · intro hv
    rw [i3, i4, i2]
    exact hinv hv
  · intro f hf hg
    have h1 : (st1.tbl f).required = false := by
      rw [hreq f, if_pos ⟨hg, hf⟩]
    have h2 : (st1.tbl f).gc = true := by
      rw [hgcs f]; simp [hf]
    refine ⟨h1, h2, ?_, ?_⟩
    · rw [i1, (Fdep.mark_required_gc required_files st1.tbl f).1]; exact h2
    · rw [i1, (Fdep.mark_required_gc required_files st1.tbl f).2, h1]
      simp
  · intro f hg
    have h2 : (st1.tbl f).gc = true := by
      rw [hgcs f, hg]; rfl
    refine ⟨?_, h2, ?_, ?_, ?_⟩
    · rw [hreq f, if_neg (by rw [hg]; simp)]
    · rw [i1, (Fdep.mark_required_gc required_files st1.tbl f).1]; exact h2
    · rw [i4]
      intro h
      obtain ⟨_, h3, _⟩ := hop f h
      rw [hg] at h3; cases h3
    · intro d r h
      rw [i5, hcalls] at h
      rcases h with h | ⟨h, _⟩
      · cases h
      · obtain ⟨_, h3⟩ := (htouch f).mp h
        rw [hg] at h3; cases h3
  · intro f d r
    rw [i5, hcalls, htouch f, i1]
    simp only [List.not_mem_nil, false_or]
    tauto

theorem garbage_collect_removes_only_unmonitored_witness :
    (example_monitor.is_valid = true → ∀ f, f ∈ [0, 1, 2] →
      (example_file_table f).gc = false → example_fs (example_file_table f).path ≠ none) ∧
    ∃ st1 st,
      gc_files example_monitor example_remove example_fs [0, 1, 2]
        ⟨example_file_table.set_compilation_unit 0 true, (example_world "" false).tokmap,
          [], 0, 0, [], [], []⟩ = some st1 ∧
      garbage_collect example_monitor example_remove example_fs [0] 9 [0, 1, 2] 0
        example_file_table (example_world "" false).tokmap = some st ∧
      (∀ e, e ∈ st.deleted → example_monitor.is_valid = true ∧
        example_monitor.eval e = false) ∧
      (example_monitor.is_valid = false →
        st.deleted = [] ∧ st.opened = [] ∧ st.tokmap = (example_world "" false).tokmap) ∧
      (∀ f, f ∈ [0, 1, 2] → (example_file_table f).gc = false →
        (st1.tbl f).required = false ∧ (st1.tbl f).gc = true ∧ (st.tbl f).gc = true ∧
        ((st.tbl f).required = true ↔ f ∈ [0])) ∧
      (∀ f, (example_file_table f).gc = true →
        (st1.tbl f).required = (example_file_table f).required ∧ (st1.tbl f).gc = true ∧
        (st.tbl f).gc = true ∧ f ∉ st.opened ∧ ∀ d r, (f, d, r) ∉ st.includes_calls) ∧
      (∀ f d r, (f, d, r) ∈ st.includes_calls ↔
        f ∈ [0, 1, 2] ∧ (example_file_table f).gc = false ∧ f ≠ 0 ∧ f ≠ 9 ∧ d = false ∧
        r = (st.tbl f).required) :=
  have hopen : example_monitor.is_valid = true → ∀ f, f ∈ [0, 1, 2] →
      (example_file_table f).gc = false →
      example_fs (example_file_table f).path ≠ none := by
    intro _ f hf _
    simp only [List.mem_cons, List.mem_singleton, List.not_mem_nil, or_false] at hf
    rcases hf with rfl | rfl | rfl <;> simp_all [example_file_table, example_fs]
  ⟨hopen, garbage_collect_removes_only_unmonitored example_monitor example_remove
    example_fs [0] 9 [0, 1, 2] 0 example_file_table (example_world "" false).tokmap hopen⟩

end CScout
